import Mathlib

/-!
The package hashprobe: batched linear-probing tables for 32- and 64-bit keys

A shallow embedding of `hashprobe/hashprobe.go`.

Modelling conventions.

* The two engines `table32bits` and `table64bits` are the same code up to the
  word width, so they are embedded once, over a `Width`, and instantiated.
* Go's `int` is a 64-bit two's complement integer: arithmetic on it is done in
  `Int` and wrapped by `int64wrap`; `uintptr` is a 64-bit unsigned word.
  Fields that hold a length (`len`, `cap`) are stored as naturals.
* A slice is the list of the elements of its backing array, from the start of
  the slice up to its capacity: a slice expression `s[i:j:j]` panics exactly
  when `j` exceeds that length.
* `maxLoad` is a finite `float64`.  Every finite float is a rational number and
  the product with a power of two below `2^63` is exact, so `maxLoad` is a
  rational and `math.Ceil` is the integer ceiling.
* The hash functions (`aeshash`, `wyhash`) are assembly: the hash is a
  parameter `hash key seed` of every definition, and `randSeed` is the `seed`
  argument of the operation that draws it.
* Memory is not bounded in `makeSlice`, `init`, `makeTableBits` and `grow`:
  there `make` panics only when the length it is given is negative, as it is
  after the length computation has overflowed.  Every table that the program
  can make is a table of this model, so what holds in all reachable states of
  the model holds in all states of the program.  What the constructor returns
  and when it panics is settled on `makeTableLimited`, which adds the limit of
  the runtime on one allocation (`maxAlloc`, amd64).
* An identifier is the number `len` at the time the key is stored.  The program
  holds it in an `int32`, which can hold it while the table has seen at most
  `2^31` distinct keys; the theorems on the exact identifiers carry this bound.
* An unbounded `for` loop is a recursion on fuel that is large enough for every
  terminating run: running out of fuel is the outcome `hang`.
-/

namespace hashprobe

/-! ## Machine integers -/

/-- The word width of an engine: 32 for `table32bits`, 64 for `table64bits`. -/
inductive Width where
  | w32
  | w64
  deriving DecidableEq, Repr

/-- Number of bits of a word. -/
def Width.bits : Width → Nat
  | .w32 => 32
  | .w64 => 64

/-- Wrap an integer to Go's 64-bit `int`. -/
def int64wrap (x : Int) : Int :=
  (9223372036854775808 + x) % 18446744073709551616 - 9223372036854775808

/-- Conversion of an `int` to `uint64` / `uintptr`. -/
def uintptr (x : Int) : Nat :=
  (x % 18446744073709551616).toNat

/-- Number of bits needed to write `x`, looking at `fuel` bits. -/
def bitLen : Nat → Nat → Nat
  | 0, _ => 0
  | fuel + 1, x => if x = 0 then 0 else bitLen fuel (x / 2) + 1

/-- The function `bits.LeadingZeros64` on a 64-bit word. -/
def LeadingZeros64 (x : Nat) : Nat :=
  64 - bitLen 64 x

/-- Number of low zero bits of `f` among its first `fuel` bits. -/
def lowZeros : Nat → Nat → Nat
  | 0, _ => 0
  | fuel + 1, f => if f % 2 = 1 then 0 else lowZeros fuel (f / 2) + 1

/-- The functions `bits.TrailingZeros32` and `bits.TrailingZeros64`: the width
for the zero word. -/
def TrailingZeros (w : Width) (f : Nat) : Nat :=
  lowZeros w.bits f

/-- Bitwise complement `^f` of a word. -/
def complement (w : Width) (f : Nat) : Nat :=
  2 ^ w.bits - 1 - f

/-- The function `nextPowerOf2`: `1 << (64 - bits.LeadingZeros64(uint64(n-1)))`
as an `int`. -/
def nextPowerOf2 (n : Int) : Int :=
  int64wrap ((1 <<< (64 - LeadingZeros64 (uintptr (n - 1))) : Nat) : Int)

/-! ## Outcomes -/

/-- How a call ends: it returns, it panics leaving a state behind, or it never
returns. -/
inductive Outcome (α : Type) where
  | done (a : α)
  | panic (a : α)
  | hang
  deriving DecidableEq, Repr

/-! ## The table -/

/-- The structs `table32bits` and `table64bits`. -/
structure tableBits where
  len : Nat
  cap : Nat
  maxLen : Int
  maxLoad : ℚ
  seed : Nat
  table : List Nat
  deriving DecidableEq

/-- The allocation `make([]uintW, n)`: a zeroed slice, or a panic when the
length is negative.  The limit of the runtime on the size of an allocation is
left out here; `makeTableLimited` has it. -/
def makeSlice (n : Int) : Option (List Nat) :=
  if n < 0 then none else some (List.replicate n.toNat 0)

/-- The method `init`.  The table is returned instead of stored through the
receiver; `none` is the panic of `make`.  `maxLen` is the ceiling as an integer,
which is what `int(math.Ceil(x))` gives while `|x| < 2^63`. -/
def tableBits.init (w : Width) (cap : Int) (maxLoad : ℚ) (seed : Nat) : Option tableBits :=
  match makeSlice (int64wrap (int64wrap (Int.tdiv cap w.bits) + int64wrap (2 * cap))) with
  | none => none
  | some buf =>
    some { len := 0, cap := cap.toNat, maxLen := ⌈maxLoad * (cap : ℚ)⌉, maxLoad := maxLoad,
           seed := seed, table := buf }

/-- The functions `makeTable32bits` and `makeTable64bits`. -/
def makeTableBits (w : Width) (cap : Int) (maxLoad : ℚ) (seed : Nat) : Option tableBits :=
  let cap := if cap < (w.bits : Int) then (w.bits : Int) else cap
  tableBits.init w (nextPowerOf2 cap) maxLoad seed

/-- The method `content`: the bitmap words and the slot words of the buffer. -/
def tableBits.content (w : Width) (t : tableBits) : List Nat × List Nat :=
  let n := t.cap / w.bits
  (t.table.take n, t.table.drop n)

/-- The inner loop of `insert`: walk from `hash` to the first slot whose
occupancy bit is unset and store the pair there. -/
def insertWalk (w : Width) (mod key value : Nat) (flags table : List Nat) :
    Nat → Nat → Option (List Nat × List Nat)
  | 0, _ => none
  | fuel + 1, hash =>
    let position := hash &&& mod
    let index := position / w.bits
    let shift := position % w.bits
    if flags.getD index 0 &&& (1 <<< shift) = 0 then
      some (flags.set index (flags.getD index 0 ||| (1 <<< shift)),
            (table.set (2 * position + 0) key).set (2 * position + 1) value)
    else
      insertWalk w mod key value flags table fuel ((hash + 1) % 18446744073709551616)

/-- The outer loop of `insert` over the pairs.  A last key without a value word
ends the loop here; on it the code would store the key and panic at
`pairs[i+1]`, but `grow` passes slices of even length only. -/
def insertLoop (w : Width) (hash : Nat → Nat → Nat) (seed mod fuel : Nat) :
    List Nat → List Nat → List Nat → Option (List Nat × List Nat)
  | flags, table, key :: value :: rest =>
    match insertWalk w mod key value flags table fuel (hash key seed % 18446744073709551616) with
    | none => none
    | some (flags, table) => insertLoop w hash seed mod fuel flags table rest
  | flags, table, _ => some (flags, table)

/-- The method `insert`; `none` when a walk never ends.  A walk that has made
`cap` steps has seen every slot and is back where it started. -/
def tableBits.insert (w : Width) (hash : Nat → Nat → Nat) (t : tableBits) (pairs : List Nat) :
    Option tableBits :=
  let (flags, table) := t.content w
  let mod := (18446744073709551615 + uintptr t.cap) % 18446744073709551616
  match insertLoop w hash t.seed mod t.cap flags table pairs with
  | none => none
  | some (flags, table) => some { t with table := flags ++ table }

/-- The inner `for` loop of `grow`: from slot `j`, whose bit is the lowest bit
of `f`, insert run after run of occupied slots of one bitmap word. -/
def growRuns (w : Width) (hash : Nat → Nat → Nat) (pairs : List Nat) :
    Nat → tableBits → Nat → Nat → Option tableBits
  | 0, _, _, _ => none
  | fuel + 1, tmp, j, f =>
    let n := TrailingZeros w (complement w f)
    let k := j + n
    match tmp.insert w hash ((pairs.take (2 * k)).drop (2 * j)) with
    | none => none
    | some tmp =>
      let j := j + n
      let f := f >>> n
      if f = 0 then some tmp
      else
        let n := TrailingZeros w f
        growRuns w hash pairs fuel tmp (j + n) (f >>> n)

/-- The loop of `grow` over the bitmap words, `i` being the index of the first
word of the list. -/
def growWords (w : Width) (hash : Nat → Nat → Nat) (pairs : List Nat) :
    List Nat → Nat → tableBits → Option tableBits
  | [], _, tmp => some tmp
  | f :: flags, i, tmp =>
    if f ≠ 0 then
      let j := w.bits * i
      let n := TrailingZeros w f
      match growRuns w hash pairs w.bits tmp (j + n) (f >>> n) with
      | none => none
      | some tmp => growWords w hash pairs flags (i + 1) tmp
    else growWords w hash pairs flags (i + 1) tmp

/-- The second half of `grow`, after `init` has returned `tmp` or `make` has
panicked: copy `len`, re-insert the pairs, replace the table. -/
def tableBits.rehash (w : Width) (hash : Nat → Nat → Nat) (t : tableBits) :
    Option tableBits → Outcome tableBits
  | none => .panic t
  | some tmp =>
    match growWords w hash (t.content w).2 (t.content w).1 0 { tmp with len := t.len } with
    | none => .hang
    | some tmp => .done tmp

/-- The method `grow`; `seed` is the seed drawn by `init`. -/
def tableBits.grow (w : Width) (hash : Nat → Nat → Nat) (t : tableBits) (totalValues : Int)
    (seed : Nat) : Outcome tableBits :=
  let cap := int64wrap (2 * (t.cap : Int))
  let totalValues := nextPowerOf2 totalValues
  let cap := if totalValues > cap then totalValues else cap
  t.rehash w hash (tableBits.init w cap t.maxLoad seed)

/-- The method `reset`. -/
def tableBits.reset (t : tableBits) : tableBits :=
  { t with table := t.table.map (fun _ => 0), len := 0 }

/-- Modelled from the spec: the hash provider's `multi_hash`, which is assembly
(`MultiHash32`, `MultiHash64`): element by element the scalar hash. -/
def multiHash (hash : Nat → Nat → Nat) (values : List Nat) (seed : Nat) : List Nat :=
  values.map (fun v => hash v seed % 18446744073709551616)

/-- Modelled from the spec: the slot walk of the probe kernel for one key
(section 4.3, step 3), from `position`.  The result is the bitmap, the slots,
the new `len` and the identifier written to the output. -/
def probeWalk (w : Width) (cap key len : Nat) (flags slots : List Nat) :
    Nat → Nat → Option (List Nat × List Nat × Nat × Nat)
  | 0, _ => none
  | fuel + 1, position =>
    let index := position / w.bits
    let shift := position % w.bits
    if flags.getD index 0 &&& (1 <<< shift) = 0 then
      some (flags.set index (flags.getD index 0 ||| (1 <<< shift)),
            (slots.set (2 * position) key).set (2 * position + 1) len, len + 1, len)
    else if slots.getD (2 * position) 0 = key then
      some (flags, slots, len, slots.getD (2 * position + 1) 0)
    else
      probeWalk w cap key len flags slots fuel ((position + 1) &&& (cap - 1))

/-- Modelled from the spec: the loop of the probe kernel over the hashed keys
of a sub-batch, in index order.  The identifiers are the numbers `len`, which
the program writes to `int32` values: they are the same numbers below `2^31`. -/
def probeKeys (w : Width) (cap : Nat) :
    List Nat → List Nat → Nat → List (Nat × Nat) → Option (List Nat × List Nat × Nat × List Int)
  | flags, slots, len, [] => some (flags, slots, len, [])
  | flags, slots, len, (h, key) :: rest =>
    match probeWalk w cap key len flags slots cap (h &&& (cap - 1)) with
    | none => none
    | some (flags, slots, len, id) =>
      match probeKeys w cap flags slots len rest with
      | none => none
      | some (flags, slots, len, ids) => some (flags, slots, len, (id : Int) :: ids)

/-- Modelled from the spec: the probe kernel `multiProbe32bits` /
`multiProbe64bits`, which is not part of the sources at hand.  It works on the
two views of the buffer (section 4.2) and returns the buffer, the new `len`
and the identifiers of the sub-batch; `none` when a walk never ends. -/
def multiProbe (w : Width) (table : List Nat) (len cap : Nat) (hashes keys : List Nat) :
    Option (List Nat × Nat × List Int) :=
  let n := cap / w.bits
  match probeKeys w cap (table.take n) (table.drop n) len (hashes.zip keys) with
  | none => none
  | some (flags, slots, len, ids) => some (flags ++ slots, len, ids)

/-- The loop of `probe` over windows of at most 128 keys, from index `i`. -/
def probeLoop (w : Width) (hash : Nat → Nat → Nat) (keys : List Nat) :
    Nat → Nat → tableBits → List Int → Outcome (tableBits × List Int)
  | 0, i, t, values => if i < keys.length then .hang else .done (t, values)
  | fuel + 1, i, t, values =>
    if i < keys.length then
      let j := 128 + i
      let n := 128
      let jn : Nat × Nat := if j > keys.length then (keys.length, keys.length - i) else (j, n)
      let j := jn.1
      let n := jn.2
      let hashes := (multiHash hash ((keys.take j).drop i) t.seed).take n
      if j > values.length then .panic (t, values)
      else
        match multiProbe w t.table t.len t.cap hashes ((keys.take j).drop i) with
        | none => .hang
        | some (table, len, ids) =>
          probeLoop w hash keys fuel j { t with table := table, len := len }
            (values.take i ++ ids ++ values.drop j)
    else .done (t, values)

/-- The second half of `probe`, after the growth check has ended as `grown`:
the loop over the windows, unless `grow` did not return. -/
def probeGrown (w : Width) (hash : Nat → Nat → Nat) (keys : List Nat) (values : List Int) :
    Outcome tableBits → Outcome (tableBits × List Int)
  | .done t => probeLoop w hash keys keys.length 0 t values
  | .panic t => .panic (t, values)
  | .hang => .hang

/-- The method `probe`; `seed` is the seed that `grow` draws when it runs. -/
def tableBits.probe (w : Width) (hash : Nat → Nat → Nat) (t : tableBits) (keys : List Nat)
    (values : List Int) (seed : Nat) : Outcome (tableBits × List Int) :=
  let totalValues := int64wrap ((t.len : Int) + (keys.length : Int))
  probeGrown w hash keys values
    (if totalValues > t.maxLen then t.grow w hash totalValues seed else .done t)


/-! ## Reading a table -/

/-- Occupancy bit of slot `p` in the bitmap `flags`. -/
def occupied (w : Width) (flags : List Nat) (p : Nat) : Bool :=
  (flags.getD (p / w.bits) 0).testBit (p % w.bits)

/-- Key word of slot `p`. -/
def keyAt (slots : List Nat) (p : Nat) : Nat :=
  slots.getD (2 * p) 0

/-- Value word of slot `p`. -/
def valAt (slots : List Nat) (p : Nat) : Nat :=
  slots.getD (2 * p + 1) 0

/-- Slot at which the walk for `key` starts. -/
def home (hash : Nat → Nat → Nat) (seed cap key : Nat) : Nat :=
  (hash key seed % 18446744073709551616) % cap

/-- The bitmap after the occupancy bit of slot `p` has been set. -/
def setFlag (w : Width) (flags : List Nat) (p : Nat) : List Nat :=
  flags.set (p / w.bits) (flags.getD (p / w.bits) 0 ||| (1 <<< (p % w.bits)))

/-- The slots after the pair `(key, value)` has been stored in slot `p`. -/
def setSlot (slots : List Nat) (p key value : Nat) : List Nat :=
  (slots.set (2 * p) key).set (2 * p + 1) value


/-! ## Invariants -/

/-- Number of slots below `cap` whose occupancy bit is set. -/
def occupiedCount (w : Width) (cap : Nat) (flags : List Nat) : Nat :=
  (List.range cap).countP (occupied w flags)

/-- Shape of the two views of the buffer of a table of capacity `cap`. -/
structure Layout (w : Width) (cap : Nat) (flags slots : List Nat) : Prop where
  pow : ∃ e, cap = 2 ^ e ∧ e ≤ 61
  dvd : w.bits ∣ cap
  flagsLen : flags.length = cap / w.bits
  slotsLen : slots.length = 2 * cap
  wordsLt : ∀ x ∈ flags, x < 2 ^ w.bits

/-- The chain invariant: from the home slot of the key of an occupied slot up
to that slot, cyclically, every slot is occupied. -/
def Chained (w : Width) (hash : Nat → Nat → Nat) (seed cap : Nat) (flags slots : List Nat) : Prop :=
  ∀ p, p < cap → occupied w flags p = true →
    ∀ j, j ≤ (p + cap - home hash seed cap (keyAt slots p)) % cap →
      occupied w flags ((home hash seed cap (keyAt slots p) + j) % cap) = true

/-- No two occupied slots hold the same key. -/
def UniqueKeys (w : Width) (cap : Nat) (flags slots : List Nat) : Prop :=
  ∀ p q, p < cap → q < cap → occupied w flags p = true → occupied w flags q = true →
    keyAt slots p = keyAt slots q → p = q

/-- Some occupied slot holds the pair `(key, value)`. -/
def Has (w : Width) (cap : Nat) (flags slots : List Nat) (key value : Nat) : Prop :=
  ∃ p, p < cap ∧ occupied w flags p = true ∧ keyAt slots p = key ∧ valAt slots p = value

/-- The structural invariant of the two views of a table. -/
structure Sound (w : Width) (hash : Nat → Nat → Nat) (seed cap : Nat) (flags slots : List Nat) :
    Prop where
  layout : Layout w cap flags slots
  chained : Chained w hash seed cap flags slots
  unique : UniqueKeys w cap flags slots

/-- The table holds exactly the keys `ks`, each with its index in `ks` as its
identifier. -/
structure Holds (w : Width) (cap : Nat) (flags slots : List Nat) (ks : List Nat) : Prop where
  nodup : ks.Nodup
  count : occupiedCount w cap flags = ks.length
  stored : ∀ key value, Has w cap flags slots key value → ks[value]? = some key
  present : ∀ key, key ∈ ks → ∃ value, Has w cap flags slots key value


/-! ## Identifier assignment, as a function of the keys alone -/

/-- Identifiers by first occurrence: `seen` lists the distinct keys met so far,
oldest first; the result is the extended list and the identifier of each key. -/
def assign : List Nat → List Nat → List Nat × List Int
  | seen, [] => (seen, [])
  | seen, key :: keys =>
    if key ∈ seen then
      ((assign seen keys).1, (seen.indexOf key : Int) :: (assign seen keys).2)
    else
      ((assign (seen ++ [key]) keys).1, (seen.length : Int) :: (assign (seen ++ [key]) keys).2)


/-- The words of a list of pairs, as `insert` reads them. -/
def flat : List (Nat × Nat) → List Nat
  | [] => []
  | (key, value) :: rest => key :: value :: flat rest

/-- The occupied slots of a table, in ascending order. -/
def occupiedSlots (w : Width) (cap : Nat) (flags : List Nat) : List Nat :=
  (List.range cap).filter (occupied w flags)

/-- The pair stored in slot `p`. -/
def pairAt (slots : List Nat) (p : Nat) : Nat × Nat :=
  (keyAt slots p, valAt slots p)


/-- The slots `j + b` for the set bits `b < m` of the word `f`, ascending. -/
def wordSlots (j m f : Nat) : List Nat :=
  ((List.range m).filter (fun b => f.testBit b)).map (fun b => j + b)

/-- The slots whose bit is set in the bitmap words `flags`, the first word
being word number `i`. -/
def wordsSlots (w : Width) : Nat → List Nat → List Nat
  | _, [] => []
  | i, f :: flags => wordSlots (w.bits * i) w.bits f ++ wordsSlots w (i + 1) flags

/-- The bitmap ends inside the buffer, so that `content` splits the buffer at
the same place after the views have been written back. -/
def Splits (w : Width) (t : tableBits) : Prop :=
  t.cap / w.bits ≤ t.table.length


/-- The invariant of a table that holds the distinct keys `ks`, oldest first. -/
structure TableInv (w : Width) (hash : Nat → Nat → Nat) (t : tableBits) (ks : List Nat) : Prop where
  sound : Sound w hash t.seed t.cap (t.content w).1 (t.content w).2
  holds : Holds w t.cap (t.content w).1 (t.content w).2 ks
  lenEq : t.len = ks.length
  maxLenEq : t.maxLen = ⌈t.maxLoad * (t.cap : ℚ)⌉
  loadLe : t.maxLoad ≤ 1


/-- The capacity that `grow` passes to `init`, as `grow` computes it. -/
def growCap (cap : Nat) (totalValues : Int) : Int :=
  if nextPowerOf2 totalValues > int64wrap (2 * (cap : Int)) then nextPowerOf2 totalValues
  else int64wrap (2 * (cap : Int))


/-! ## Runs of calls -/

/-- A call of `probe`: the keys, the values slice (its backing array up to its
capacity) and the seed that a growth during the call draws. -/
structure Call where
  keys : List Nat
  values : List Int
  seed : Nat

/-- A sequence of `probe` calls on a table; the result lists what each call
left in its values slice. -/
def runProbes (w : Width) (hash : Nat → Nat → Nat) :
    tableBits → List Call → Outcome (tableBits × List (List Int))
  | t, [] => .done (t, [])
  | t, c :: cs =>
    match t.probe w hash c.keys c.values c.seed with
    | .done (t2, vs) =>
      match runProbes w hash t2 cs with
      | .done (t3, outs) => .done (t3, vs :: outs)
      | .panic (t3, outs) => .panic (t3, vs :: outs)
      | .hang => .hang
    | .panic (t2, vs) => .panic (t2, [vs])
    | .hang => .hang

/-- Number of distinct keys that occur strictly before the first occurrence of
`key` in `all`. -/
def distinctBefore (all : List Nat) (key : Nat) : Nat :=
  ((all.take (all.indexOf key)).dedup).length

/-- What a sequence of calls has to write, `pre` being the keys probed before:
for each key the number of distinct keys before its first occurrence, and
behind the identifiers the rest of the values slice as it was. -/
def expected : List Nat → List Call → List (List Int)
  | _, [] => []
  | pre, c :: cs =>
    (c.keys.map (fun key => (distinctBefore (pre ++ c.keys) key : Int)) ++
        c.values.drop c.keys.length) :: expected (pre ++ c.keys) cs

/-- The states reachable from the constructor called with an `int` hint and a
load factor in `(0, 1)`, by `probe` calls that return (on at most `2^61` keys)
and `reset`. -/
inductive Reachable (w : Width) (hash : Nat → Nat → Nat) : tableBits → Prop
  | make (cap : Int) (maxLoad : ℚ) (seed : Nat) (t : tableBits) (hlo : -2 ^ 63 ≤ cap)
      (hhi : cap < 2 ^ 63) (h0 : 0 < maxLoad) (h1 : maxLoad < 1)
      (h : makeTableBits w cap maxLoad seed = some t) : Reachable w hash t
  | probe (t t2 : tableBits) (keys : List Nat) (values vs : List Int) (seed : Nat)
      (ht : Reachable w hash t) (hk : keys.length ≤ 2 ^ 61)
      (h : t.probe w hash keys values seed = .done (t2, vs)) : Reachable w hash t2
  | reset (t : tableBits) (ht : Reachable w hash t) : Reachable w hash t.reset


/-- All keys of a sequence of calls, in probing order. -/
def keysOf : List Call → List Nat
  | [] => []
  | c :: cs => c.keys ++ keysOf cs


/-- Number of set bits among the first `fuel` bits of `x` (`bits.OnesCount`). -/
def onesCount : Nat → Nat → Nat
  | 0, _ => 0
  | fuel + 1, x => x % 2 + onesCount fuel (x / 2)

/-- Number of set bits in the occupancy bitmap of a table. -/
def bitmapOnes (w : Width) (t : tableBits) : Nat :=
  ((t.content w).1.map (onesCount w.bits)).sum

/-! ## The two engines and the façades -/

/-- The function `makeTable32bits`. -/
def makeTable32bits (cap : Int) (maxLoad : ℚ) (seed : Nat) : Option tableBits :=
  makeTableBits .w32 cap maxLoad seed

/-- The function `makeTable64bits`. -/
def makeTable64bits (cap : Int) (maxLoad : ℚ) (seed : Nat) : Option tableBits :=
  makeTableBits .w64 cap maxLoad seed

/-- The constructor `NewUint32Table`. -/
def NewUint32Table (cap : Int) (maxLoad : ℚ) (seed : Nat) : Option tableBits :=
  makeTable32bits cap maxLoad seed

/-- The method `Uint32Table.Probe`. -/
def Uint32Table.Probe (hash : Nat → Nat → Nat) (t : tableBits) (keys : List Nat)
    (values : List Int) (seed : Nat) : Outcome (tableBits × List Int) :=
  t.probe .w32 hash keys values seed

/-- The constructor `NewUint64Table`. -/
def NewUint64Table (cap : Int) (maxLoad : ℚ) (seed : Nat) : Option tableBits :=
  makeTable64bits cap maxLoad seed

/-- The method `Uint64Table.Probe`. -/
def Uint64Table.Probe (hash : Nat → Nat → Nat) (t : tableBits) (keys : List Nat)
    (values : List Int) (seed : Nat) : Outcome (tableBits × List Int) :=
  t.probe .w64 hash keys values seed


/-! ## Observers and concrete tables for the examples -/

/-- The call returned. -/
def Outcome.isDone {α : Type} : Outcome α → Bool
  | .done _ => true
  | _ => false

/-- The call panicked. -/
def Outcome.isPanic {α : Type} : Outcome α → Bool
  | .panic _ => true
  | _ => false

/-- The table a call of `probe` leaves behind, `t` when the call never ends. -/
def stateAfter (t : tableBits) : Outcome (tableBits × List Int) → tableBits
  | .done (t2, _) => t2
  | .panic (t2, _) => t2
  | .hang => t

/-- The values slice a call of `probe` leaves behind. -/
def valuesAfter : Outcome (tableBits × List Int) → List Int
  | .done (_, vs) => vs
  | .panic (_, vs) => vs
  | .hang => []

/-- A hash function for the examples. -/
def demoHash (key seed : Nat) : Nat :=
  key * 40503 + seed

/-- A fresh `Uint32Table(cap=32, max_load=0.75)` whose seed is 7. -/
def demoTable : tableBits :=
  { len := 0, cap := 32, maxLen := 24, maxLoad := 3 / 4, seed := 7, table := List.replicate 65 0 }

/-- A fresh `Uint32Table(cap=128, max_load=0.75)` whose seed is 9. -/
def demoLarge : tableBits :=
  { len := 0, cap := 128, maxLen := 96, maxLoad := 3 / 4, seed := 9, table := List.replicate 260 0 }

/-- The table `demoTable` after the keys `[10, 20]` have been probed. -/
def demoProbed : tableBits :=
  stateAfter demoTable (Uint32Table.Probe demoHash demoTable [10, 20] [0, 0] 1)

/-- Two calls: the keys `[1, 2, 3]`, then the keys `[3, 2, 1, 4]`. -/
def demoCalls : List Call :=
  [{ keys := [1, 2, 3], values := [0, 0, 0], seed := 11 },
   { keys := [3, 2, 1, 4], values := [0, 0, 0, 0], seed := 12 }]

/-- One call with the thirty keys `0 .. 29`, more than `demoTable` may hold
without growing. -/
def demoThirty (seed : Nat) : List Call :=
  [{ keys := List.range 30, values := List.replicate 30 0, seed := seed }]


/-- The table a run of calls leaves behind, `t` when the run never ends. -/
def runTable (t : tableBits) : Outcome (tableBits × List (List Int)) → tableBits
  | .done (t2, _) => t2
  | .panic (t2, _) => t2
  | .hang => t

/-! ## The float façade -/

/-- A `float32` key, given by the 32 bits of its IEEE-754 binary32 encoding. -/
structure float32 where
  bits : Nat
  deriving DecidableEq, Repr

/-- Modelled from the spec: `unsafecast.Float32ToUint32`, which is not part of
the sources at hand: the façade reinterprets the bit pattern of each key
without changing its bits (section 4.7). -/
def Float32ToUint32 (keys : List float32) : List Nat :=
  keys.map (fun key => key.bits)

/-- The constructor `NewFloat32Table`. -/
def NewFloat32Table (cap : Int) (maxLoad : ℚ) (seed : Nat) : Option tableBits :=
  makeTable32bits cap maxLoad seed

/-- The method `Float32Table.Probe`. -/
def Float32Table.Probe (hash : Nat → Nat → Nat) (t : tableBits) (keys : List float32)
    (values : List Int) (seed : Nat) : Outcome (tableBits × List Int) :=
  t.probe .w32 hash (Float32ToUint32 keys) values seed

/-- The key `+0.0`, bits `0x00000000`. -/
def posZero : float32 :=
  { bits := 0 }

/-- The key `-0.0`, bits `0x80000000`. -/
def negZero : float32 :=
  { bits := 2147483648 }

/-- A NaN, bits `0x7FC00000`. -/
def nanA : float32 :=
  { bits := 2143289344 }

/-- A NaN with another payload, bits `0x7FC00001`. -/
def nanB : float32 :=
  { bits := 2143289345 }

/-- The table a call of `grow` leaves behind, `t` when the call never ends. -/
def grownTable (t : tableBits) : Outcome tableBits → tableBits
  | .done t2 => t2
  | .panic t2 => t2
  | .hang => t

/-- A 32-bit table of capacity 128 whose bitmap has a word of all ones, a word
with only its top bit set, a word whose run of ones ends at the word boundary
and a word with two separate bits; slot `p` holds the pair `(1000 + p, p)`. -/
def demoBits : tableBits :=
  { len := 51, cap := 128, maxLen := 96, maxLoad := 3 / 4, seed := 7,
    table := [4294967295, 2147483648, 4294901760, 5] ++
      flat ((List.range 128).map (fun p => (1000 + p, p))) }

/-- A fresh `Uint32Table(cap=32, max_load=1.0)` whose seed is 7. -/
def demoUnit : tableBits :=
  { len := 0, cap := 32, maxLen := 32, maxLoad := 1, seed := 7, table := List.replicate 65 0 }

/-- The table `demoUnit` after the 32 keys `0 .. 31` have been probed. -/
def demoSaturated : tableBits :=
  stateAfter demoUnit
    (Uint32Table.Probe demoHash demoUnit (List.range 32) (List.replicate 32 0) 1)

/-! ## The windows of `probe` -/

/-- The index computations of the loop of `probe` alone: the windows `(i, j)`
that the loop over `n` keys takes from index `i` on. -/
def probeWindows (n : Nat) : Nat → Nat → List (Nat × Nat)
  | 0, _ => []
  | fuel + 1, i =>
    if i < n then
      let j := 128 + i
      let j := if j > n then n else j
      (i, j) :: probeWindows n fuel j
    else []

/-- The kernel calls of `probe` on a given list of windows: each window of the
keys is hashed and handed to the kernel together with the same window of the
values. -/
def probeOver (w : Width) (hash : Nat → Nat → Nat) (keys : List Nat) :
    List (Nat × Nat) → tableBits → List Int → Outcome (tableBits × List Int)
  | [], t, values => .done (t, values)
  | (i, j) :: rest, t, values =>
    if j > values.length then .panic (t, values)
    else
      match multiProbe w t.table t.len t.cap (multiHash hash ((keys.take j).drop i) t.seed)
          ((keys.take j).drop i) with
      | none => .hang
      | some (table, len, ids) =>
        probeOver w hash keys rest { t with table := table, len := len }
          (values.take i ++ ids ++ values.drop j)

/-- The probe as the spec describes it without batching: one pass of the slot
walk over all keys in index order, each key with its scalar hash. -/
def probeSequential (w : Width) (hash : Nat → Nat → Nat) (t : tableBits) (keys : List Nat)
    (values : List Int) : Outcome (tableBits × List Int) :=
  match probeKeys w t.cap (t.content w).1 (t.content w).2 t.len
      (keys.map (fun key => (hash key t.seed % 18446744073709551616, key))) with
  | none => .hang
  | some (flags, slots, len, ids) =>
    .done ({ t with table := flags ++ slots, len := len }, ids ++ values.drop keys.length)

/-! ## The slices of `grow` -/

/-- The index computations of the inner loop of `grow` alone: the bounds
`(j, k)` of the slices `pairs[2*j : 2*k : 2*k]` that the loop takes for one
bitmap word, from slot `j`, whose bit is the lowest bit of `f`. -/
def runSlices (w : Width) : Nat → Nat → Nat → List (Nat × Nat)
  | 0, _, _ => []
  | fuel + 1, j, f =>
    let n := TrailingZeros w (complement w f)
    let k := j + n
    let j2 := j + n
    let f := f >>> n
    if f = 0 then [(j, k)]
    else
      let n := TrailingZeros w f
      (j, k) :: runSlices w fuel (j2 + n) (f >>> n)

/-- The bounds of the slices that `grow` takes over the bitmap words, `i` being
the index of the first word of the list. -/
def wordSlices (w : Width) : List Nat → Nat → List (Nat × Nat)
  | [], _ => []
  | f :: flags, i =>
    if f ≠ 0 then
      let j := w.bits * i
      let n := TrailingZeros w f
      runSlices w w.bits (j + n) (f >>> n) ++ wordSlices w flags (i + 1)
    else wordSlices w flags (i + 1)

/-- The calls of `insert` on the slices of `pairs` with the given bounds, one
after the other. -/
def insertSlices (w : Width) (hash : Nat → Nat → Nat) (pairs : List Nat) :
    List (Nat × Nat) → tableBits → Option tableBits
  | [], tmp => some tmp
  | (j, k) :: rest, tmp =>
    match tmp.insert w hash ((pairs.take (2 * k)).drop (2 * j)) with
    | none => none
    | some tmp => insertSlices w hash pairs rest tmp

/-! ## The constructor under the allocation limit of the runtime -/

/-- The largest size in bytes of one allocation: `maxAlloc` of the Go runtime
on amd64, `1 << 48`. -/
def maxAlloc : Nat :=
  281474976710656

/-- The functions `makeTable32bits` and `makeTable64bits` as they run on amd64:
the `make` of `init` panics in `makeslice` (`len out of range`) when the length
is negative or when that many words of `W/8` bytes exceed `maxAlloc`, a limit
that `makeSlice` leaves out; otherwise the table is the one of `makeTableBits`.
`none` is the panic. -/
def makeTableLimited (w : Width) (cap : Int) (maxLoad : ℚ) (seed : Nat) : Option tableBits :=
  let cap := if cap < (w.bits : Int) then (w.bits : Int) else cap
  let cap := nextPowerOf2 cap
  let n := int64wrap (int64wrap (Int.tdiv cap w.bits) + int64wrap (2 * cap))
  if n < 0 ∨ (maxAlloc : Int) < ((w.bits / 8 : Nat) : Int) * n then none
  else tableBits.init w cap maxLoad seed

/-- The exponent of the largest capacity whose buffer of `cap/W + 2*cap` words
stays within `maxAlloc`: `2^44` slots of 32-bit words, `2^43` slots of 64-bit
words. -/
def Width.capLimitLog : Width → Nat
  | .w32 => 44
  | .w64 => 43

/-! ## Theorems -/

section

theorem int64wrap_of_range {x : Int} (h1 : -9223372036854775808 ≤ x) (h2 : x < 9223372036854775808) :
    int64wrap x = x := by
  unfold int64wrap; omega

theorem uintptr_natCast {x : Nat} (h : x < 18446744073709551616) : uintptr (x : Int) = x := by
  unfold uintptr; omega

theorem bitLen_le (fuel x : Nat) : bitLen fuel x ≤ fuel := by
  induction fuel generalizing x with
  | zero => simp [bitLen]
  | succ n ih =>
    simp only [bitLen]
    split
    · omega
    · have := ih (x / 2); omega

theorem lt_two_pow_bitLen (fuel x : Nat) (h : x < 2 ^ fuel) : x < 2 ^ bitLen fuel x := by
  induction fuel generalizing x with
  | zero => simpa [bitLen] using h
  | succ n ih =>
    simp only [bitLen]
    split
    · subst_vars; simp
    · have h2 : x / 2 < 2 ^ n := by
        rw [Nat.div_lt_iff_lt_mul (by norm_num)]; rw [pow_succ] at h; exact h
      have := ih (x / 2) h2
      rw [pow_succ]; omega

theorem bitLen_pos (fuel x : Nat) (hx : x ≠ 0) (h : x < 2 ^ fuel) : 0 < bitLen fuel x := by
  cases fuel with
  | zero => simp at h; omega
  | succ n => simp [bitLen, hx]

theorem two_pow_bitLen_le (fuel x : Nat) (hx : x ≠ 0) (h : x < 2 ^ fuel) :
    2 ^ (bitLen fuel x - 1) ≤ x := by
  induction fuel generalizing x with
  | zero => simp at h; omega
  | succ n ih =>
    simp only [bitLen, hx, if_false, Nat.add_sub_cancel]
    by_cases h0 : x / 2 = 0
    · have : bitLen n (x / 2) = 0 := by
        rw [h0]; cases n <;> simp [bitLen]
      rw [this]; simp; omega
    · have h2 : x / 2 < 2 ^ n := by
        rw [Nat.div_lt_iff_lt_mul (by norm_num)]; rw [pow_succ] at h; exact h
      have h3 := ih (x / 2) h0 h2
      have h4 := bitLen_pos n (x / 2) h0 h2
      obtain ⟨b, hb⟩ : ∃ b, bitLen n (x / 2) = b + 1 := ⟨bitLen n (x / 2) - 1, by omega⟩
      rw [hb] at h3 ⊢
      simp only [Nat.add_sub_cancel] at h3
      rw [pow_succ]; omega

/-- The value of `nextPowerOf2` on arguments for which the shift does not overflow. -/
theorem nextPowerOf2_eq (n : Nat) (h1 : 1 ≤ n) (h2 : n ≤ 2 ^ 62) :
    nextPowerOf2 (n : Int) = ((2 ^ bitLen 64 (n - 1) : Nat) : Int) := by
  have hlt : n - 1 < 2 ^ 62 := by omega
  have hu : uintptr ((n : Int) - 1) = n - 1 := by
    have : ((n : Int) - 1) = ((n - 1 : Nat) : Int) := by omega
    rw [this]; apply uintptr_natCast; omega
  have hb : bitLen 64 (n - 1) ≤ 62 := by
    by_contra hc
    by_cases h0 : n - 1 = 0
    · rw [h0] at hc; simp [bitLen] at hc
    · have := two_pow_bitLen_le 64 (n - 1) h0 (by omega)
      have h5 : 2 ^ 62 ≤ 2 ^ (bitLen 64 (n - 1) - 1) := Nat.pow_le_pow_right (by norm_num) (by omega)
      omega
  unfold nextPowerOf2 LeadingZeros64
  rw [hu, Nat.one_shiftLeft]
  have hb2 := bitLen_le 64 (n - 1)
  have h6 : 64 - (64 - bitLen 64 (n - 1)) = bitLen 64 (n - 1) := by omega
  rw [h6]
  have h7 : 2 ^ bitLen 64 (n - 1) ≤ 2 ^ 62 := Nat.pow_le_pow_right (by norm_num) hb
  apply int64wrap_of_range
  · have : (0 : Int) ≤ ((2 ^ bitLen 64 (n - 1) : Nat) : Int) := Int.natCast_nonneg _
    omega
  · have : ((2 ^ bitLen 64 (n - 1) : Nat) : Int) ≤ ((2 ^ 62 : Nat) : Int) := by exact_mod_cast h7
    norm_num at this ⊢; omega

theorem le_two_pow_bitLen_pred (n : Nat) (h2 : n ≤ 2 ^ 62) : n ≤ 2 ^ bitLen 64 (n - 1) := by
  have := lt_two_pow_bitLen 64 (n - 1) (by omega)
  omega

theorem bitLen_pred_le_62 (n : Nat) (h2 : n ≤ 2 ^ 62) : bitLen 64 (n - 1) ≤ 62 := by
  by_contra hc
  by_cases h0 : n - 1 = 0
  · rw [h0] at hc; simp [bitLen] at hc
  · have := two_pow_bitLen_le 64 (n - 1) h0 (by omega)
    have h5 : 2 ^ 62 ≤ 2 ^ (bitLen 64 (n - 1) - 1) := Nat.pow_le_pow_right (by norm_num) (by omega)
    omega

/-- The exponent chosen by `nextPowerOf2` is the least one that reaches `n`. -/
theorem bitLen_pred_least (n e : Nat) (h2 : n ≤ 2 ^ 62) (he : n ≤ 2 ^ e) :
    bitLen 64 (n - 1) ≤ e := by
  by_cases h0 : n - 1 = 0
  · rw [h0]; simp [bitLen]
  · have h3 := two_pow_bitLen_le 64 (n - 1) h0 (by omega)
    by_contra hc
    have h5 : 2 ^ e ≤ 2 ^ (bitLen 64 (n - 1) - 1) := Nat.pow_le_pow_right (by norm_num) (by omega)
    omega

theorem nextPowerOf2_zero : nextPowerOf2 0 = 0 := by decide

theorem and_one_shiftLeft_eq_zero (x s : Nat) : x &&& (1 <<< s) = 0 ↔ x.testBit s = false := by
  rw [Nat.one_shiftLeft, Nat.and_two_pow]
  cases x.testBit s <;> simp

theorem testBit_or_one_shiftLeft (x s i : Nat) :
    (x ||| (1 <<< s)).testBit i = (x.testBit i || decide (s = i)) := by
  rw [Nat.testBit_or, Nat.one_shiftLeft, Nat.testBit_two_pow]

theorem or_one_shiftLeft_lt (x s n : Nat) (hx : x < 2 ^ n) (hs : s < n) :
    x ||| (1 <<< s) < 2 ^ n := by
  apply Nat.or_lt_two_pow hx
  rw [Nat.one_shiftLeft]
  exact Nat.pow_lt_pow_right (by norm_num) hs

theorem land_mask (h e : Nat) : h &&& (2 ^ e - 1) = h % 2 ^ e :=
  Nat.and_pow_two_sub_one_eq_mod h e

theorem succ_wrap_mod (h e : Nat) (he : e ≤ 64) :
    ((h + 1) % 18446744073709551616) % 2 ^ e = (h + 1) % 2 ^ e := by
  have : (2 : Nat) ^ e ∣ 18446744073709551616 := by
    have : (18446744073709551616 : Nat) = 2 ^ 64 := by norm_num
    rw [this]; exact Nat.pow_dvd_pow 2 he
  exact Nat.mod_mod_of_dvd _ this

end

section

theorem Width.bits_pos (w : Width) : 0 < w.bits := by cases w <;> simp [Width.bits]

theorem occupied_setFlag (w : Width) (flags : List Nat) (p0 p : Nat)
    (h : p0 / w.bits < flags.length) :
    occupied w (setFlag w flags p0) p = (occupied w flags p || decide (p = p0)) := by
  unfold occupied setFlag
  have hW := w.bits_pos
  by_cases hq : p / w.bits = p0 / w.bits
  · rw [hq]
    simp only [List.getD_eq_getElem?_getD, List.getElem?_set_self h, Option.getD_some,
      testBit_or_one_shiftLeft]
    congr 1
    have h1 := Nat.div_add_mod p w.bits
    have h2 := Nat.div_add_mod p0 w.bits
    rw [hq] at h1
    by_cases hm : p0 % w.bits = p % w.bits
    · have : p = p0 := by omega
      simp [hm, this]
    · have : p ≠ p0 := fun hc => hm (by rw [hc])
      simp [hm, this]
  · have hne : p ≠ p0 := fun hc => hq (by rw [hc])
    simp only [List.getD_eq_getElem?_getD]
    rw [List.getElem?_set_ne (Ne.symm hq)]
    simp [hne]

theorem getD_setSlot (slots : List Nat) (p0 key value i : Nat) (h : 2 * p0 + 1 < slots.length) :
    (setSlot slots p0 key value).getD i 0 =
      if i = 2 * p0 then key else if i = 2 * p0 + 1 then value else slots.getD i 0 := by
  unfold setSlot
  simp only [List.getD_eq_getElem?_getD, List.getElem?_set, List.length_set]
  by_cases h1 : i = 2 * p0
  · subst h1
    have : ¬ (2 * p0 + 1 = 2 * p0) := by omega
    have h5 : 2 * p0 < slots.length := by omega
    simp [this, h5]
  · by_cases h2 : i = 2 * p0 + 1
    · subst h2; simp [h]
    · have h3 : ¬ (2 * p0 + 1 = i) := fun hc => h2 hc.symm
      have h4 : ¬ (2 * p0 = i) := fun hc => h1 hc.symm
      simp [h1, h2, h3, h4]

theorem keyAt_setSlot (slots : List Nat) (p0 p key value : Nat) (h : 2 * p0 + 1 < slots.length) :
    keyAt (setSlot slots p0 key value) p = if p = p0 then key else keyAt slots p := by
  unfold keyAt
  rw [getD_setSlot _ _ _ _ _ h]
  by_cases hp : p = p0
  · simp [hp]
  · have h1 : ¬ (2 * p = 2 * p0) := by omega
    have h2 : ¬ (2 * p = 2 * p0 + 1) := by omega
    simp [hp, h1, h2]

theorem valAt_setSlot (slots : List Nat) (p0 p key value : Nat) (h : 2 * p0 + 1 < slots.length) :
    valAt (setSlot slots p0 key value) p = if p = p0 then value else valAt slots p := by
  unfold valAt
  rw [getD_setSlot _ _ _ _ _ h]
  by_cases hp : p = p0
  · have h1 : ¬ (2 * p0 + 1 = 2 * p0) := by omega
    simp [hp, h1]
  · have h1 : ¬ (2 * p + 1 = 2 * p0) := by omega
    have h2 : ¬ (2 * p + 1 = 2 * p0 + 1) := by omega
    simp [hp, h1, h2]

theorem length_setFlag (w : Width) (flags : List Nat) (p : Nat) :
    (setFlag w flags p).length = flags.length := by
  simp [setFlag]

theorem length_setSlot (slots : List Nat) (p key value : Nat) :
    (setSlot slots p key value).length = slots.length := by
  simp [setSlot]

theorem setFlag_words_lt (w : Width) (flags : List Nat) (p : Nat)
    (h : ∀ x ∈ flags, x < 2 ^ w.bits) : ∀ x ∈ setFlag w flags p, x < 2 ^ w.bits := by
  intro x hx
  unfold setFlag at hx
  rcases List.mem_or_eq_of_mem_set hx with h1 | h1
  · exact h x h1
  · rw [h1]
    apply or_one_shiftLeft_lt
    · by_cases hl : p / w.bits < flags.length
      · rw [List.getD_eq_getElem?_getD, List.getElem?_eq_getElem hl]
        exact h _ (List.getElem_mem _)
      · rw [List.getD_eq_getElem?_getD, List.getElem?_eq_none (by omega)]
        simp
    · exact Nat.mod_lt _ w.bits_pos

end

section

theorem countP_range_update (n : Nat) (f g : Nat → Bool) (p0 : Nat) (hp : p0 < n)
    (hf : f p0 = false) (hg : ∀ p, g p = (f p || decide (p = p0))) :
    (List.range n).countP g = (List.range n).countP f + 1 := by
  induction n with
  | zero => omega
  | succ n ih =>
    rw [List.range_succ, List.countP_append, List.countP_append]
    by_cases h : p0 = n
    · subst h
      have h1 : (List.range p0).countP g = (List.range p0).countP f := by
        apply List.countP_congr
        intro x hx
        have : x ≠ p0 := by have := List.mem_range.1 hx; omega
        simp [hg, this]
      have hgp : g p0 = true := by simp [hg]
      rw [h1]; simp [hf, hgp]
    · have h1 := ih (by omega)
      have h2 : g n = f n := by
        have : n ≠ p0 := fun hc => h hc.symm
        simp [hg, this]
      rw [h1]
      simp only [List.countP_cons, List.countP_nil, h2]
      omega

theorem exists_false_of_countP_lt (n : Nat) (f : Nat → Bool) (h : (List.range n).countP f < n) :
    ∃ p, p < n ∧ f p = false := by
  by_contra hc
  push_neg at hc
  have : (List.range n).countP f = (List.range n).length := by
    rw [List.countP_eq_length]
    intro a ha
    have := hc a (List.mem_range.1 ha)
    simpa using this
  simp at this; omega

theorem countP_range_le (n : Nat) (f : Nat → Bool) : (List.range n).countP f ≤ n := by
  have := List.countP_le_length f (l := List.range n)
  simpa using this

theorem add_mod_sub (cap a d : Nat) (ha : a < cap) (hd : d < cap) :
    ((a + d) % cap + cap - a) % cap = d := by
  by_cases h : a + d < cap
  · rw [Nat.mod_eq_of_lt h]
    have : a + d + cap - a = d + cap := by omega
    rw [this, Nat.add_mod_right, Nat.mod_eq_of_lt hd]
  · have h1 : (a + d) % cap = a + d - cap := by
      rw [Nat.mod_eq_sub_mod (by omega)]
      exact Nat.mod_eq_of_lt (by omega)
    rw [h1]
    have : a + d - cap + cap - a = d := by omega
    rw [this, Nat.mod_eq_of_lt hd]

theorem add_sub_mod_self (cap a p : Nat) (ha : a < cap) (hp : p < cap) :
    (a + (p + cap - a) % cap) % cap = p := by
  by_cases h : a ≤ p
  · have h1 : (p + cap - a) % cap = p - a := by
      have : p + cap - a = (p - a) + cap := by omega
      rw [this, Nat.add_mod_right]; exact Nat.mod_eq_of_lt (by omega)
    rw [h1]
    have : a + (p - a) = p := by omega
    rw [this]; exact Nat.mod_eq_of_lt hp
  · have h1 : (p + cap - a) % cap = p + cap - a := Nat.mod_eq_of_lt (by omega)
    rw [h1]
    have : a + (p + cap - a) = p + cap := by omega
    rw [this, Nat.add_mod_right]; exact Nat.mod_eq_of_lt hp

theorem add_mod_inj (cap a i j : Nat) (hi : i < cap) (hj : j < cap)
    (h : (a + i) % cap = (a + j) % cap) : i = j := by
  have hc : 0 < cap := by omega
  have h1 := add_mod_sub cap (a % cap) i (Nat.mod_lt _ hc) hi
  have h2 := add_mod_sub cap (a % cap) j (Nat.mod_lt _ hc) hj
  have e1 : (a % cap + i) % cap = (a + i) % cap := Nat.mod_add_mod _ _ _
  have e2 : (a % cap + j) % cap = (a + j) % cap := Nat.mod_add_mod _ _ _
  rw [e1] at h1; rw [e2] at h2
  rw [h] at h1; omega

/-- From any start, a table that is not full has a first free slot on the
cyclic walk. -/
theorem exists_first_free (w : Width) (cap : Nat) (flags : List Nat) (start : Nat)
    (h : occupiedCount w cap flags < cap) :
    ∃ d, d < cap ∧ occupied w flags ((start + d) % cap) = false ∧
      ∀ j, j < d → occupied w flags ((start + j) % cap) = true := by
  obtain ⟨p, hp, hfree⟩ := exists_false_of_countP_lt cap _ h
  have hc : 0 < cap := by omega
  have hex : ∃ d, d < cap ∧ occupied w flags ((start + d) % cap) = false := by
    refine ⟨(p + cap - start % cap) % cap, Nat.mod_lt _ hc, ?_⟩
    have := add_sub_mod_self cap (start % cap) p (Nat.mod_lt _ hc) hp
    rw [Nat.mod_add_mod] at this
    rw [this]; exact hfree
  classical
  refine ⟨Nat.find hex, (Nat.find_spec hex).1, (Nat.find_spec hex).2, ?_⟩
  intro j hj
  have := Nat.find_min hex hj
  have hjc : j < cap := lt_trans hj (Nat.find_spec hex).1
  by_contra hcon
  exact this ⟨hjc, by simpa using hcon⟩

end

section

variable {w : Width} {hash : Nat → Nat → Nat} {seed cap : Nat} {flags slots : List Nat}

theorem Layout.cap_pos (h : Layout w cap flags slots) : 0 < cap := by
  obtain ⟨e, he, _⟩ := h.pow
  rw [he]; exact Nat.pos_pow_of_pos e (by norm_num)

theorem Layout.flag_index_lt (h : Layout w cap flags slots) {p : Nat} (hp : p < cap) :
    p / w.bits < flags.length := by
  rw [h.flagsLen]
  exact Nat.div_lt_div_of_lt_of_dvd h.dvd hp

theorem Layout.slot_index_lt (h : Layout w cap flags slots) {p : Nat} (hp : p < cap) :
    2 * p + 1 < slots.length := by
  rw [h.slotsLen]; omega

theorem Layout.step_layout (h : Layout w cap flags slots) (p key value : Nat) :
    Layout w cap (setFlag w flags p) (setSlot slots p key value) where
  pow := h.pow
  dvd := h.dvd
  flagsLen := by rw [length_setFlag]; exact h.flagsLen
  slotsLen := by rw [length_setSlot]; exact h.slotsLen
  wordsLt := setFlag_words_lt w flags p h.wordsLt

theorem home_lt (hash : Nat → Nat → Nat) (seed cap key : Nat) (hc : 0 < cap) :
    home hash seed cap key < cap := Nat.mod_lt _ hc

theorem step_count (h : Layout w cap flags slots) {p0 : Nat} (hp : p0 < cap)
    (hfree : occupied w flags p0 = false) :
    occupiedCount w cap (setFlag w flags p0) = occupiedCount w cap flags + 1 := by
  unfold occupiedCount
  exact countP_range_update cap _ _ p0 hp hfree
    (fun p => occupied_setFlag w flags p0 p (h.flag_index_lt hp))

theorem step_has (h : Layout w cap flags slots) {p0 : Nat} (hp : p0 < cap)
    (hfree : occupied w flags p0 = false) (key value k v : Nat) :
    Has w cap (setFlag w flags p0) (setSlot slots p0 key value) k v ↔
      (Has w cap flags slots k v ∨ (k = key ∧ v = value)) := by
  unfold Has
  constructor
  · rintro ⟨p, hpc, ho, hk, hv⟩
    rw [occupied_setFlag w flags p0 p (h.flag_index_lt hp)] at ho
    rw [keyAt_setSlot _ _ _ _ _ (h.slot_index_lt hp)] at hk
    rw [valAt_setSlot _ _ _ _ _ (h.slot_index_lt hp)] at hv
    by_cases hpp : p = p0
    · right; simp [hpp] at hk hv; exact ⟨hk.symm, hv.symm⟩
    · left; simp [hpp] at ho hk hv; exact ⟨p, hpc, ho, hk, hv⟩
  · rintro (⟨p, hpc, ho, hk, hv⟩ | ⟨hk, hv⟩)
    · have hpp : p ≠ p0 := by
        intro hc; rw [hc, hfree] at ho; exact Bool.false_ne_true ho
      refine ⟨p, hpc, ?_, ?_, ?_⟩
      · rw [occupied_setFlag w flags p0 p (h.flag_index_lt hp)]; simp [ho]
      · rw [keyAt_setSlot _ _ _ _ _ (h.slot_index_lt hp)]; simp [hpp, hk]
      · rw [valAt_setSlot _ _ _ _ _ (h.slot_index_lt hp)]; simp [hpp, hv]
    · refine ⟨p0, hp, ?_, ?_, ?_⟩
      · rw [occupied_setFlag w flags p0 p0 (h.flag_index_lt hp)]; simp
      · rw [keyAt_setSlot _ _ _ _ _ (h.slot_index_lt hp)]; simp [hk]
      · rw [valAt_setSlot _ _ _ _ _ (h.slot_index_lt hp)]; simp [hv]

/-- Storing a new key in the first free slot of its walk keeps the invariant. -/
theorem Sound.step (hs : Sound w hash seed cap flags slots) (key value d : Nat) (hd : d < cap)
    (hocc : ∀ j, j < d → occupied w flags ((home hash seed cap key + j) % cap) = true)
    (_hfree : occupied w flags ((home hash seed cap key + d) % cap) = false)
    (hnew : ∀ p, p < cap → occupied w flags p = true → keyAt slots p ≠ key) :
    Sound w hash seed cap (setFlag w flags ((home hash seed cap key + d) % cap))
      (setSlot slots ((home hash seed cap key + d) % cap) key value) := by
  have hc := hs.layout.cap_pos
  have hp0 : (home hash seed cap key + d) % cap < cap := Nat.mod_lt _ hc
  have hocc' : ∀ p, occupied w (setFlag w flags ((home hash seed cap key + d) % cap)) p =
      (occupied w flags p || decide (p = (home hash seed cap key + d) % cap)) :=
    fun p => occupied_setFlag w flags _ p (hs.layout.flag_index_lt hp0)
  have hkey : ∀ p, keyAt (setSlot slots ((home hash seed cap key + d) % cap) key value) p =
      if p = (home hash seed cap key + d) % cap then key else keyAt slots p :=
    fun p => keyAt_setSlot _ _ _ _ _ (hs.layout.slot_index_lt hp0)
  refine ⟨hs.layout.step_layout _ _ _, ?_, ?_⟩
  · intro p hp ho j hj
    rw [hocc'] at ho ⊢
    rw [hkey] at hj ⊢
    by_cases hpp : p = (home hash seed cap key + d) % cap
    · simp only [hpp, if_true] at hj ⊢
      rw [add_mod_sub cap _ d (home_lt hash seed cap key hc) hd] at hj
      by_cases hjd : j = d
      · simp [hjd]
      · simp [hocc j (by omega)]
    · simp only [hpp, if_false] at hj ⊢
      simp only [hpp, decide_False, Bool.or_false] at ho
      simp [hs.chained p hp ho j hj]
  · intro p q hp hq hop hoq hk
    rw [hocc'] at hop hoq
    rw [hkey, hkey] at hk
    by_cases hpp : p = (home hash seed cap key + d) % cap
    · by_cases hqq : q = (home hash seed cap key + d) % cap
      · rw [hpp, hqq]
      · simp only [hpp, hqq, if_true, if_false] at hk
        simp only [hqq, decide_False, Bool.or_false] at hoq
        exact absurd hk.symm (hnew q hq hoq)
    · by_cases hqq : q = (home hash seed cap key + d) % cap
      · simp only [hpp, hqq, if_true, if_false] at hk
        simp only [hpp, decide_False, Bool.or_false] at hop
        exact absurd hk (hnew p hp hop)
      · simp only [hpp, hqq, if_false] at hk
        simp only [hpp, hqq, decide_False, Bool.or_false] at hop hoq
        exact hs.unique p q hp hq hop hoq hk

end

section

variable {w : Width} {hash : Nat → Nat → Nat} {seed cap : Nat} {flags slots : List Nat}

theorem Layout.mask_mod (h : Layout w cap flags slots) (x : Nat) : x &&& (cap - 1) = x % cap := by
  obtain ⟨e, he, _⟩ := h.pow
  rw [he]; exact hashprobe.land_mask x e

theorem Layout.succ_wrap (h : Layout w cap flags slots) (x : Nat) :
    ((x + 1) % 18446744073709551616) % cap = (x + 1) % cap := by
  obtain ⟨e, he, hle⟩ := h.pow
  rw [he]; exact succ_wrap_mod x e (by omega)

theorem Layout.mask_eq (h : Layout w cap flags slots) :
    (18446744073709551615 + uintptr (cap : Int)) % 18446744073709551616 = cap - 1 := by
  obtain ⟨e, he, hle⟩ := h.pow
  have h1 : cap ≤ 2 ^ 61 := by rw [he]; exact Nat.pow_le_pow_right (by norm_num) hle
  have h2 := h.cap_pos
  rw [uintptr_natCast (by omega)]
  omega

theorem flag_test (w : Width) (flags : List Nat) (p : Nat) :
    (flags.getD (p / w.bits) 0 &&& (1 <<< (p % w.bits)) = 0) ↔ occupied w flags p = false := by
  unfold occupied
  exact and_one_shiftLeft_eq_zero _ _

/-- The walk of `insert` stores the pair in the first free slot after the
start of the walk. -/
theorem insertWalk_eq (hl : Layout w cap flags slots) (key value d : Nat) :
    ∀ (fuel hash0 : Nat),
      (∀ j, j < d → occupied w flags ((hash0 + j) % cap) = true) →
      occupied w flags ((hash0 + d) % cap) = false →
      insertWalk w (cap - 1) key value flags slots (fuel + d + 1) hash0 =
        some (setFlag w flags ((hash0 + d) % cap), setSlot slots ((hash0 + d) % cap) key value) := by
  induction d with
  | zero =>
    intro fuel hash0 _ hfree
    simp only [Nat.add_zero] at hfree ⊢
    unfold insertWalk
    simp only [hl.mask_mod]
    rw [if_pos ((flag_test w flags _).2 hfree)]
    rfl
  | succ d ih =>
    intro fuel hash0 hocc hfree
    have h0 := hocc 0 (by omega)
    simp only [Nat.add_zero] at h0
    have hstep : fuel + (d + 1) + 1 = (fuel + d + 1) + 1 := by omega
    rw [hstep]
    unfold insertWalk
    simp only [hl.mask_mod]
    have hne : ¬ (flags.getD (hash0 % cap / w.bits) 0 &&& (1 <<< (hash0 % cap % w.bits)) = 0) := by
      rw [flag_test]; simp [h0]
    rw [if_neg hne]
    have hmod : ∀ j, ((hash0 + 1) % 18446744073709551616 + j) % cap = (hash0 + (j + 1)) % cap := by
      intro j
      rw [Nat.add_mod, hl.succ_wrap, ← Nat.add_mod]
      congr 1; omega
    have := ih fuel ((hash0 + 1) % 18446744073709551616)
      (fun j hj => by rw [hmod]; exact hocc (j + 1) (by omega))
      (by rw [hmod]; exact hfree)
    rw [this, hmod]

/-- The walk of the kernel passes over occupied slots that hold other keys. -/
theorem probeWalk_skip (hl : Layout w cap flags slots) (key len d : Nat) :
    ∀ (fuel pos : Nat), pos < cap →
      (∀ j, j < d → occupied w flags ((pos + j) % cap) = true ∧
        keyAt slots ((pos + j) % cap) ≠ key) →
      probeWalk w cap key len flags slots (fuel + d) pos =
        probeWalk w cap key len flags slots fuel ((pos + d) % cap) := by
  induction d with
  | zero =>
    intro fuel pos hpos _
    simp [Nat.mod_eq_of_lt hpos]
  | succ d ih =>
    intro fuel pos hpos hocc
    have h0 := hocc 0 (by omega)
    simp only [Nat.add_zero, Nat.mod_eq_of_lt hpos] at h0
    have hstep : fuel + (d + 1) = (fuel + d) + 1 := by omega
    rw [hstep]
    conv => lhs; unfold probeWalk
    have hne : ¬ (flags.getD (pos / w.bits) 0 &&& (1 <<< (pos % w.bits)) = 0) := by
      rw [flag_test]; simp [h0.1]
    have hk : ¬ (slots.getD (2 * pos) 0 = key) := h0.2
    simp only [hne, hk, if_false]
    rw [hl.mask_mod]
    have hmod : ∀ j, ((pos + 1) % cap + j) % cap = (pos + (j + 1)) % cap := by
      intro j
      rw [Nat.mod_add_mod]; congr 1; omega
    have := ih fuel ((pos + 1) % cap) (Nat.mod_lt _ hl.cap_pos)
      (fun j hj => by rw [hmod]; exact hocc (j + 1) (by omega))
    rw [this, hmod]

theorem probeWalk_new (_hl : Layout w cap flags slots) (key len pos fuel : Nat)
    (hfree : occupied w flags pos = false) :
    probeWalk w cap key len flags slots (fuel + 1) pos =
      some (setFlag w flags pos, setSlot slots pos key len, len + 1, len) := by
  unfold probeWalk
  simp only []
  rw [if_pos ((flag_test w flags _).2 hfree)]
  rfl

theorem probeWalk_found (_hl : Layout w cap flags slots) (key len pos fuel : Nat)
    (hocc : occupied w flags pos = true) (hkey : keyAt slots pos = key) :
    probeWalk w cap key len flags slots (fuel + 1) pos =
      some (flags, slots, len, valAt slots pos) := by
  unfold probeWalk
  have hne : ¬ (flags.getD (pos / w.bits) 0 &&& (1 <<< (pos % w.bits)) = 0) := by
    rw [flag_test]; simp [hocc]
  have hk : slots.getD (2 * pos) 0 = key := hkey
  simp only [hne, hk, if_false, if_true]
  rfl

end

section

variable {w : Width} {hash : Nat → Nat → Nat} {seed cap : Nat} {flags slots : List Nat}

theorem assign_length_le (keys : List Nat) : ∀ seen, seen.length ≤ (assign seen keys).1.length := by
  induction keys with
  | nil => intro seen; simp [assign]
  | cons key keys ih =>
    intro seen
    unfold assign
    split
    · exact ih seen
    · have := ih (seen ++ [key])
      simp at this ⊢; omega

theorem assign_ids_length (keys : List Nat) : ∀ seen, (assign seen keys).2.length = keys.length := by
  induction keys with
  | nil => intro seen; simp [assign]
  | cons key keys ih =>
    intro seen
    unfold assign
    split
    · simp [ih seen]
    · simp [ih (seen ++ [key])]

theorem assign_length_le_add (keys : List Nat) :
    ∀ seen, (assign seen keys).1.length ≤ seen.length + keys.length := by
  induction keys with
  | nil => intro seen; simp [assign]
  | cons key keys ih =>
    intro seen
    unfold assign
    split
    · have := ih seen; simp; omega
    · have := ih (seen ++ [key])
      simp at this ⊢; omega

theorem Holds.absent (hh : Holds w cap flags slots ks) {key : Nat} (hk : key ∉ ks) :
    ∀ p, p < cap → occupied w flags p = true → keyAt slots p ≠ key := by
  intro p hp ho hkey
  have := hh.stored key (valAt slots p) ⟨p, hp, ho, hkey, rfl⟩
  exact hk (List.getElem?_mem this)

theorem Holds.index (hh : Holds w cap flags slots ks) {key value : Nat}
    (h : Has w cap flags slots key value) : value = ks.indexOf key := by
  have h1 := hh.stored key value h
  obtain ⟨hlt, heq⟩ := List.getElem?_eq_some_iff.1 h1
  rw [← heq]
  exact (List.indexOf_getElem hh.nodup value hlt).symm

/-- One walk of the kernel for a key the table holds: nothing changes and the
stored identifier is returned. -/
theorem probeWalk_of_mem (hs : Sound w hash seed cap flags slots) (hh : Holds w cap flags slots ks)
    (key len : Nat) (hk : key ∈ ks) :
    probeWalk w cap key len flags slots cap (home hash seed cap key) =
      some (flags, slots, len, ks.indexOf key) := by
  have hc := hs.layout.cap_pos
  obtain ⟨v, hv⟩ := hh.present key hk
  have hidx := hh.index hv
  obtain ⟨p, hp, ho, hkey, hval⟩ := hv
  have hhome := home_lt hash seed cap key hc
  have hd : (p + cap - home hash seed cap key) % cap < cap := Nat.mod_lt _ hc
  have hat := add_sub_mod_self cap (home hash seed cap key) p hhome hp
  have hchain := hs.chained p hp ho
  rw [hkey] at hchain
  have hskip := probeWalk_skip hs.layout key len ((p + cap - home hash seed cap key) % cap)
    (cap - (p + cap - home hash seed cap key) % cap - 1 + 1) (home hash seed cap key) hhome
  rw [show cap - (p + cap - home hash seed cap key) % cap - 1 + 1 +
      (p + cap - home hash seed cap key) % cap = cap by omega] at hskip
  rw [hskip]
  · rw [hat, probeWalk_found hs.layout key len p _ ho hkey, hval, hidx]
  · intro j hj
    refine ⟨hchain j (by omega), ?_⟩
    intro hkj
    have hocc := hchain j (by omega)
    have heq := hs.unique _ p (Nat.mod_lt _ hc) hp hocc ho (by rw [hkj, hkey])
    rw [← hat] at heq
    have := add_mod_inj cap _ j _ (by omega) hd heq
    omega

/-- One walk of the kernel for a key the table does not hold: the key is
stored in the first free slot with the next identifier. -/
theorem probeWalk_of_not_mem (hs : Sound w hash seed cap flags slots)
    (hh : Holds w cap flags slots ks) (key : Nat) (hk : key ∉ ks) (hroom : ks.length < cap) :
    ∃ flags2 slots2,
      probeWalk w cap key ks.length flags slots cap (home hash seed cap key) =
        some (flags2, slots2, ks.length + 1, ks.length) ∧
      Sound w hash seed cap flags2 slots2 ∧ Holds w cap flags2 slots2 (ks ++ [key]) := by
  have hc := hs.layout.cap_pos
  have hhome := home_lt hash seed cap key hc
  have habs := hh.absent hk
  obtain ⟨d, hd, hfree, hocc⟩ :=
    exists_first_free w cap flags (home hash seed cap key) (by rw [hh.count]; exact hroom)
  have hp0 : (home hash seed cap key + d) % cap < cap := Nat.mod_lt _ hc
  refine ⟨setFlag w flags ((home hash seed cap key + d) % cap),
    setSlot slots ((home hash seed cap key + d) % cap) key ks.length, ?_, ?_, ?_⟩
  · have hskip := probeWalk_skip hs.layout key ks.length d (cap - d - 1 + 1)
      (home hash seed cap key) hhome
    rw [show cap - d - 1 + 1 + d = cap by omega] at hskip
    rw [hskip]
    · exact probeWalk_new hs.layout key _ _ _ hfree
    · intro j hj
      exact ⟨hocc j hj, habs _ (Nat.mod_lt _ hc) (hocc j hj)⟩
  · exact hs.step key ks.length d hd hocc hfree habs
  · refine ⟨?_, ?_, ?_, ?_⟩
    · rw [List.nodup_append]
      refine ⟨hh.nodup, List.nodup_singleton _, ?_⟩
      intro a ha hb
      rw [List.mem_singleton] at hb
      exact hk (hb ▸ ha)
    · rw [step_count hs.layout hp0 hfree, hh.count]; simp
    · intro k v hkv
      rcases (step_has hs.layout hp0 hfree key ks.length k v).1 hkv with h1 | ⟨h1, h2⟩
      · have h3 := hh.stored k v h1
        have hlt := (List.getElem?_eq_some_iff.1 h3).1
        rw [List.getElem?_append_left hlt]; exact h3
      · rw [h1, h2]; simp
    · intro k hkm
      rw [List.mem_append, List.mem_singleton] at hkm
      rcases hkm with h1 | h1
      · obtain ⟨v, hv⟩ := hh.present k h1
        exact ⟨v, (step_has hs.layout hp0 hfree key ks.length k v).2 (Or.inl hv)⟩
      · exact ⟨ks.length, (step_has hs.layout hp0 hfree key ks.length k ks.length).2
          (Or.inr ⟨h1, rfl⟩)⟩

/-- The kernel on a sub-batch: the identifiers are those of `assign`. -/
theorem probeKeys_holds (keys : List Nat) :
    ∀ (flags slots ks : List Nat), Sound w hash seed cap flags slots →
      Holds w cap flags slots ks → (assign ks keys).1.length ≤ cap →
      ∃ flags2 slots2,
        probeKeys w cap flags slots ks.length ((multiHash hash keys seed).zip keys) =
          some (flags2, slots2, (assign ks keys).1.length, (assign ks keys).2) ∧
        Sound w hash seed cap flags2 slots2 ∧ Holds w cap flags2 slots2 (assign ks keys).1 := by
  induction keys with
  | nil =>
    intro flags slots ks hs hh _
    exact ⟨flags, slots, by simp [multiHash, probeKeys, assign], hs, hh⟩
  | cons key keys ih =>
    intro flags slots ks hs hh hroom
    have hstart : (hash key seed % 18446744073709551616) &&& (cap - 1) = home hash seed cap key := by
      rw [hs.layout.mask_mod]; rfl
    simp only [multiHash, List.map_cons, List.zip_cons_cons]
    unfold probeKeys
    rw [hstart]
    by_cases hk : key ∈ ks
    · rw [probeWalk_of_mem hs hh key ks.length hk]
      have hasg : assign ks (key :: keys) =
          ((assign ks keys).1, (ks.indexOf key : Int) :: (assign ks keys).2) := by
        rw [assign]; simp [hk]
      rw [hasg] at hroom ⊢
      obtain ⟨f2, s2, h1, h2, h3⟩ := ih flags slots ks hs hh hroom
      refine ⟨f2, s2, ?_, h2, h3⟩
      simp only [multiHash] at h1
      simp only [h1]
    · have hasg : assign ks (key :: keys) =
          ((assign (ks ++ [key]) keys).1, (ks.length : Int) :: (assign (ks ++ [key]) keys).2) := by
        rw [assign]; simp [hk]
      rw [hasg] at hroom ⊢
      have hlen := assign_length_le keys (ks ++ [key])
      simp only [List.length_append, List.length_singleton] at hlen
      obtain ⟨f1, s1, e1, hs1, hh1⟩ := probeWalk_of_not_mem hs hh key hk (by simp at hroom; omega)
      rw [e1]
      obtain ⟨f2, s2, h1, h2, h3⟩ := ih f1 s1 (ks ++ [key]) hs1 hh1 hroom
      refine ⟨f2, s2, ?_, h2, h3⟩
      simp only [multiHash, List.length_append, List.length_singleton] at h1
      simp only [h1]

end

section

variable {w : Width} {hash : Nat → Nat → Nat} {seed cap : Nat} {flags slots : List Nat}

theorem insertWalk_length (w : Width) (mod key value : Nat) (flags table : List Nat) :
    ∀ (fuel hash0 : Nat) (f2 t2 : List Nat),
      insertWalk w mod key value flags table fuel hash0 = some (f2, t2) →
      f2.length = flags.length ∧ t2.length = table.length := by
  intro fuel
  induction fuel with
  | zero => intro hash0 f2 t2 h; simp [insertWalk] at h
  | succ n ih =>
    intro hash0 f2 t2 h
    unfold insertWalk at h
    simp only [] at h
    split at h
    · simp only [Option.some.injEq, Prod.mk.injEq] at h
      obtain ⟨h1, h2⟩ := h
      subst h1 h2
      simp
    · exact ih _ _ _ h

theorem insertLoop_length (w : Width) (hash : Nat → Nat → Nat) (seed mod fuel : Nat)
    (ps : List (Nat × Nat)) :
    ∀ (flags table f2 t2 : List Nat),
      insertLoop w hash seed mod fuel flags table (flat ps) = some (f2, t2) →
      f2.length = flags.length ∧ t2.length = table.length := by
  induction ps with
  | nil => intro flags table f2 t2 h; simp [flat, insertLoop] at h; simp [h.1, h.2]
  | cons kv ps ih =>
    intro flags table f2 t2 h
    obtain ⟨k, v⟩ := kv
    simp only [flat, insertLoop] at h
    split at h
    · simp at h
    · rename_i f1 t1 heq
      have h1 := insertWalk_length w mod k v flags table _ _ _ _ heq
      have h2 := ih f1 t1 f2 t2 h
      omega

theorem insertLoop_append (w : Width) (hash : Nat → Nat → Nat) (seed mod fuel : Nat)
    (ps : List (Nat × Nat)) (rest : List Nat) :
    ∀ (flags table : List Nat),
      insertLoop w hash seed mod fuel flags table (flat ps ++ rest) =
        (insertLoop w hash seed mod fuel flags table (flat ps)).bind
          (fun r => insertLoop w hash seed mod fuel r.1 r.2 rest) := by
  induction ps with
  | nil => intro flags table; simp [flat, insertLoop]
  | cons kv ps ih =>
    intro flags table
    obtain ⟨k, v⟩ := kv
    simp only [flat, List.cons_append, insertLoop]
    split
    · simp
    · rename_i f1 t1 heq
      exact ih f1 t1

theorem flat_append (as bs : List (Nat × Nat)) : flat (as ++ bs) = flat as ++ flat bs := by
  induction as with
  | nil => simp [flat]
  | cons kv as ih => obtain ⟨k, v⟩ := kv; simp [flat, ih]

/-- Inserting pairs with new, pairwise distinct keys into a table with enough
free slots stores exactly these pairs and keeps the invariant. -/
theorem insertLoop_sound (ps : List (Nat × Nat)) :
    ∀ (flags slots : List Nat), Sound w hash seed cap flags slots →
      occupiedCount w cap flags + ps.length ≤ cap →
      (ps.map Prod.fst).Nodup →
      (∀ kv, kv ∈ ps → ∀ p, p < cap → occupied w flags p = true → keyAt slots p ≠ kv.1) →
      ∃ f2 s2,
        insertLoop w hash seed (cap - 1) cap flags slots (flat ps) = some (f2, s2) ∧
        Sound w hash seed cap f2 s2 ∧
        occupiedCount w cap f2 = occupiedCount w cap flags + ps.length ∧
        ∀ k v, Has w cap f2 s2 k v ↔ (Has w cap flags slots k v ∨ (k, v) ∈ ps) := by
  induction ps with
  | nil =>
    intro flags slots hs _ _ _
    exact ⟨flags, slots, by simp [flat, insertLoop], hs, by simp, by simp⟩
  | cons kv ps ih =>
    intro flags slots hs hroom hnd hnew
    obtain ⟨key, value⟩ := kv
    have hc := hs.layout.cap_pos
    simp only [List.length_cons] at hroom
    simp only [List.map_cons, List.nodup_cons] at hnd
    have habs : ∀ p, p < cap → occupied w flags p = true → keyAt slots p ≠ key :=
      hnew (key, value) (List.mem_cons_self _ _)
    obtain ⟨d, hd, hfree, hocc⟩ :=
      exists_first_free w cap flags (hash key seed % 18446744073709551616) (by omega)
    have hmod : ∀ j, (hash key seed % 18446744073709551616 + j) % cap =
        (home hash seed cap key + j) % cap := by
      intro j; unfold home; rw [Nat.mod_add_mod]
    have hp0 : (home hash seed cap key + d) % cap < cap := Nat.mod_lt _ hc
    have hwalk := insertWalk_eq hs.layout key value d (cap - d - 1)
      (hash key seed % 18446744073709551616) hocc hfree
    rw [show cap - d - 1 + d + 1 = cap by omega, hmod] at hwalk
    rw [hmod] at hfree
    have hocc2 : ∀ j, j < d → occupied w flags ((home hash seed cap key + j) % cap) = true :=
      fun j hj => by rw [← hmod]; exact hocc j hj
    have hs1 := hs.step key value d hd hocc2 hfree habs
    have hcount := step_count hs.layout hp0 hfree
    have hhas := step_has hs.layout hp0 hfree key value
    obtain ⟨f2, s2, e2, hs2, hc2, hh2⟩ := ih _ _ hs1 (by rw [hcount]; omega) hnd.2 (by
      intro kv hkv p hp ho hkey
      have hH : Has w cap (setFlag w flags ((home hash seed cap key + d) % cap))
          (setSlot slots ((home hash seed cap key + d) % cap) key value) kv.1
          (valAt (setSlot slots ((home hash seed cap key + d) % cap) key value) p) :=
        ⟨p, hp, ho, hkey, rfl⟩
      rcases (hhas _ _).1 hH with ⟨q, hq, hoq, hkq, _⟩ | ⟨h1, _⟩
      · exact hnew kv (List.mem_cons_of_mem _ hkv) q hq hoq hkq
      · apply hnd.1
        rw [← h1]
        exact List.mem_map_of_mem Prod.fst hkv)
    refine ⟨f2, s2, ?_, hs2, ?_, ?_⟩
    · simp only [flat, insertLoop, hwalk]
      exact e2
    · rw [hc2, hcount]; simp; omega
    · intro k v
      rw [hh2, hhas, List.mem_cons, Prod.mk.injEq]
      tauto

end

section

variable {w : Width} {hash : Nat → Nat → Nat}

theorem lowZeros_spec (fuel : Nat) : ∀ f : Nat,
    (∀ b, b < lowZeros fuel f → f.testBit b = false) ∧ lowZeros fuel f ≤ fuel ∧
      (lowZeros fuel f < fuel → f.testBit (lowZeros fuel f) = true) := by
  induction fuel with
  | zero => intro f; simp [lowZeros]
  | succ n ih =>
    intro f
    unfold lowZeros
    by_cases h : f % 2 = 1
    · simp only [h, if_true]
      refine ⟨by intro b hb; omega, by omega, ?_⟩
      intro _
      rw [Nat.testBit_zero]; simp [h]
    · simp only [h, if_false]
      obtain ⟨h1, h2, h3⟩ := ih (f / 2)
      refine ⟨?_, by omega, ?_⟩
      · intro b hb
        cases b with
        | zero => rw [Nat.testBit_zero]; simp [h]
        | succ b => rw [Nat.testBit_succ]; exact h1 b (by omega)
      · intro hlt
        rw [Nat.testBit_succ]; exact h3 (by omega)

theorem testBit_false_of_lt {f m b : Nat} (hf : f < 2 ^ m) (hb : m ≤ b) : f.testBit b = false := by
  apply Nat.testBit_lt_two_pow
  exact lt_of_lt_of_le hf (Nat.pow_le_pow_right (by norm_num) hb)

/-- The count of trailing zeros of the complement is the length of the run of
set bits at the bottom of the word. -/
theorem lowOnes_spec (w : Width) (f : Nat) (hf : f < 2 ^ w.bits) :
    (∀ b, b < TrailingZeros w (complement w f) → f.testBit b = true) ∧
      f.testBit (TrailingZeros w (complement w f)) = false := by
  unfold TrailingZeros complement
  obtain ⟨h1, h2, h3⟩ := lowZeros_spec w.bits (2 ^ w.bits - 1 - f)
  have hc : ∀ i, (2 ^ w.bits - 1 - f).testBit i = (decide (i < w.bits) && !f.testBit i) := by
    intro i
    have : 2 ^ w.bits - 1 - f = 2 ^ w.bits - (f + 1) := by omega
    rw [this]; exact Nat.testBit_two_pow_sub_succ hf i
  constructor
  · intro b hb
    have := h1 b hb
    rw [hc] at this
    have hbw : b < w.bits := by omega
    simpa [hbw] using this
  · by_cases hlt : lowZeros w.bits (2 ^ w.bits - 1 - f) < w.bits
    · have := h3 hlt
      rw [hc] at this
      simpa [hlt] using this
    · exact testBit_false_of_lt hf (by omega)

theorem wordSlots_run (j m f n : Nat) (hn : n ≤ m) (h : ∀ b, b < n → f.testBit b = true) :
    wordSlots j m f = (List.range n).map (fun b => j + b) ++ wordSlots (j + n) (m - n) (f >>> n) := by
  unfold wordSlots
  have hm : m = n + (m - n) := by omega
  conv => lhs; rw [hm, List.range_add, List.filter_append, List.map_append]
  congr 1
  · congr 1
    rw [List.filter_eq_self]
    intro a ha; exact h a (List.mem_range.1 ha)
  · rw [List.filter_map, List.map_map]
    have hfun : ((fun b => f.testBit b) ∘ fun x => n + x) = fun b => (f >>> n).testBit b := by
      funext b; simp [Nat.testBit_shiftRight]
    rw [hfun]
    apply List.map_congr_left
    intro a _; simp; omega

theorem wordSlots_skip (j m f z : Nat) (hz : z ≤ m) (h : ∀ b, b < z → f.testBit b = false) :
    wordSlots j m f = wordSlots (j + z) (m - z) (f >>> z) := by
  unfold wordSlots
  have hm : m = z + (m - z) := by omega
  conv => lhs; rw [hm, List.range_add, List.filter_append, List.map_append]
  have h0 : (List.range z).filter (fun b => f.testBit b) = [] := by
    rw [List.filter_eq_nil_iff]
    intro a ha; simp [h a (List.mem_range.1 ha)]
  rw [h0, List.map_nil, List.nil_append, List.filter_map, List.map_map]
  have hfun : ((fun b => f.testBit b) ∘ fun x => z + x) = fun b => (f >>> z).testBit b := by
    funext b; simp [Nat.testBit_shiftRight]
  rw [hfun]
  apply List.map_congr_left
  intro a _; simp; omega

theorem wordSlots_zero (j m : Nat) : wordSlots j m 0 = [] := by
  unfold wordSlots; simp

/-- A slice `pairs[2*j : 2*(j+n)]` is the run of pairs of the slots `j .. j+n-1`. -/
theorem slice_eq_flat (pairs : List Nat) (n : Nat) : ∀ j, 2 * (j + n) ≤ pairs.length →
    (pairs.take (2 * (j + n))).drop (2 * j) =
      flat (((List.range n).map (fun b => j + b)).map (pairAt pairs)) := by
  induction n with
  | zero =>
    intro j _
    simp [flat]
  | succ n ih =>
    intro j hlen
    have h1 : 2 * j < (pairs.take (2 * (j + (n + 1)))).length := by
      rw [List.length_take]; omega
    have h2 : 2 * j + 1 < (pairs.take (2 * (j + (n + 1)))).length := by
      rw [List.length_take]; omega
    rw [List.drop_eq_getElem_cons h1, List.drop_eq_getElem_cons h2]
    rw [List.range_succ_eq_map]
    simp only [List.map_cons, List.map_map, flat, pairAt, keyAt, valAt]
    have e1 : (pairs.take (2 * (j + (n + 1))))[2 * j] = pairs.getD (2 * (j + 0)) 0 := by
      rw [List.getElem_take, List.getD_eq_getElem?_getD, List.getElem?_eq_getElem (by omega)]
      simp
    have e2 : (pairs.take (2 * (j + (n + 1))))[2 * j + 1] = pairs.getD (2 * (j + 0) + 1) 0 := by
      rw [List.getElem_take, List.getD_eq_getElem?_getD, List.getElem?_eq_getElem (by omega)]
      simp
    rw [e1, e2]
    congr 2
    have h3 := ih (j + 1) (by omega)
    have h4 : 2 * (j + 1 + n) = 2 * (j + (n + 1)) := by omega
    have h5 : 2 * (j + 1) = 2 * j + 1 + 1 := by omega
    rw [h4, h5] at h3
    rw [h3]
    simp only [List.map_map, pairAt, keyAt, valAt]
    congr 1
    apply List.map_congr_left
    intro a _
    simp only [Function.comp]
    have : j + 1 + a = j + (a + 1) := by omega
    rw [this]

end

section

variable {w : Width} {hash : Nat → Nat → Nat}

theorem content_rebuild (w : Width) (t : tableBits) (f2 s2 : List Nat)
    (h : f2.length = t.cap / w.bits) :
    tableBits.content w { t with table := f2 ++ s2 } = (f2, s2) := by
  unfold tableBits.content
  simp only []
  rw [← h, List.take_left', List.drop_left']
  · rfl
  · rfl

theorem content_fst_length (w : Width) (t : tableBits) (h : Splits w t) :
    (t.content w).1.length = t.cap / w.bits := by
  unfold tableBits.content Splits at *
  simp only [List.length_take]
  omega

theorem insert_flat (w : Width) (hash : Nat → Nat → Nat) (t : tableBits) (ps : List (Nat × Nat)) :
    t.insert w hash (flat ps) =
      (insertLoop w hash t.seed ((18446744073709551615 + uintptr t.cap) % 18446744073709551616)
        t.cap (t.content w).1 (t.content w).2 (flat ps)).map
        (fun r => { t with table := r.1 ++ r.2 }) := by
  unfold tableBits.insert
  simp only []
  split <;> rename_i heq <;> simp [heq]

theorem insert_keeps (w : Width) (hash : Nat → Nat → Nat) (t t2 : tableBits)
    (ps : List (Nat × Nat)) (h : t.insert w hash (flat ps) = some t2) (hsp : Splits w t) :
    Splits w t2 ∧ t2.cap = t.cap ∧ t2.seed = t.seed ∧ t2.len = t.len ∧ t2.maxLen = t.maxLen ∧
      t2.maxLoad = t.maxLoad := by
  rw [insert_flat] at h
  simp only [Option.map_eq_some'] at h
  obtain ⟨⟨f2, s2⟩, h1, h2⟩ := h
  obtain ⟨hl1, _⟩ := insertLoop_length w hash _ _ _ ps _ _ _ _ h1
  subst h2
  refine ⟨?_, rfl, rfl, rfl, rfl, rfl⟩
  unfold Splits
  simp only [List.length_append]
  have := content_fst_length w t hsp
  omega

theorem insert_nil (w : Width) (hash : Nat → Nat → Nat) (t : tableBits) :
    t.insert w hash [] = some t := by
  unfold tableBits.insert tableBits.content
  simp [insertLoop]

/-- Two slices inserted one after the other are the concatenation inserted at once. -/
theorem insert_append (w : Width) (hash : Nat → Nat → Nat) (t : tableBits)
    (as bs : List (Nat × Nat)) (hsp : Splits w t) :
    t.insert w hash (flat (as ++ bs)) =
      (t.insert w hash (flat as)).bind (fun t2 => t2.insert w hash (flat bs)) := by
  rw [flat_append, ← flat_append]
  rw [insert_flat, insert_flat, flat_append, insertLoop_append]
  cases hres : insertLoop w hash t.seed
      ((18446744073709551615 + uintptr t.cap) % 18446744073709551616) t.cap
      (t.content w).1 (t.content w).2 (flat as) with
  | none => simp
  | some r =>
    obtain ⟨f1, s1⟩ := r
    obtain ⟨hl1, _⟩ := insertLoop_length w hash _ _ _ as _ _ _ _ hres
    have hlen : f1.length = t.cap / w.bits := by rw [hl1]; exact content_fst_length w t hsp
    have hc := content_rebuild w t f1 s1 hlen
    simp only [Option.some_bind, Option.map_some']
    rw [insert_flat, hc]

end

section

variable {w : Width} {hash : Nat → Nat → Nat}

theorem shiftRight_lt {f m n : Nat} (hf : f < 2 ^ m) (hn : n ≤ m) : f >>> n < 2 ^ (m - n) := by
  rw [Nat.shiftRight_eq_div_pow]
  rw [Nat.div_lt_iff_lt_mul (Nat.pos_pow_of_pos n (by norm_num)), ← pow_add]
  rw [show m - n + n = m by omega]; exact hf

theorem exists_testBit_lt {f m : Nat} (hf : f < 2 ^ m) (h0 : f ≠ 0) :
    ∃ b, b < m ∧ f.testBit b = true := by
  obtain ⟨b, hb⟩ := Nat.ne_zero_implies_bit_true h0
  refine ⟨b, ?_, hb⟩
  by_contra hc
  rw [testBit_false_of_lt hf (by omega)] at hb
  exact Bool.false_ne_true hb

/-- The inner loop of `grow` on one bitmap word inserts the pairs of exactly the
slots whose bit is set, in ascending order. -/
theorem growRuns_eq (w : Width) (hash : Nat → Nat → Nat) (pairs : List Nat) :
    ∀ (m fuel : Nat) (tmp : tableBits) (j f : Nat), m ≤ fuel → m ≤ w.bits → f < 2 ^ m →
      f.testBit 0 = true → Splits w tmp → 2 * (j + m) ≤ pairs.length →
      growRuns w hash pairs fuel tmp j f =
        tmp.insert w hash (flat ((wordSlots j m f).map (pairAt pairs))) := by
  intro m
  induction m using Nat.strong_induction_on with
  | _ m ih =>
    intro fuel tmp j f hfuel hmw hf hodd hsp hlen
    have hm1 : 1 ≤ m := by
      by_contra hc
      have : m = 0 := by omega
      subst this
      rw [testBit_false_of_lt hf (le_refl 0)] at hodd
      exact Bool.false_ne_true hodd
    obtain ⟨fuel, rfl⟩ : ∃ k, fuel = k + 1 := ⟨fuel - 1, by omega⟩
    have hfW : f < 2 ^ w.bits := lt_of_lt_of_le hf (Nat.pow_le_pow_right (by norm_num) hmw)
    obtain ⟨hones, hstop⟩ := lowOnes_spec w f hfW
    generalize hn : TrailingZeros w (complement w f) = n at hones hstop
    have hn1 : 1 ≤ n := by
      by_contra hc
      have : n = 0 := by omega
      subst this
      rw [hodd] at hstop; exact Bool.false_ne_true hstop.symm
    have hnm : n ≤ m := by
      by_contra hc
      have := hones m (by omega)
      rw [testBit_false_of_lt hf (le_refl m)] at this
      exact Bool.false_ne_true this
    unfold growRuns
    simp only [hn]
    rw [slice_eq_flat pairs n j (by omega)]
    rw [wordSlots_run j m f n hnm hones, List.map_append, insert_append w hash tmp _ _ hsp]
    cases hins : tmp.insert w hash
        (flat (((List.range n).map (fun b => j + b)).map (pairAt pairs))) with
    | none => simp
    | some tmp1 =>
      have hsp1 := (insert_keeps w hash tmp tmp1 _ hins hsp).1
      simp only [Option.some_bind]
      have hf1 : f >>> n < 2 ^ (m - n) := shiftRight_lt hf hnm
      by_cases h0 : f >>> n = 0
      · simp only [h0, if_true]
        rw [wordSlots_zero]
        simp [flat, insert_nil]
      · simp only [h0, if_false]
        obtain ⟨hz1, hz2, hz3⟩ := lowZeros_spec w.bits (f >>> n)
        have hzdef : TrailingZeros w (f >>> n) = lowZeros w.bits (f >>> n) := rfl
        generalize hz : lowZeros w.bits (f >>> n) = z at hz1 hz2 hz3 hzdef
        rw [hzdef]
        have hzm : z < m - n := by
          by_contra hc
          obtain ⟨b, hb, hbt⟩ := exists_testBit_lt hf1 h0
          rw [hz1 b (by omega)] at hbt
          exact Bool.false_ne_true hbt
        have hz0 : 1 ≤ z := by
          by_contra hc
          have : z = 0 := by omega
          subst this
          have := hz3 (by omega)
          rw [Nat.testBit_shiftRight] at this
          simp only [Nat.add_zero] at this
          rw [hstop] at this
          exact Bool.false_ne_true this
        have hrec := ih (m - n - z) (by omega) fuel tmp1 (j + n + z) (f >>> n >>> z) (by omega)
          (by omega) (by
            have := shiftRight_lt hf1 (le_of_lt hzm)
            exact this) (by
            rw [Nat.testBit_shiftRight]
            simp only [Nat.add_zero]
            exact hz3 (by omega)) hsp1 (by omega)
        rw [hrec, wordSlots_skip (j + n) (m - n) (f >>> n) z (le_of_lt hzm) hz1]

/-- The loop of `grow` over the bitmap words inserts the pairs of exactly the
slots whose bit is set, in ascending order. -/
theorem growWords_eq (w : Width) (hash : Nat → Nat → Nat) (pairs : List Nat) :
    ∀ (flags : List Nat) (i : Nat) (tmp : tableBits), (∀ f, f ∈ flags → f < 2 ^ w.bits) →
      2 * (w.bits * (i + flags.length)) ≤ pairs.length → Splits w tmp →
      growWords w hash pairs flags i tmp =
        tmp.insert w hash (flat ((wordsSlots w i flags).map (pairAt pairs))) := by
  intro flags
  induction flags with
  | nil =>
    intro i tmp _ _ _
    simp [growWords, wordsSlots, flat, insert_nil]
  | cons f flags ih =>
    intro i tmp hlt hlen hsp
    have hf := hlt f (List.mem_cons_self _ _)
    have hlt2 : ∀ g, g ∈ flags → g < 2 ^ w.bits := fun g hg => hlt g (List.mem_cons_of_mem _ hg)
    simp only [List.length_cons] at hlen
    have hlen2 : 2 * (w.bits * (i + 1 + flags.length)) ≤ pairs.length := by
      rw [show i + 1 + flags.length = i + (flags.length + 1) by omega]; exact hlen
    unfold growWords
    simp only [wordsSlots, List.map_append]
    rw [insert_append w hash tmp _ _ hsp]
    by_cases h0 : f = 0
    · subst h0
      simp only [ne_eq, not_true_eq_false, if_false, wordSlots_zero, List.map_nil, flat,
        insert_nil, Option.some_bind]
      exact ih (i + 1) tmp hlt2 hlen2 hsp
    · simp only [ne_eq, h0, not_false_eq_true, if_true]
      obtain ⟨hz1, hz2, hz3⟩ := lowZeros_spec w.bits f
      have hzdef : TrailingZeros w f = lowZeros w.bits f := rfl
      generalize hz : lowZeros w.bits f = z at hz1 hz2 hz3 hzdef
      rw [hzdef]
      have hzm : z < w.bits := by
        by_contra hc
        obtain ⟨b, hb, hbt⟩ := exists_testBit_lt hf h0
        rw [hz1 b (by omega)] at hbt
        exact Bool.false_ne_true hbt
      have hmul : w.bits * (i + (flags.length + 1)) =
          w.bits * i + w.bits + w.bits * flags.length := by ring
      have hruns := growRuns_eq w hash pairs (w.bits - z) w.bits tmp (w.bits * i + z) (f >>> z)
        (by omega) (by omega) (shiftRight_lt hf hz2) (by
          rw [Nat.testBit_shiftRight]
          simp only [Nat.add_zero]
          exact hz3 hzm) hsp (by rw [hmul] at hlen; omega)
      rw [hruns, ← wordSlots_skip (w.bits * i) w.bits f z hz2 hz1]
      cases hins : tmp.insert w hash (flat ((wordSlots (w.bits * i) w.bits f).map (pairAt pairs))) with
      | none => simp
      | some tmp1 =>
        have hsp1 := (insert_keeps w hash tmp tmp1 _ hins hsp).1
        simp only [Option.some_bind]
        exact ih (i + 1) tmp1 hlt2 hlen2 hsp1

/-- The slots found by the walk over the bitmap words are the occupied slots. -/
theorem wordsSlots_eq_filter (w : Width) : ∀ (fs pre : List Nat),
    wordsSlots w pre.length fs =
      (List.range' (w.bits * pre.length) (w.bits * fs.length)).filter (occupied w (pre ++ fs)) := by
  intro fs
  induction fs with
  | nil => intro pre; simp [wordsSlots]
  | cons f fs ih =>
    intro pre
    have hW := w.bits_pos
    simp only [wordsSlots, List.length_cons]
    have hsplit : List.range' (w.bits * pre.length) (w.bits * (fs.length + 1)) =
        List.range' (w.bits * pre.length) w.bits ++
          List.range' (w.bits * (pre.length + 1)) (w.bits * fs.length) := by
      rw [show w.bits * (pre.length + 1) = w.bits * pre.length + w.bits by ring]
      rw [List.range'_append_1]
      congr 1
    rw [hsplit, List.filter_append]
    congr 1
    · unfold wordSlots
      rw [List.range'_eq_map_range, List.filter_map]
      congr 1
      apply List.filter_congr
      intro b hb
      have hb := List.mem_range.1 hb
      simp only [Function.comp, occupied]
      have h1 : (w.bits * pre.length + b) / w.bits = pre.length := by
        rw [Nat.mul_add_div hW, Nat.div_eq_of_lt hb]; simp
      have h2 : (w.bits * pre.length + b) % w.bits = b := by
        rw [Nat.mul_add_mod, Nat.mod_eq_of_lt hb]
      rw [h1, h2]
      rw [List.getD_eq_getElem?_getD, List.getElem?_append_right (le_refl _)]
      simp
    · have := ih (pre ++ [f])
      simp only [List.length_append, List.length_singleton, List.append_assoc,
        List.singleton_append] at this
      exact this

theorem wordsSlots_eq_occupiedSlots (w : Width) (cap : Nat) (flags : List Nat)
    (hlen : flags.length = cap / w.bits) (hdvd : w.bits ∣ cap) :
    wordsSlots w 0 flags = occupiedSlots w cap flags := by
  have := wordsSlots_eq_filter w flags []
  simp only [List.length_nil, Nat.mul_zero, List.nil_append] at this
  rw [this, hlen, Nat.mul_div_cancel' hdvd, ← List.range_eq_range']
  rfl

end

section

variable {w : Width} {hash : Nat → Nat → Nat}

theorem occupied_replicate (w : Width) (n p : Nat) : occupied w (List.replicate n 0) p = false := by
  unfold occupied
  rw [List.getD_eq_getElem?_getD]
  have : ((List.replicate n 0)[p / w.bits]?).getD 0 = 0 := by
    by_cases h : p / w.bits < n
    · rw [List.getElem?_eq_getElem (by simpa using h)]; simp
    · rw [List.getElem?_eq_none (by simpa using h)]; simp
  rw [this]; simp

theorem Width.bits_pow (w : Width) : ∃ k, w.bits = 2 ^ k ∧ 5 ≤ k ∧ k ≤ 6 := by
  cases w
  · exact ⟨5, rfl, by omega, by omega⟩
  · exact ⟨6, rfl, by omega, by omega⟩

theorem Width.dvd_two_pow (w : Width) (e : Nat) (he : 6 ≤ e) : w.bits ∣ 2 ^ e := by
  obtain ⟨k, hk, _, hk6⟩ := w.bits_pow
  rw [hk]; exact Nat.pow_dvd_pow 2 (by omega)

theorem makeSlice_nonneg (n : Nat) : makeSlice (n : Int) = some (List.replicate n 0) := by
  unfold makeSlice
  have h5 : ¬ ((n : Int) < 0) := by omega
  rw [if_neg h5, Int.toNat_ofNat]

theorem int64wrap_natCast (n : Nat) (h : n < 2 ^ 63) : int64wrap (n : Int) = (n : Int) :=
  int64wrap_of_range (by omega) (by omega)

theorem init_len (w : Width) (c : Nat) (hc : c ≤ 2 ^ 61) :
    int64wrap (int64wrap (Int.tdiv (c : Int) (w.bits : Int)) + int64wrap (2 * (c : Int))) =
      ((c / w.bits + 2 * c : Nat) : Int) := by
  have hdiv : c / w.bits ≤ c := Nat.div_le_self _ _
  have h1 : Int.tdiv (c : Int) (w.bits : Int) = ((c / w.bits : Nat) : Int) := rfl
  have h3 : (2 * (c : Int)) = ((2 * c : Nat) : Int) := by push_cast; ring
  rw [h1, h3, int64wrap_natCast _ (by omega), int64wrap_natCast _ (by omega)]
  have h4 : ((c / w.bits : Nat) : Int) + ((2 * c : Nat) : Int) =
      ((c / w.bits + 2 * c : Nat) : Int) := by
    push_cast; ring
  rw [h4, int64wrap_natCast _ (by omega)]

/-- The table built by `init` for a capacity that fits. -/
theorem init_eq (w : Width) (c : Nat) (hc : c ≤ 2 ^ 61) (maxLoad : ℚ) (seed : Nat) :
    tableBits.init w (c : Int) maxLoad seed =
      some { len := 0, cap := c, maxLen := ⌈maxLoad * (c : ℚ)⌉,
             maxLoad := maxLoad, seed := seed,
             table := List.replicate (c / w.bits + 2 * c) 0 } := by
  have h := init_len w c hc
  clear hc
  rw [tableBits.init, h, makeSlice_nonneg]
  simp only [Int.toNat_ofNat, Int.cast_natCast]

theorem makeSlice_neg {n : Int} (h : n < 0) : makeSlice n = none := by
  unfold makeSlice; rw [if_pos h]

theorem init_none (w : Width) (cap : Int) (maxLoad : ℚ) (seed : Nat)
    (h : int64wrap (int64wrap (Int.tdiv cap (w.bits : Int)) + int64wrap (2 * cap)) < 0) :
    tableBits.init w cap maxLoad seed = none := by
  unfold tableBits.init
  rw [makeSlice_neg h]

/-- The capacity `2^62` does not fit: the buffer length overflows and `make` panics. -/
theorem init_overflow (w : Width) (maxLoad : ℚ) (seed : Nat) :
    tableBits.init w 4611686018427387904 maxLoad seed = none := by
  apply init_none
  cases w <;> simp only [int64wrap, Width.bits] <;> norm_num [Int.tdiv]

theorem content_replicate (w : Width) (t : tableBits) (c : Nat)
    (hc : t.cap = c) (ht : t.table = List.replicate (c / w.bits + 2 * c) 0) :
    t.content w = (List.replicate (c / w.bits) 0, List.replicate (2 * c) 0) := by
  unfold tableBits.content
  rw [hc, ht]
  simp only [List.take_replicate, List.drop_replicate]
  congr 2 <;> omega

/-- A zeroed buffer of capacity `2^e` satisfies the invariant with no keys. -/
theorem zero_inv (w : Width) (hash : Nat → Nat → Nat) (seed e : Nat) (he : e ≤ 61)
    (hdvd : w.bits ∣ 2 ^ e) :
    Sound w hash seed (2 ^ e) (List.replicate (2 ^ e / w.bits) 0) (List.replicate (2 * 2 ^ e) 0) ∧
      Holds w (2 ^ e) (List.replicate (2 ^ e / w.bits) 0) (List.replicate (2 * 2 ^ e) 0) [] := by
  have hocc := occupied_replicate w (2 ^ e / w.bits)
  refine ⟨⟨⟨⟨e, rfl, he⟩, hdvd, by simp, by simp, ?_⟩, ?_, ?_⟩, ⟨by simp, ?_, ?_, ?_⟩⟩
  · intro x hx
    rw [List.eq_of_mem_replicate hx]
    exact Nat.pos_pow_of_pos _ (by norm_num)
  · intro p _ ho; rw [hocc] at ho; exact absurd ho Bool.false_ne_true
  · intro p _ _ _ ho; rw [hocc] at ho; exact absurd ho Bool.false_ne_true
  · unfold occupiedCount
    simp only [List.length_nil]
    rw [List.countP_eq_zero]
    intro a _; rw [hocc]; simp
  · rintro key value ⟨p, _, ho, _⟩; rw [hocc] at ho; exact absurd ho Bool.false_ne_true
  · intro key hk; simp at hk

end

section

variable {w : Width} {hash : Nat → Nat → Nat}

theorem mem_occupiedSlots (w : Width) (cap : Nat) (flags : List Nat) (p : Nat) :
    p ∈ occupiedSlots w cap flags ↔ p < cap ∧ occupied w flags p = true := by
  unfold occupiedSlots
  rw [List.mem_filter, List.mem_range]

theorem length_occupiedSlots (w : Width) (cap : Nat) (flags : List Nat) :
    (occupiedSlots w cap flags).length = occupiedCount w cap flags := by
  unfold occupiedSlots occupiedCount
  rw [List.countP_eq_length_filter]

theorem mem_pairs_iff_has (w : Width) (cap : Nat) (flags slots : List Nat) (k v : Nat) :
    (k, v) ∈ (occupiedSlots w cap flags).map (pairAt slots) ↔ Has w cap flags slots k v := by
  rw [List.mem_map]
  unfold Has pairAt
  constructor
  · rintro ⟨p, hp, heq⟩
    rw [mem_occupiedSlots] at hp
    simp only [Prod.mk.injEq] at heq
    exact ⟨p, hp.1, hp.2, heq.1, heq.2⟩
  · rintro ⟨p, hp, ho, hk, hv⟩
    exact ⟨p, (mem_occupiedSlots w cap flags p).2 ⟨hp, ho⟩, by rw [hk, hv]⟩

theorem nodup_keys_of_unique (w : Width) (cap : Nat) (flags slots : List Nat)
    (hu : UniqueKeys w cap flags slots) :
    (((occupiedSlots w cap flags).map (pairAt slots)).map Prod.fst).Nodup := by
  rw [List.map_map]
  apply List.Nodup.map_on
  · intro p hp q hq heq
    rw [mem_occupiedSlots] at hp hq
    exact hu p q hp.1 hq.1 hp.2 hq.2 heq
  · unfold occupiedSlots
    exact List.Nodup.filter _ (List.nodup_range cap)

theorem Layout.cap_dvd_of_le {cap : Nat} {flags slots : List Nat} (hl : Layout w cap flags slots)
    (e : Nat) (hcap : cap ≤ 2 ^ e) : w.bits ∣ 2 ^ e := by
  obtain ⟨e0, he0, _⟩ := hl.pow
  have hle : e0 ≤ e := by
    rw [he0] at hcap
    exact (Nat.pow_le_pow_iff_right (by norm_num)).1 hcap
  have : cap ∣ 2 ^ e := by rw [he0]; exact Nat.pow_dvd_pow 2 hle
  exact Nat.dvd_trans hl.dvd this

/-- Re-inserting the pairs of a table into a zeroed table of a capacity that is
not smaller gives a table that holds the same keys with the same identifiers. -/
theorem rehash_inv (w : Width) (hash : Nat → Nat → Nat) (t : tableBits) (ks : List Nat)
    (hinv : TableInv w hash t ks) (e : Nat) (he : e ≤ 61) (hcap : t.cap ≤ 2 ^ e) (seed : Nat)
    (tmp : tableBits) (hcap2 : tmp.cap = 2 ^ e) (hseed : tmp.seed = seed)
    (hbuf : tmp.table = List.replicate (2 ^ e / w.bits + 2 * 2 ^ e) 0)
    (hml : tmp.maxLen = ⌈tmp.maxLoad * ((2 ^ e : Nat) : ℚ)⌉) (hload : tmp.maxLoad = t.maxLoad)
    (hlen : tmp.len = t.len) :
    ∃ t2, growWords w hash (t.content w).2 (t.content w).1 0 tmp = some t2 ∧
      TableInv w hash t2 ks ∧ t2.cap = 2 ^ e ∧ t2.seed = seed ∧ t2.maxLoad = t.maxLoad ∧
      t2.len = t.len := by
  obtain ⟨len0, cap0, maxLen0, maxLoad0, seed0, table0⟩ := tmp
  simp only at hcap2 hseed hbuf hml hload hlen
  subst hcap2 hseed hbuf hml hload hlen
  have hl := hinv.sound.layout
  have hW := w.bits_pos
  have hdvd := hl.cap_dvd_of_le e hcap
  obtain ⟨hs0, hh0⟩ := zero_inv w hash seed0 e he hdvd
  have hsp : Splits w
      { len := t.len, cap := 2 ^ e, maxLen := ⌈t.maxLoad * ((2 ^ e : Nat) : ℚ)⌉,
        maxLoad := t.maxLoad, seed := seed0,
        table := List.replicate (2 ^ e / w.bits + 2 * 2 ^ e) 0 } := by
    unfold Splits; simp
  have hwords := growWords_eq w hash (t.content w).2 (t.content w).1 0 _ hl.wordsLt (by
    rw [Nat.zero_add, hl.flagsLen, Nat.mul_div_cancel' hl.dvd, hl.slotsLen]) hsp
  rw [hwords, wordsSlots_eq_occupiedSlots w t.cap _ hl.flagsLen hl.dvd, insert_flat]
  rw [content_replicate w _ (2 ^ e) rfl rfl]
  simp only []
  rw [hs0.layout.mask_eq]
  obtain ⟨f2, s2, e2, hs2, hc2, hh2⟩ := insertLoop_sound
    ((occupiedSlots w t.cap (t.content w).1).map (pairAt (t.content w).2))
    _ _ hs0 (by
      rw [hh0.count, List.length_map, length_occupiedSlots]
      have := countP_range_le t.cap (occupied w (t.content w).1)
      unfold occupiedCount
      simp only [List.length_nil]; omega)
    (nodup_keys_of_unique w t.cap _ _ hinv.sound.unique)
    (fun kv _ => hh0.absent (List.not_mem_nil _))
  rw [e2]
  simp only [Option.map_some']
  refine ⟨_, rfl, ?_, rfl, rfl, rfl, rfl⟩
  have hc := content_rebuild w
    { len := t.len, cap := 2 ^ e, maxLen := ⌈t.maxLoad * ((2 ^ e : Nat) : ℚ)⌉,
      maxLoad := t.maxLoad, seed := seed0,
      table := List.replicate (2 ^ e / w.bits + 2 * 2 ^ e) 0 } f2 s2 (by
    rw [hs2.layout.flagsLen])
  simp only [] at hc
  have hhas : ∀ k v, Has w (2 ^ e) f2 s2 k v ↔ Has w t.cap (t.content w).1 (t.content w).2 k v := by
    intro k v
    rw [hh2, mem_pairs_iff_has]
    constructor
    · rintro (h | h)
      · have := hh0.stored k v h
        simp at this
      · exact h
    · intro h; exact Or.inr h
  refine ⟨?_, ?_, ?_, ?_, ?_⟩
  · rw [hc]; exact hs2
  · rw [hc]
    refine ⟨hinv.holds.nodup, ?_, ?_, ?_⟩
    · rw [hc2, hh0.count, List.length_map, length_occupiedSlots, hinv.holds.count]; simp
    · intro k v h; exact hinv.holds.stored k v ((hhas k v).1 h)
    · intro k hk
      obtain ⟨v, hv⟩ := hinv.holds.present k hk
      exact ⟨v, (hhas k v).2 hv⟩
  · exact hinv.lenEq
  · rfl
  · exact hinv.loadLe

end

section

variable {w : Width} {hash : Nat → Nat → Nat}

theorem nextPowerOf2_cases (n : Int) :
    nextPowerOf2 n ≤ 0 ∨ ∃ b, b ≤ 62 ∧ nextPowerOf2 n = ((2 ^ b : Nat) : Int) := by
  unfold nextPowerOf2 LeadingZeros64
  have hb := bitLen_le 64 (uintptr (n - 1))
  have h6 : 64 - (64 - bitLen 64 (uintptr (n - 1))) = bitLen 64 (uintptr (n - 1)) := by omega
  rw [h6, Nat.one_shiftLeft]
  generalize bitLen 64 (uintptr (n - 1)) = b at hb
  by_cases h : b ≤ 62
  · right
    refine ⟨b, h, ?_⟩
    have h7 : 2 ^ b ≤ 2 ^ 62 := Nat.pow_le_pow_right (by norm_num) h
    exact int64wrap_natCast _ (by omega)
  · left
    have : b = 63 ∨ b = 64 := by omega
    rcases this with rfl | rfl <;> simp [int64wrap]

theorem growCap_pow (e0 : Nat) (he0 : e0 ≤ 61) (total : Int) :
    ∃ e, growCap (2 ^ e0) total = ((2 ^ e : Nat) : Int) ∧ e0 + 1 ≤ e ∧ e ≤ 62 := by
  have hpow : (2 : Nat) ^ (e0 + 1) ≤ 2 ^ 62 := Nat.pow_le_pow_right (by norm_num) (by omega)
  have h2 : int64wrap (2 * ((2 ^ e0 : Nat) : Int)) = ((2 ^ (e0 + 1) : Nat) : Int) := by
    have : 2 * ((2 ^ e0 : Nat) : Int) = ((2 ^ (e0 + 1) : Nat) : Int) := by
      push_cast; ring
    rw [this]; exact int64wrap_natCast _ (by omega)
  unfold growCap
  rw [h2]
  split
  · rename_i hgt
    rcases nextPowerOf2_cases total with h | ⟨b, hb, hbe⟩
    · have : (0 : Int) ≤ ((2 ^ (e0 + 1) : Nat) : Int) := Int.natCast_nonneg _
      omega
    · refine ⟨b, hbe, ?_, hb⟩
      rw [hbe] at hgt
      have hlt : 2 ^ (e0 + 1) < 2 ^ b := by exact_mod_cast hgt
      have := (Nat.pow_lt_pow_iff_right (by norm_num : 1 < 2)).1 hlt
      omega
  · exact ⟨e0 + 1, rfl, le_refl _, by omega⟩

theorem growCap_ge (cap n : Nat) (hn : n ≤ 2 ^ 62) : (n : Int) ≤ growCap cap (n : Int) := by
  have hnp : (n : Int) ≤ nextPowerOf2 (n : Int) := by
    by_cases h0 : n = 0
    · subst h0; simp [nextPowerOf2_zero]
    · rw [nextPowerOf2_eq n (by omega) hn]
      exact_mod_cast le_two_pow_bitLen_pred n hn
  unfold growCap
  split
  · exact hnp
  · omega

theorem growCap_le (e0 n : Nat) (he0 : e0 ≤ 60) (hn : n ≤ 2 ^ 61) :
    growCap (2 ^ e0) (n : Int) ≤ ((2 ^ 61 : Nat) : Int) := by
  have hpow : (2 : Nat) ^ (e0 + 1) ≤ 2 ^ 61 := Nat.pow_le_pow_right (by norm_num) (by omega)
  have h2 : int64wrap (2 * ((2 ^ e0 : Nat) : Int)) = ((2 ^ (e0 + 1) : Nat) : Int) := by
    have : 2 * ((2 ^ e0 : Nat) : Int) = ((2 ^ (e0 + 1) : Nat) : Int) := by
      push_cast; ring
    rw [this]; exact int64wrap_natCast _ (by omega)
  unfold growCap
  rw [h2]
  split
  · by_cases h0 : n = 0
    · subst h0; simp [nextPowerOf2_zero]
    · rw [nextPowerOf2_eq n (by omega) (by omega)]
      have := bitLen_pred_least n 61 (by omega) hn
      have h3 : 2 ^ bitLen 64 (n - 1) ≤ 2 ^ 61 := Nat.pow_le_pow_right (by norm_num) this
      exact_mod_cast h3
  · exact_mod_cast hpow

theorem two_pow_bitLen_pred_le (n : Nat) (h1 : 1 ≤ n) (h : n ≤ 2 ^ 62) :
    2 ^ bitLen 64 (n - 1) ≤ 2 * n := by
  by_cases h0 : n - 1 = 0
  · rw [h0]; simp [bitLen]; omega
  · have h3 := two_pow_bitLen_le 64 (n - 1) h0 (by omega)
    have h4 := bitLen_pos 64 (n - 1) h0 (by omega)
    obtain ⟨b, hb⟩ : ∃ b, bitLen 64 (n - 1) = b + 1 := ⟨bitLen 64 (n - 1) - 1, by omega⟩
    rw [hb] at h3 ⊢
    simp only [Nat.add_sub_cancel] at h3
    rw [pow_succ]; omega

theorem growCap_le_double (e0 n : Nat) (he0 : e0 ≤ 61) (hn : n ≤ 2 ^ 62) :
    growCap (2 ^ e0) (n : Int) ≤ ((max (2 * 2 ^ e0) (2 * n) : Nat) : Int) := by
  have hpow : (2 : Nat) ^ (e0 + 1) ≤ 2 ^ 62 := Nat.pow_le_pow_right (by norm_num) (by omega)
  have h2 : int64wrap (2 * ((2 ^ e0 : Nat) : Int)) = ((2 * 2 ^ e0 : Nat) : Int) := by
    have : 2 * ((2 ^ e0 : Nat) : Int) = ((2 * 2 ^ e0 : Nat) : Int) := by
      push_cast; ring
    rw [this]; exact int64wrap_natCast _ (by rw [pow_succ] at hpow; omega)
  unfold growCap
  rw [h2]
  split
  · by_cases h0 : n = 0
    · subst h0; simp [nextPowerOf2_zero]
    · rw [nextPowerOf2_eq n (by omega) hn]
      have := two_pow_bitLen_pred_le n (by omega) hn
      have h5 : 2 ^ bitLen 64 (n - 1) ≤ max (2 * 2 ^ e0) (2 * n) := le_trans this (le_max_right _ _)
      exact_mod_cast h5
  · have h5 : 2 * 2 ^ e0 ≤ max (2 * 2 ^ e0) (2 * n) := le_max_left _ _
    exact_mod_cast h5

theorem grow_unfold (w : Width) (hash : Nat → Nat → Nat) (t : tableBits) (total : Int) (seed : Nat) :
    t.grow w hash total seed =
      t.rehash w hash (tableBits.init w (growCap t.cap total) t.maxLoad seed) := rfl

/-- What `grow` does: it either panics in `make`, leaving the table as it was,
or returns a table of the computed capacity with the same keys. -/
theorem grow_spec (w : Width) (hash : Nat → Nat → Nat) (t : tableBits) (ks : List Nat)
    (hinv : TableInv w hash t ks) (total : Int) (seed : Nat) :
    ∃ e, growCap t.cap total = ((2 ^ e : Nat) : Int) ∧ 2 * t.cap ≤ 2 ^ e ∧ e ≤ 62 ∧
      (e = 62 → t.grow w hash total seed = .panic t) ∧
      (e ≤ 61 → ∃ t2, t.grow w hash total seed = .done t2 ∧ TableInv w hash t2 ks ∧
        t2.cap = 2 ^ e ∧ t2.seed = seed ∧ t2.maxLoad = t.maxLoad ∧ t2.len = t.len) := by
  obtain ⟨e0, he0, he0le⟩ := hinv.sound.layout.pow
  obtain ⟨e, hce, hlo, hhi⟩ := growCap_pow e0 he0le total
  rw [← he0] at hce
  have hle : 2 * t.cap ≤ 2 ^ e := by
    rw [he0, ← pow_succ']
    exact Nat.pow_le_pow_right (by norm_num) hlo
  refine ⟨e, hce, hle, hhi, ?_, ?_⟩
  · intro h62
    rw [grow_unfold, hce, h62]
    have : (((2 : Nat) ^ 62 : Nat) : Int) = 4611686018427387904 := by norm_num
    rw [this, init_overflow]
    rfl
  · intro h61
    rw [grow_unfold, hce, init_eq w (2 ^ e) (Nat.pow_le_pow_right (by norm_num) h61)]
    rw [tableBits.rehash]
    obtain ⟨t2, hg, hinv2, h1, h2, h3, h4⟩ := rehash_inv w hash t ks hinv e h61 (by omega) seed
      { len := t.len, cap := 2 ^ e, maxLen := ⌈t.maxLoad * ((2 ^ e : Nat) : ℚ)⌉,
        maxLoad := t.maxLoad, seed := seed,
        table := List.replicate (2 ^ e / w.bits + 2 * 2 ^ e) 0 } rfl rfl rfl rfl rfl rfl
    rw [hg]
    exact ⟨t2, rfl, hinv2, h1, h2, h3, h4⟩

end

section

variable {w : Width} {hash : Nat → Nat → Nat}

theorem assign_append (a b : List Nat) : ∀ seen,
    assign seen (a ++ b) =
      ((assign (assign seen a).1 b).1, (assign seen a).2 ++ (assign (assign seen a).1 b).2) := by
  induction a with
  | nil => intro seen; simp [assign]
  | cons key a ih =>
    intro seen
    rw [List.cons_append]
    by_cases hk : key ∈ seen
    · rw [assign, if_pos hk, ih seen, assign, if_pos hk]
      simp
    · rw [assign, if_neg hk, ih (seen ++ [key]), assign, if_neg hk]
      simp

theorem TableInv.table_length (hinv : TableInv w hash t ks) :
    t.table.length = t.cap / w.bits + 2 * t.cap := by
  have h1 := hinv.sound.layout.flagsLen
  have h2 := hinv.sound.layout.slotsLen
  unfold tableBits.content at h1 h2
  simp only [List.length_take, List.length_drop] at h1 h2
  omega

theorem TableInv.splits (hinv : TableInv w hash t ks) : Splits w t := by
  unfold Splits
  rw [hinv.table_length]; omega

theorem TableInv.maxLen_le (hinv : TableInv w hash t ks) : t.maxLen ≤ (t.cap : Int) := by
  rw [hinv.maxLenEq, Int.ceil_le]
  have h0 : (0 : ℚ) ≤ (t.cap : ℚ) := Nat.cast_nonneg _
  have := mul_le_mul_of_nonneg_right hinv.loadLe h0
  simpa using this

/-- After `reset` the table satisfies the invariant with no keys. -/
theorem reset_inv (hinv : TableInv w hash t ks) : TableInv w hash t.reset [] := by
  obtain ⟨e, he, hele⟩ := hinv.sound.layout.pow
  have hlen := hinv.table_length
  have htab : t.reset.table = List.replicate (2 ^ e / w.bits + 2 * 2 ^ e) 0 := by
    unfold tableBits.reset
    simp only [List.map_const', hlen, he]
  have hcap : t.reset.cap = 2 ^ e := he
  have hc := content_replicate w t.reset (2 ^ e) hcap htab
  have hdvd : w.bits ∣ 2 ^ e := by rw [← he]; exact hinv.sound.layout.dvd
  obtain ⟨hs0, hh0⟩ := zero_inv w hash t.seed e hele hdvd
  refine ⟨?_, ?_, rfl, ?_, hinv.loadLe⟩
  · rw [hc, hcap]; exact hs0
  · rw [hc, hcap]; exact hh0
  · exact hinv.maxLenEq

/-- The kernel on one window of keys. -/
theorem multiProbe_spec (hinv : TableInv w hash t ks) (kw : List Nat)
    (hroom : (assign ks kw).1.length ≤ t.cap) :
    ∃ table2, multiProbe w t.table t.len t.cap (multiHash hash kw t.seed) kw =
        some (table2, (assign ks kw).1.length, (assign ks kw).2) ∧
      TableInv w hash { t with table := table2, len := (assign ks kw).1.length } (assign ks kw).1 := by
  obtain ⟨f2, s2, h1, hs2, hh2⟩ := probeKeys_holds kw _ _ ks hinv.sound hinv.holds hroom
  refine ⟨f2 ++ s2, ?_, ?_⟩
  · unfold multiProbe
    simp only []
    rw [hinv.lenEq]
    have : (t.table.take (t.cap / w.bits), t.table.drop (t.cap / w.bits)) = t.content w := rfl
    have e1 : t.table.take (t.cap / w.bits) = (t.content w).1 := rfl
    have e2 : t.table.drop (t.cap / w.bits) = (t.content w).2 := rfl
    rw [e1, e2, h1]
  · have hc := content_rebuild w { t with len := (assign ks kw).1.length } f2 s2
      (by rw [hs2.layout.flagsLen])
    refine ⟨?_, ?_, rfl, hinv.maxLenEq, hinv.loadLe⟩
    · show Sound w hash t.seed t.cap
        (tableBits.content w { t with table := f2 ++ s2, len := (assign ks kw).1.length }).1
        (tableBits.content w { t with table := f2 ++ s2, len := (assign ks kw).1.length }).2
      rw [show tableBits.content w { t with table := f2 ++ s2, len := (assign ks kw).1.length } =
        (f2, s2) from hc]
      exact hs2
    · show Holds w t.cap
        (tableBits.content w { t with table := f2 ++ s2, len := (assign ks kw).1.length }).1
        (tableBits.content w { t with table := f2 ++ s2, len := (assign ks kw).1.length }).2 _
      rw [show tableBits.content w { t with table := f2 ++ s2, len := (assign ks kw).1.length } =
        (f2, s2) from hc]
      exact hh2

end

section

variable {w : Width} {hash : Nat → Nat → Nat}

theorem drop_eq_window_append (keys : List Nat) (i j : Nat) (hij : i ≤ j) (hj : j ≤ keys.length) :
    keys.drop i = (keys.take j).drop i ++ keys.drop j := by
  conv => lhs; rw [← List.take_append_drop j keys]
  rw [List.drop_append_eq_append_drop]
  congr 1
  have : i - (keys.take j).length = 0 := by
    rw [List.length_take]; omega
  rw [this, List.drop_zero]

theorem window_length (keys : List Nat) (i j : Nat) (hj : j ≤ keys.length) :
    ((keys.take j).drop i).length = j - i := by
  rw [List.length_drop, List.length_take]; omega

theorem multiHash_length (hash : Nat → Nat → Nat) (l : List Nat) (seed : Nat) :
    (multiHash hash l seed).length = l.length := by
  simp [multiHash]

/-- One turn of the loop of `probe`: the window from `i` to `min (i + 128) n`. -/
theorem probeLoop_step (w : Width) (hash : Nat → Nat → Nat) (keys : List Nat) (fuel i : Nat)
    (t : tableBits) (values : List Int) (hi : i < keys.length) :
    probeLoop w hash keys (fuel + 1) i t values =
      if min (128 + i) keys.length > values.length then .panic (t, values)
      else
        match multiProbe w t.table t.len t.cap
            (multiHash hash ((keys.take (min (128 + i) keys.length)).drop i) t.seed)
            ((keys.take (min (128 + i) keys.length)).drop i) with
        | none => .hang
        | some (table, len, ids) =>
          probeLoop w hash keys fuel (min (128 + i) keys.length)
            { t with table := table, len := len }
            (values.take i ++ ids ++ values.drop (min (128 + i) keys.length)) := by
  rw [probeLoop]
  rw [if_pos hi]
  by_cases hgt : 128 + i > keys.length
  · have hmin : min (128 + i) keys.length = keys.length := by omega
    simp only [hgt, if_true, hmin]
    have htake : (multiHash hash ((keys.take keys.length).drop i) t.seed).take (keys.length - i) =
        multiHash hash ((keys.take keys.length).drop i) t.seed := by
      apply List.take_of_length_le
      rw [multiHash_length, window_length keys i keys.length (le_refl _)]
    rw [htake]
  · have hmin : min (128 + i) keys.length = 128 + i := by omega
    simp only [hgt, if_false, hmin]
    have htake : (multiHash hash ((keys.take (128 + i)).drop i) t.seed).take 128 =
        multiHash hash ((keys.take (128 + i)).drop i) t.seed := by
      apply List.take_of_length_le
      rw [multiHash_length, window_length keys i (128 + i) (by omega)]
      omega
    rw [htake]

theorem take_splice (values ids : List Int) (i j : Nat) (hij : i ≤ j) (hj : j ≤ values.length)
    (hids : ids.length = j - i) :
    (values.take i ++ ids ++ values.drop j).take j = values.take i ++ ids := by
  apply List.take_left'
  rw [List.length_append, List.length_take]; omega

theorem drop_splice (values ids : List Int) (i j n : Nat) (hij : i ≤ j) (hj : j ≤ values.length)
    (hjn : j ≤ n) (hids : ids.length = j - i) :
    (values.take i ++ ids ++ values.drop j).drop n = values.drop n := by
  have hlen : (values.take i ++ ids).length = j := by
    rw [List.length_append, List.length_take]; omega
  rw [List.drop_append_eq_append_drop, hlen]
  have h1 : (values.take i ++ ids).drop n = [] := by
    apply List.drop_eq_nil_of_le; omega
  rw [h1, List.nil_append, List.drop_drop]
  congr 1; omega

theorem length_splice (values ids : List Int) (i j : Nat) (hij : i ≤ j) (hj : j ≤ values.length)
    (hids : ids.length = j - i) :
    (values.take i ++ ids ++ values.drop j).length = values.length := by
  simp only [List.length_append, List.length_take, List.length_drop]; omega

/-- The loop of `probe` from index `i` on: it returns, the identifiers are those
of `assign`, the values before `i` and after the keys are untouched, and the
table it leaves does not depend on the values slice. -/
theorem probeLoop_spec (w : Width) (hash : Nat → Nat → Nat) (keys : List Nat) :
    ∀ (fuel i : Nat) (t : tableBits) (ks : List Nat),
      TableInv w hash t ks → i ≤ keys.length → keys.length - i ≤ fuel →
      (assign ks (keys.drop i)).1.length ≤ t.cap →
      ∃ t2, (∀ values : List Int, keys.length ≤ values.length →
          probeLoop w hash keys fuel i t values =
            .done (t2, values.take i ++ (assign ks (keys.drop i)).2 ++ values.drop keys.length)) ∧
        TableInv w hash t2 (assign ks (keys.drop i)).1 ∧ t2.cap = t.cap ∧ t2.seed = t.seed ∧
        t2.maxLoad = t.maxLoad ∧ t2.maxLen = t.maxLen := by
  intro fuel
  induction fuel with
  | zero =>
    intro i t ks hinv hi hfuel _
    have hik : i = keys.length := by omega
    subst hik
    refine ⟨t, ?_, ?_, rfl, rfl, rfl, rfl⟩
    · intro values _
      rw [probeLoop]
      simp [assign]
    · simpa [assign] using hinv
  | succ fuel ih =>
    intro i t ks hinv hi hfuel hroom
    by_cases hlt : i < keys.length
    · have hjle : min (128 + i) keys.length ≤ keys.length := Nat.min_le_right _ _
      have hij : i < min (128 + i) keys.length := by omega
      have hstep := probeLoop_step w hash keys fuel i t
      generalize hj : min (128 + i) keys.length = j at hjle hij hstep
      have hsplit := drop_eq_window_append keys i j (le_of_lt hij) hjle
      have happ := assign_append ((keys.take j).drop i) (keys.drop j) ks
      rw [← hsplit] at happ
      have hroom1 : (assign ks ((keys.take j).drop i)).1.length ≤ t.cap := by
        have := assign_length_le (keys.drop j) (assign ks ((keys.take j).drop i)).1
        rw [happ] at hroom
        simp only [] at hroom
        omega
      obtain ⟨table2, hmp, hinv2⟩ := multiProbe_spec hinv ((keys.take j).drop i) hroom1
      have hids : (assign ks ((keys.take j).drop i)).2.length = j - i := by
        rw [assign_ids_length, window_length keys i j hjle]
      obtain ⟨t3, h3, hinv3, hc3, hs3, hl3, hm3⟩ := ih j _ _ hinv2 hjle (by omega)
        (by rw [happ] at hroom; exact hroom)
      refine ⟨t3, ?_, ?_, hc3, hs3, hl3, hm3⟩
      · intro values hv
        rw [hstep values hlt]
        have hnp : ¬ (j > values.length) := by omega
        rw [if_neg hnp, hmp]
        simp only []
        rw [h3 _ (by rw [length_splice values _ i j (le_of_lt hij) (by omega) hids]; exact hv)]
        rw [take_splice values _ i j (le_of_lt hij) (by omega) hids,
          drop_splice values _ i j keys.length (le_of_lt hij) (by omega) hjle hids, happ]
        simp
      · rw [happ]; exact hinv3
    · have hik : i = keys.length := by omega
      subst hik
      refine ⟨t, ?_, ?_, rfl, rfl, rfl, rfl⟩
      · intro values _
        rw [probeLoop]
        simp [assign]
      · simpa [assign] using hinv

end

section

variable {w : Width} {hash : Nat → Nat → Nat}

theorem probe_unfold (w : Width) (hash : Nat → Nat → Nat) (t : tableBits) (keys : List Nat)
    (values : List Int) (seed : Nat) (hsize : t.len + keys.length < 2 ^ 63) :
    t.probe w hash keys values seed =
      probeGrown w hash keys values
        (if ((t.len + keys.length : Nat) : Int) > t.maxLen then
          t.grow w hash ((t.len + keys.length : Nat) : Int) seed else .done t) := by
  have h : int64wrap ((t.len : Int) + (keys.length : Int)) = ((t.len + keys.length : Nat) : Int) := by
    rw [← Nat.cast_add]
    exact int64wrap_natCast _ hsize
  rw [tableBits.probe]
  simp only [h]

/-- A call of `probe` that does not need to grow. -/
theorem probe_nogrow_all (hinv : TableInv w hash t ks) (keys : List Nat) (seed : Nat)
    (hfit : ((t.len + keys.length : Nat) : Int) ≤ t.maxLen) :
    ∃ t2, (∀ values : List Int, keys.length ≤ values.length →
        t.probe w hash keys values seed =
          .done (t2, (assign ks keys).2 ++ values.drop keys.length)) ∧
      TableInv w hash t2 (assign ks keys).1 ∧ t2.cap = t.cap ∧ t2.seed = t.seed ∧
      t2.maxLoad = t.maxLoad ∧ t2.maxLen = t.maxLen := by
  have hml := hinv.maxLen_le
  obtain ⟨e, he, hele⟩ := hinv.sound.layout.pow
  have hcap : t.cap ≤ 2 ^ 61 := by rw [he]; exact Nat.pow_le_pow_right (by norm_num) hele
  have hle : t.len + keys.length ≤ t.cap := by omega
  have hroom : (assign ks (keys.drop 0)).1.length ≤ t.cap := by
    have := assign_length_le_add keys ks
    have hlen := hinv.lenEq
    rw [List.drop_zero]
    omega
  obtain ⟨t2, h2, hinv2, hc, hs, hl, hm⟩ := probeLoop_spec w hash keys keys.length 0 t ks
    hinv (Nat.zero_le _) (by omega) hroom
  rw [List.drop_zero] at h2 hinv2
  refine ⟨t2, ?_, hinv2, hc, hs, hl, hm⟩
  intro values hv
  rw [probe_unfold w hash t keys values seed (by omega)]
  rw [if_neg (by omega), probeGrown, h2 values hv]; simp

theorem probe_nogrow (hinv : TableInv w hash t ks) (keys : List Nat) (values : List Int)
    (seed : Nat) (hv : keys.length ≤ values.length)
    (hfit : ((t.len + keys.length : Nat) : Int) ≤ t.maxLen) :
    ∃ t2, t.probe w hash keys values seed =
        .done (t2, (assign ks keys).2 ++ values.drop keys.length) ∧
      TableInv w hash t2 (assign ks keys).1 ∧ t2.cap = t.cap ∧ t2.seed = t.seed ∧
      t2.maxLoad = t.maxLoad ∧ t2.maxLen = t.maxLen := by
  obtain ⟨t2, h2, rest⟩ := probe_nogrow_all hinv keys seed hfit
  exact ⟨t2, h2 values hv, rest⟩

/-- A call of `probe` that grows first. -/
theorem probe_grow_all (hinv : TableInv w hash t ks) (keys : List Nat)
    (seed : Nat) (hsize : t.len + keys.length ≤ 2 ^ 62)
    (hbig : t.maxLen < ((t.len + keys.length : Nat) : Int)) :
    ∃ e, growCap t.cap ((t.len + keys.length : Nat) : Int) = ((2 ^ e : Nat) : Int) ∧
      2 * t.cap ≤ 2 ^ e ∧ t.len + keys.length ≤ 2 ^ e ∧ e ≤ 62 ∧
      (e = 62 → ∀ values : List Int, t.probe w hash keys values seed = .panic (t, values)) ∧
      (e ≤ 61 → ∃ t2, (∀ values : List Int, keys.length ≤ values.length →
          t.probe w hash keys values seed =
            .done (t2, (assign ks keys).2 ++ values.drop keys.length)) ∧
        TableInv w hash t2 (assign ks keys).1 ∧ t2.cap = 2 ^ e ∧ t2.seed = seed ∧
        t2.maxLoad = t.maxLoad) := by
  obtain ⟨e, hce, h2cap, he62, hpanic, hdone⟩ :=
    grow_spec w hash t ks hinv ((t.len + keys.length : Nat) : Int) seed
  have hge := growCap_ge t.cap (t.len + keys.length) hsize
  rw [hce] at hge
  have hge2 : t.len + keys.length ≤ 2 ^ e := by exact_mod_cast hge
  have hunf : ∀ values : List Int, t.probe w hash keys values seed =
      probeGrown w hash keys values (t.grow w hash ((t.len + keys.length : Nat) : Int) seed) := by
    intro values
    rw [probe_unfold w hash t keys values seed (by omega), if_pos hbig]
  refine ⟨e, hce, h2cap, hge2, he62, ?_, ?_⟩
  · intro h values
    rw [hunf, hpanic h, probeGrown]
  · intro h
    obtain ⟨t1, hg, hinv1, hc1, hs1, hl1, hlen1⟩ := hdone h
    have hroom : (assign ks (keys.drop 0)).1.length ≤ t1.cap := by
      have := assign_length_le_add keys ks
      have hlen := hinv.lenEq
      rw [List.drop_zero, hc1]
      omega
    obtain ⟨t2, h2, hinv2, hc, hs, hl, _⟩ := probeLoop_spec w hash keys keys.length 0 t1 ks
      hinv1 (Nat.zero_le _) (by omega) hroom
    rw [List.drop_zero] at h2 hinv2
    refine ⟨t2, ?_, hinv2, by rw [hc, hc1], by rw [hs, hs1], by rw [hl, hl1]⟩
    intro values hv
    rw [hunf, hg, probeGrown, h2 values hv]; simp

theorem probe_grow (hinv : TableInv w hash t ks) (keys : List Nat) (values : List Int)
    (seed : Nat) (hv : keys.length ≤ values.length) (hsize : t.len + keys.length ≤ 2 ^ 62)
    (hbig : t.maxLen < ((t.len + keys.length : Nat) : Int)) :
    ∃ e, growCap t.cap ((t.len + keys.length : Nat) : Int) = ((2 ^ e : Nat) : Int) ∧
      2 * t.cap ≤ 2 ^ e ∧ t.len + keys.length ≤ 2 ^ e ∧ e ≤ 62 ∧
      (e = 62 → t.probe w hash keys values seed = .panic (t, values)) ∧
      (e ≤ 61 → ∃ t2, t.probe w hash keys values seed =
          .done (t2, (assign ks keys).2 ++ values.drop keys.length) ∧
        TableInv w hash t2 (assign ks keys).1 ∧ t2.cap = 2 ^ e ∧ t2.seed = seed ∧
        t2.maxLoad = t.maxLoad) := by
  obtain ⟨e, h1, h2, h3, h4, hp, hd⟩ := probe_grow_all hinv keys seed hsize hbig
  refine ⟨e, h1, h2, h3, h4, fun h => hp h values, fun h => ?_⟩
  obtain ⟨t2, h5, rest⟩ := hd h
  exact ⟨t2, h5 values hv, rest⟩

/-- The table that a call of `probe` leaves does not depend on the values slice,
as long as the slice has room for the identifiers. -/
theorem probe_values_irrelevant (hinv : TableInv w hash t ks) (keys : List Nat)
    (values values2 vs : List Int) (seed : Nat) (t2 : tableBits)
    (hv : keys.length ≤ values.length) (hv2 : keys.length ≤ values2.length)
    (hsize : t.len + keys.length ≤ 2 ^ 62)
    (h : t.probe w hash keys values seed = .done (t2, vs)) :
    t.probe w hash keys values2 seed =
      .done (t2, (assign ks keys).2 ++ values2.drop keys.length) := by
  by_cases hbig : t.maxLen < ((t.len + keys.length : Nat) : Int)
  · obtain ⟨e, _, _, _, he62, hp, hd⟩ := probe_grow_all hinv keys seed hsize hbig
    by_cases h62 : e = 62
    · rw [hp h62 values] at h; cases h
    · obtain ⟨t3, h3, _⟩ := hd (by omega)
      rw [h3 values hv] at h
      injection h with h
      injection h with h1 h2
      subst h1
      exact h3 values2 hv2
  · obtain ⟨t3, h3, _⟩ := probe_nogrow_all hinv keys seed (by omega)
    rw [h3 values hv] at h
    injection h with h
    injection h with h1 h2
    subst h1
    exact h3 values2 hv2

/-- A call of `probe` with enough room in `values` either panics in `make`,
leaving everything as it was, or returns the identifiers of `assign`. -/
theorem probe_total (hinv : TableInv w hash t ks) (keys : List Nat) (values : List Int)
    (seed : Nat) (hv : keys.length ≤ values.length) (hsize : t.len + keys.length ≤ 2 ^ 62) :
    t.probe w hash keys values seed = .panic (t, values) ∨
      ∃ t2, t.probe w hash keys values seed =
          .done (t2, (assign ks keys).2 ++ values.drop keys.length) ∧
        TableInv w hash t2 (assign ks keys).1 ∧ t2.maxLoad = t.maxLoad ∧ t.cap ≤ t2.cap := by
  by_cases hbig : t.maxLen < ((t.len + keys.length : Nat) : Int)
  · obtain ⟨e, _, h2cap, _, he62, hpanic, hdone⟩ := probe_grow hinv keys values seed hv hsize hbig
    by_cases h : e = 62
    · exact Or.inl (hpanic h)
    · obtain ⟨t2, h1, h2, h3, _, h5⟩ := hdone (by omega)
      exact Or.inr ⟨t2, h1, h2, h5, by omega⟩
  · obtain ⟨t2, h1, h2, h3, _, h5, _⟩ := probe_nogrow hinv keys values seed hv (by omega)
    exact Or.inr ⟨t2, h1, h2, h5, by omega⟩

/-- A call of `probe` whose sizes fit returns. -/
theorem probe_done (hinv : TableInv w hash t ks) (keys : List Nat) (values : List Int)
    (seed : Nat) (hv : keys.length ≤ values.length) (hcap : t.cap ≤ 2 ^ 60)
    (hsize : t.len + keys.length ≤ 2 ^ 61) :
    ∃ t2, t.probe w hash keys values seed =
        .done (t2, (assign ks keys).2 ++ values.drop keys.length) ∧
      TableInv w hash t2 (assign ks keys).1 ∧ t2.maxLoad = t.maxLoad ∧ t.cap ≤ t2.cap ∧
      t2.cap ≤ max (2 * t.cap) (2 * (t.len + keys.length)) := by
  by_cases hbig : t.maxLen < ((t.len + keys.length : Nat) : Int)
  · obtain ⟨e, hce, h2cap, _, he62, _, hdone⟩ :=
      probe_grow hinv keys values seed hv (by omega) hbig
    obtain ⟨e0, he0, _⟩ := hinv.sound.layout.pow
    have he0le : e0 ≤ 60 := by
      rw [he0] at hcap
      exact (Nat.pow_le_pow_iff_right (by norm_num)).1 hcap
    have hle := growCap_le e0 (t.len + keys.length) he0le hsize
    rw [← he0, hce] at hle
    have hle2 : 2 ^ e ≤ 2 ^ 61 := by exact_mod_cast hle
    have he61 : e ≤ 61 := (Nat.pow_le_pow_iff_right (by norm_num)).1 hle2
    obtain ⟨t2, h1, h2, h3, _, h5⟩ := hdone he61
    have hdb := growCap_le_double e0 (t.len + keys.length) (by omega) (by omega)
    rw [← he0, hce] at hdb
    have hdb2 : 2 ^ e ≤ max (2 * t.cap) (2 * (t.len + keys.length)) := by exact_mod_cast hdb
    exact ⟨t2, h1, h2, h5, by omega, by omega⟩
  · obtain ⟨t2, h1, h2, h3, _, h5, _⟩ := probe_nogrow hinv keys values seed hv (by omega)
    exact ⟨t2, h1, h2, h5, by omega, by omega⟩

end

section

variable {w : Width} {hash : Nat → Nat → Nat}

theorem assign_extends (keys : List Nat) : ∀ seen, ∃ extra, (assign seen keys).1 = seen ++ extra := by
  induction keys with
  | nil => intro seen; exact ⟨[], by simp [assign]⟩
  | cons key keys ih =>
    intro seen
    by_cases hk : key ∈ seen
    · rw [assign, if_pos hk]; exact ih seen
    · rw [assign, if_neg hk]
      obtain ⟨extra, he⟩ := ih (seen ++ [key])
      exact ⟨[key] ++ extra, by simp [he]⟩

theorem assign_nodup (keys : List Nat) : ∀ seen, seen.Nodup → (assign seen keys).1.Nodup := by
  induction keys with
  | nil => intro seen h; simpa [assign] using h
  | cons key keys ih =>
    intro seen h
    by_cases hk : key ∈ seen
    · rw [assign, if_pos hk]; exact ih seen h
    · rw [assign, if_neg hk]
      apply ih
      rw [List.nodup_append]
      refine ⟨h, List.nodup_singleton _, ?_⟩
      intro a ha hb
      rw [List.mem_singleton] at hb
      exact hk (hb ▸ ha)

theorem mem_assign (keys : List Nat) : ∀ seen k, k ∈ (assign seen keys).1 ↔ k ∈ seen ∨ k ∈ keys := by
  induction keys with
  | nil => intro seen k; simp [assign]
  | cons key keys ih =>
    intro seen k
    by_cases hk : key ∈ seen
    · rw [assign, if_pos hk]
      simp only [ih, List.mem_cons]
      constructor
      · rintro (h | h)
        · exact Or.inl h
        · exact Or.inr (Or.inr h)
      · rintro (h | h | h)
        · exact Or.inl h
        · exact Or.inl (h ▸ hk)
        · exact Or.inr h
    · rw [assign, if_neg hk]
      simp only [ih, List.mem_append, List.mem_singleton, List.mem_cons]
      tauto

/-- The identifier of a key is its index in the final list of distinct keys. -/
theorem assign_ids (keys : List Nat) : ∀ seen,
    (assign seen keys).2 = keys.map (fun k => (((assign seen keys).1.indexOf k : Nat) : Int)) := by
  induction keys with
  | nil => intro seen; simp [assign]
  | cons key keys ih =>
    intro seen
    by_cases hk : key ∈ seen
    · rw [assign, if_pos hk]
      simp only [List.map_cons]
      obtain ⟨extra, he⟩ := assign_extends keys seen
      rw [ih seen]
      congr 2
      rw [he, List.indexOf_append_of_mem hk]
    · rw [assign, if_neg hk]
      simp only [List.map_cons]
      obtain ⟨extra, he⟩ := assign_extends keys (seen ++ [key])
      rw [ih (seen ++ [key])]
      congr 2
      rw [he, List.indexOf_append_of_mem (by simp), List.indexOf_append_of_not_mem hk]
      simp

theorem length_eq_dedup_length (l d : List Nat) (hd : d.Nodup) (hm : ∀ k, k ∈ d ↔ k ∈ l) :
    d.length = l.dedup.length := by
  rw [← List.toFinset_card_of_nodup hd, ← List.card_toFinset]
  congr 1
  ext k
  simp [hm]

theorem not_mem_take_indexOf (all : List Nat) (k : Nat) : k ∉ all.take (all.indexOf k) := by
  induction all with
  | nil => simp
  | cons a l ih =>
    by_cases h : a = k
    · rw [List.indexOf_cons_eq _ h]; simp
    · rw [List.indexOf_cons_ne _ h, List.take_succ_cons, List.mem_cons]
      rintro (h1 | h1)
      · exact h h1.symm
      · exact ih h1

/-- The index of a key among the distinct keys, oldest first, is the number of
distinct keys before its first occurrence. -/
theorem indexOf_assign (all : List Nat) (k : Nat) (hk : k ∈ all) :
    (assign [] all).1.indexOf k = distinctBefore all k := by
  unfold distinctBefore
  have hi : all.indexOf k < all.length := List.indexOf_lt_length.2 hk
  have hsplit : all = all.take (all.indexOf k) ++ k :: all.drop (all.indexOf k + 1) := by
    conv => lhs; rw [← List.take_append_drop (all.indexOf k) all]
    rw [List.drop_eq_getElem_cons hi, List.getElem_indexOf hi]
  have hnot := not_mem_take_indexOf all k
  generalize all.take (all.indexOf k) = pre at hsplit hnot
  generalize all.drop (all.indexOf k + 1) = post at hsplit
  have hnot2 : k ∉ (assign [] pre).1 := by
    rw [mem_assign]; simp [hnot]
  rw [hsplit, assign_append, assign, if_neg hnot2]
  simp only []
  obtain ⟨extra, he⟩ := assign_extends post ((assign [] pre).1 ++ [k])
  rw [he, List.indexOf_append_of_mem (by simp), List.indexOf_append_of_not_mem hnot2]
  simp only [List.indexOf_cons_self, Nat.add_zero]
  exact length_eq_dedup_length pre _ (assign_nodup pre [] List.nodup_nil)
    (fun x => by rw [mem_assign]; simp)

/-- The identifiers `assign` gives on the keys `keys` that follow the keys
`pre` are the numbers of distinct keys before the first occurrences. -/
theorem assign_eq_distinctBefore (pre keys : List Nat) :
    (assign (assign [] pre).1 keys).2 =
      keys.map (fun key => (distinctBefore (pre ++ keys) key : Int)) := by
  rw [assign_ids]
  apply List.map_congr_left
  intro k hk
  have := indexOf_assign (pre ++ keys) k (by simp [hk])
  rw [assign_append] at this
  simp only [] at this
  rw [this]

end

section

variable {w : Width} {hash : Nat → Nat → Nat}

/-- The loop of `probe` on a values slice that is too short panics on the
first window that does not fit. -/
theorem probeLoop_short (w : Width) (hash : Nat → Nat → Nat) (keys : List Nat) :
    ∀ (fuel i : Nat) (t : tableBits) (ks : List Nat) (values : List Int),
      TableInv w hash t ks → i ≤ values.length → values.length < keys.length →
      keys.length - i ≤ fuel → (assign ks (keys.drop i)).1.length ≤ t.cap →
      ∃ s, probeLoop w hash keys fuel i t values = .panic s := by
  intro fuel
  induction fuel with
  | zero => intro i t ks values _ h1 h2 h3 _; omega
  | succ fuel ih =>
    intro i t ks values hinv hi hshort hfuel hroom
    have hlt : i < keys.length := by omega
    rw [probeLoop_step w hash keys fuel i t values hlt]
    have hjle : min (128 + i) keys.length ≤ keys.length := Nat.min_le_right _ _
    have hij : i < min (128 + i) keys.length := by omega
    generalize hj : min (128 + i) keys.length = j at hjle hij
    by_cases hp : j > values.length
    · rw [if_pos hp]; exact ⟨_, rfl⟩
    · rw [if_neg hp]
      have hsplit := drop_eq_window_append keys i j (le_of_lt hij) hjle
      have happ := assign_append ((keys.take j).drop i) (keys.drop j) ks
      rw [← hsplit] at happ
      have hroom1 : (assign ks ((keys.take j).drop i)).1.length ≤ t.cap := by
        have := assign_length_le (keys.drop j) (assign ks ((keys.take j).drop i)).1
        rw [happ] at hroom
        simp only [] at hroom
        omega
      obtain ⟨table2, hmp, hinv2⟩ := multiProbe_spec hinv ((keys.take j).drop i) hroom1
      rw [hmp]
      simp only []
      have hids : (assign ks ((keys.take j).drop i)).2.length = j - i := by
        rw [assign_ids_length, window_length keys i j hjle]
      have hlen := length_splice values (assign ks ((keys.take j).drop i)).2 i j
        (le_of_lt hij) (by omega) hids
      exact ih j _ _ _ hinv2 (by rw [hlen]; omega) (by rw [hlen]; exact hshort) (by omega)
        (by rw [happ] at hroom; exact hroom)

/-- A call of `probe` whose values slice is too short for the keys panics. -/
theorem probe_short (hinv : TableInv w hash t ks) (keys : List Nat) (values : List Int)
    (seed : Nat) (hv : values.length < keys.length) (hsize : t.len + keys.length ≤ 2 ^ 62) :
    ∃ s, t.probe w hash keys values seed = .panic s := by
  have hlen := hinv.lenEq
  have hadd := assign_length_le_add keys ks
  rw [probe_unfold w hash t keys values seed (by omega)]
  by_cases hbig : t.maxLen < ((t.len + keys.length : Nat) : Int)
  · rw [if_pos hbig]
    obtain ⟨e, hce, h2cap, he62, hpanic, hdone⟩ :=
      grow_spec w hash t ks hinv ((t.len + keys.length : Nat) : Int) seed
    have hge := growCap_ge t.cap (t.len + keys.length) hsize
    rw [hce] at hge
    have hge2 : t.len + keys.length ≤ 2 ^ e := by exact_mod_cast hge
    by_cases h : e = 62
    · rw [hpanic h, probeGrown]; exact ⟨_, rfl⟩
    · obtain ⟨t1, hg, hinv1, hc1, _⟩ := hdone (by omega)
      rw [hg, probeGrown]
      exact probeLoop_short w hash keys keys.length 0 t1 ks values hinv1 (Nat.zero_le _) hv
        (by omega) (by rw [List.drop_zero, hc1]; omega)
  · rw [if_neg hbig, probeGrown]
    have hml := hinv.maxLen_le
    exact probeLoop_short w hash keys keys.length 0 t ks values hinv (Nat.zero_le _) hv
      (by omega) (by rw [List.drop_zero]; omega)

theorem Holds.len_le (hh : Holds w cap flags slots ks) : ks.length ≤ cap := by
  rw [← hh.count]
  exact countP_range_le cap _

theorem TableInv.len_le_cap (hinv : TableInv w hash t ks) : t.len ≤ t.cap := by
  rw [hinv.lenEq]; exact hinv.holds.len_le

theorem TableInv.cap_le (hinv : TableInv w hash t ks) : t.cap ≤ 2 ^ 61 := by
  obtain ⟨e, he, hele⟩ := hinv.sound.layout.pow
  rw [he]; exact Nat.pow_le_pow_right (by norm_num) hele

/-- A call of `probe` that returns kept the invariant and wrote the
identifiers of `assign`. -/
theorem probe_done_inv (hinv : TableInv w hash t ks) (keys : List Nat) (values vs : List Int)
    (seed : Nat) (t2 : tableBits) (hk : keys.length ≤ 2 ^ 61)
    (h : t.probe w hash keys values seed = .done (t2, vs)) :
    TableInv w hash t2 (assign ks keys).1 ∧ vs = (assign ks keys).2 ++ values.drop keys.length ∧
      keys.length ≤ values.length ∧ t2.maxLoad = t.maxLoad ∧ t.cap ≤ t2.cap := by
  have hcap := hinv.cap_le
  have hlen := hinv.len_le_cap
  have hsize : t.len + keys.length ≤ 2 ^ 62 := by omega
  by_cases hv : keys.length ≤ values.length
  · rcases probe_total hinv keys values seed hv hsize with hp | ⟨t3, h3, hinv3, hl3, hc3⟩
    · rw [hp] at h; cases h
    · rw [h3] at h
      injection h with h
      injection h with h1 h2
      subst h1 h2
      exact ⟨hinv3, rfl, hv, hl3, hc3⟩
  · obtain ⟨s, hs⟩ := probe_short hinv keys values seed (by omega) hsize
    rw [hs] at h; cases h

/-- A call of `probe` on a table that satisfies the invariant never hangs. -/
theorem probe_no_hang (hinv : TableInv w hash t ks) (keys : List Nat) (values : List Int)
    (seed : Nat) (hk : keys.length ≤ 2 ^ 61) :
    t.probe w hash keys values seed ≠ .hang := by
  have hcap := hinv.cap_le
  have hlen := hinv.len_le_cap
  have hsize : t.len + keys.length ≤ 2 ^ 62 := by omega
  by_cases hv : keys.length ≤ values.length
  · rcases probe_total hinv keys values seed hv hsize with hp | ⟨t3, h3, _⟩
    · rw [hp]; exact fun h => by cases h
    · rw [h3]; exact fun h => by cases h
  · obtain ⟨s, hs⟩ := probe_short hinv keys values seed (by omega) hsize
    rw [hs]; exact fun h => by cases h

end

section

variable {w : Width} {hash : Nat → Nat → Nat}

/-- The table that the constructor builds for a hint of at most `2^61`: its
capacity is `2^e` for the least `e` with `max hint W ≤ 2^e`. -/
theorem makeTableBits_eq (w : Width) (c : Int) (maxLoad : ℚ) (seed : Nat) (hc : c ≤ 2 ^ 61) :
    ∃ e, e ≤ 61 ∧ (w.bits : Int) ≤ ((2 ^ e : Nat) : Int) ∧ c ≤ ((2 ^ e : Nat) : Int) ∧
      (∀ e2 : Nat, (w.bits : Int) ≤ ((2 ^ e2 : Nat) : Int) → c ≤ ((2 ^ e2 : Nat) : Int) → e ≤ e2) ∧
      makeTableBits w c maxLoad seed =
        some { len := 0, cap := 2 ^ e, maxLen := ⌈maxLoad * ((2 ^ e : Nat) : ℚ)⌉,
               maxLoad := maxLoad, seed := seed,
               table := List.replicate (2 ^ e / w.bits + 2 * 2 ^ e) 0 } := by
  have hW := w.bits_pos
  have hW64 : w.bits ≤ 64 := by cases w <;> simp [Width.bits]
  obtain ⟨m, hm⟩ : ∃ m : Nat, (if c < (w.bits : Int) then (w.bits : Int) else c) = (m : Int) := by
    by_cases h : c < (w.bits : Int)
    · exact ⟨w.bits, by rw [if_pos h]⟩
    · exact ⟨c.toNat, by rw [if_neg h]; omega⟩
  have hmW : w.bits ≤ m := by
    by_cases h : c < (w.bits : Int)
    · rw [if_pos h] at hm; omega
    · rw [if_neg h] at hm; omega
  have hmc : c ≤ (m : Int) := by
    by_cases h : c < (w.bits : Int)
    · rw [if_pos h] at hm; omega
    · rw [if_neg h] at hm; omega
  have hm61 : m ≤ 2 ^ 61 := by
    by_cases h : c < (w.bits : Int)
    · rw [if_pos h] at hm; omega
    · rw [if_neg h] at hm; omega
  have hmle : (m : Int) ≤ c ∨ m = w.bits := by
    by_cases h : c < (w.bits : Int)
    · rw [if_pos h] at hm; right; omega
    · rw [if_neg h] at hm; left; omega
  have hb61 := bitLen_pred_least m 61 (by omega) hm61
  have hge := le_two_pow_bitLen_pred m (by omega)
  have hp61 : 2 ^ bitLen 64 (m - 1) ≤ 2 ^ 61 := Nat.pow_le_pow_right (by norm_num) hb61
  refine ⟨bitLen 64 (m - 1), hb61, by omega, by omega, ?_, ?_⟩
  · intro e2 h1 h2
    have hm2 : m ≤ 2 ^ e2 := by
      rcases hmle with h | h
      · have : (m : Int) ≤ ((2 ^ e2 : Nat) : Int) := le_trans h h2
        exact_mod_cast this
      · rw [h]; exact_mod_cast h1
    exact bitLen_pred_least m e2 (by omega) hm2
  · rw [makeTableBits]
    simp only [hm]
    rw [nextPowerOf2_eq m (by omega) (by omega), init_eq w _ hp61]

theorem bitLen_eq (x k : Nat) (h1 : 2 ^ k ≤ x) (h2 : x < 2 ^ (k + 1)) (hk : k < 64) :
    bitLen 64 x = k + 1 := by
  have hx64 : x < 2 ^ 64 := lt_of_lt_of_le h2 (Nat.pow_le_pow_right (by norm_num) (by omega))
  have hx0 : x ≠ 0 := by
    have : 0 < 2 ^ k := Nat.pos_pow_of_pos k (by norm_num)
    omega
  have ha := lt_two_pow_bitLen 64 x hx64
  have hb := two_pow_bitLen_le 64 x hx0 hx64
  have h3 : k < bitLen 64 x := by
    by_contra hc
    have : 2 ^ bitLen 64 x ≤ 2 ^ k := Nat.pow_le_pow_right (by norm_num) (by omega)
    omega
  have h4 : bitLen 64 x - 1 < k + 1 := by
    by_contra hc
    have : 2 ^ (k + 1) ≤ 2 ^ (bitLen 64 x - 1) := Nat.pow_le_pow_right (by norm_num) (by omega)
    omega
  omega

theorem nextPowerOf2_of_bitLen (n : Int) (b : Nat) (hb : bitLen 64 (uintptr (n - 1)) = b) :
    nextPowerOf2 n = int64wrap (((1 <<< b : Nat) : Nat) : Int) := by
  unfold nextPowerOf2 LeadingZeros64
  rw [hb]
  have hle := bitLen_le 64 (uintptr (n - 1))
  rw [hb] at hle
  have : 64 - (64 - b) = b := by omega
  rw [this]

/-- A hint above `2^61` makes the constructor panic in `make`. -/
theorem makeTableBits_none (w : Width) (c : Int) (maxLoad : ℚ) (seed : Nat)
    (h1 : 2 ^ 61 < c) (h2 : c < 2 ^ 63) : makeTableBits w c maxLoad seed = none := by
  have hW64 : w.bits ≤ 64 := by cases w <;> simp [Width.bits]
  have hif : (if c < (w.bits : Int) then (w.bits : Int) else c) = c := by
    rw [if_neg (by omega)]
  obtain ⟨m, hm⟩ : ∃ m : Nat, c = (m : Int) := ⟨c.toNat, by omega⟩
  have hu : uintptr (c - 1) = m - 1 := by
    have : c - 1 = ((m - 1 : Nat) : Int) := by omega
    rw [this]; apply uintptr_natCast; omega
  rw [makeTableBits]
  simp only [hif]
  by_cases h62 : c ≤ 2 ^ 62
  · have hb := bitLen_eq (m - 1) 61 (by omega) (by omega) (by omega)
    rw [nextPowerOf2_of_bitLen c 62 (by rw [hu, hb])]
    have : int64wrap (((1 <<< 62 : Nat) : Nat) : Int) = 4611686018427387904 := by decide
    rw [this]
    exact init_overflow w maxLoad seed
  · have hb := bitLen_eq (m - 1) 62 (by omega) (by omega) (by omega)
    rw [nextPowerOf2_of_bitLen c 63 (by rw [hu, hb])]
    have : int64wrap (((1 <<< 63 : Nat) : Nat) : Int) = -9223372036854775808 := by decide
    rw [this]
    apply init_none
    cases w <;> decide

/-- The table that the constructor returns satisfies the invariant with no keys. -/
theorem makeTableBits_inv (w : Width) (hash : Nat → Nat → Nat) (c : Int) (maxLoad : ℚ)
    (seed : Nat) (t : tableBits) (hhi : c < 2 ^ 63) (hload : maxLoad ≤ 1)
    (h : makeTableBits w c maxLoad seed = some t) :
    TableInv w hash t [] ∧ t.maxLoad = maxLoad ∧ t.len = 0 ∧ t.seed = seed := by
  by_cases hc : c ≤ 2 ^ 61
  · obtain ⟨e, he, hWe, _, _, heq⟩ := makeTableBits_eq w c maxLoad seed hc
    rw [heq] at h
    injection h with h
    subst h
    have hdvd : w.bits ∣ 2 ^ e := by
      obtain ⟨k, hk, _, _⟩ := w.bits_pow
      have hle : 2 ^ k ≤ 2 ^ e := by rw [← hk]; exact_mod_cast hWe
      rw [hk]
      exact Nat.pow_dvd_pow 2 ((Nat.pow_le_pow_iff_right (by norm_num)).1 hle)
    obtain ⟨hs0, hh0⟩ := zero_inv w hash seed e he hdvd
    have hcont := content_replicate w
      { len := 0, cap := 2 ^ e, maxLen := ⌈maxLoad * ((2 ^ e : Nat) : ℚ)⌉,
        maxLoad := maxLoad, seed := seed,
        table := List.replicate (2 ^ e / w.bits + 2 * 2 ^ e) 0 } (2 ^ e) rfl rfl
    refine ⟨⟨?_, ?_, rfl, rfl, hload⟩, rfl, rfl, rfl⟩
    · rw [hcont]; exact hs0
    · rw [hcont]; exact hh0
  · rw [makeTableBits_none w c maxLoad seed (by omega) hhi] at h
    cases h

theorem reachable_inv (ht : Reachable w hash t) :
    ∃ ks, TableInv w hash t ks ∧ 0 < t.maxLoad ∧ t.maxLoad < 1 := by
  induction ht with
  | make c maxLoad seed t hlo hhi h0 h1 h =>
    obtain ⟨hinv, hl, _, _⟩ := makeTableBits_inv w hash c maxLoad seed t hhi (le_of_lt h1) h
    exact ⟨[], hinv, by rw [hl]; exact h0, by rw [hl]; exact h1⟩
  | probe t t2 keys values vs seed _ hk h ih =>
    obtain ⟨ks, hinv, h0, h1⟩ := ih
    obtain ⟨hinv2, _, _, hl, _⟩ := probe_done_inv hinv keys values vs seed t2 hk h
    exact ⟨_, hinv2, by rw [hl]; exact h0, by rw [hl]; exact h1⟩
  | reset t _ ih =>
    obtain ⟨ks, hinv, h0, h1⟩ := ih
    exact ⟨[], reset_inv hinv, h0, h1⟩

end

section

variable {w : Width} {hash : Nat → Nat → Nat}

theorem assign_fst_append (pre keys : List Nat) :
    (assign (assign [] pre).1 keys).1 = (assign [] (pre ++ keys)).1 := by
  rw [assign_append]

theorem runProbes_cons_done (w : Width) (hash : Nat → Nat → Nat) (t t2 : tableBits) (c : Call)
    (cs : List Call) (vs : List Int) (h : t.probe w hash c.keys c.values c.seed = .done (t2, vs)) :
    runProbes w hash t (c :: cs) =
      match runProbes w hash t2 cs with
      | .done (t3, outs) => .done (t3, vs :: outs)
      | .panic (t3, outs) => .panic (t3, vs :: outs)
      | .hang => .hang := by
  rw [runProbes, h]

theorem runProbes_cons_panic (w : Width) (hash : Nat → Nat → Nat) (t t2 : tableBits) (c : Call)
    (cs : List Call) (vs : List Int) (h : t.probe w hash c.keys c.values c.seed = .panic (t2, vs)) :
    runProbes w hash t (c :: cs) = .panic (t2, [vs]) := by
  rw [runProbes, h]

/-- A run of calls on a table that holds the distinct keys of `pre` either
panics in `make` or returns, and then each call has written the numbers of
distinct keys before the first occurrences. -/
theorem runProbes_spec (w : Width) (hash : Nat → Nat → Nat) (calls : List Call) :
    ∀ (t : tableBits) (pre : List Nat), TableInv w hash t (assign [] pre).1 →
      (∀ c, c ∈ calls → c.keys.length ≤ c.values.length ∧ c.keys.length ≤ 2 ^ 61) →
      (∃ s, runProbes w hash t calls = .panic s) ∨
      ∃ t2, runProbes w hash t calls = .done (t2, expected pre calls) ∧
        TableInv w hash t2 (assign [] (pre ++ keysOf calls)).1 ∧ t2.maxLoad = t.maxLoad := by
  induction calls with
  | nil =>
    intro t pre hinv _
    exact Or.inr ⟨t, by simp [runProbes, expected], by simpa [keysOf] using hinv, rfl⟩
  | cons c cs ih =>
    intro t pre hinv hcs
    obtain ⟨hv, hk⟩ := hcs c (List.mem_cons_self _ _)
    have hcap := hinv.cap_le
    have hlen := hinv.len_le_cap
    rcases probe_total hinv c.keys c.values c.seed hv (by omega) with hp | ⟨t2, h2, hinv2, hl2, _⟩
    · exact Or.inl ⟨_, runProbes_cons_panic w hash t t c cs _ hp⟩
    · rw [assign_fst_append] at hinv2
      rw [assign_eq_distinctBefore] at h2
      rw [runProbes_cons_done w hash t t2 c cs _ h2]
      rcases ih t2 (pre ++ c.keys) hinv2 (fun c2 hc2 => hcs c2 (List.mem_cons_of_mem _ hc2)) with
        ⟨s, hs⟩ | ⟨t3, h3, hinv3, hl3⟩
      · rw [hs]; exact Or.inl ⟨_, rfl⟩
      · rw [h3]
        refine Or.inr ⟨t3, ?_, ?_, by rw [hl3, hl2]⟩
        · simp [expected]
        · simpa [keysOf, List.append_assoc] using hinv3

/-- A run of calls whose sizes fit returns. -/
theorem runProbes_done (w : Width) (hash : Nat → Nat → Nat) (calls : List Call) :
    ∀ (t : tableBits) (pre : List Nat), TableInv w hash t (assign [] pre).1 →
      (∀ c, c ∈ calls → c.keys.length ≤ c.values.length) →
      2 ^ calls.length * max t.cap (t.len + (keysOf calls).length) ≤ 2 ^ 61 →
      ∃ t2, runProbes w hash t calls = .done (t2, expected pre calls) ∧
        TableInv w hash t2 (assign [] (pre ++ keysOf calls)).1 := by
  induction calls with
  | nil =>
    intro t pre hinv _ _
    exact ⟨t, by simp [runProbes, expected], by simpa [keysOf] using hinv⟩
  | cons c cs ih =>
    intro t pre hinv hcs hfit
    have hv := hcs c (List.mem_cons_self _ _)
    simp only [List.length_cons, keysOf, List.length_append] at hfit
    have hpos : 0 < 2 ^ cs.length := Nat.pos_pow_of_pos _ (by norm_num)
    have hM : 2 * max t.cap (t.len + (c.keys.length + (keysOf cs).length)) ≤ 2 ^ 61 := by
      rw [pow_succ] at hfit
      calc 2 * max t.cap (t.len + (c.keys.length + (keysOf cs).length))
          ≤ 2 ^ cs.length * (2 * max t.cap (t.len + (c.keys.length + (keysOf cs).length))) :=
            Nat.le_mul_of_pos_left _ hpos
        _ = 2 ^ cs.length * 2 * max t.cap (t.len + (c.keys.length + (keysOf cs).length)) := by ring
        _ ≤ 2 ^ 61 := hfit
    have h60 : (2 : Nat) ^ 61 = 2 * 2 ^ 60 := by norm_num
    obtain ⟨t2, h2, hinv2, _, _, hc2⟩ := probe_done hinv c.keys c.values c.seed hv
      (by omega) (by omega)
    have hlen2 : t2.len ≤ t.len + c.keys.length := by
      rw [hinv2.lenEq, hinv.lenEq]
      exact assign_length_le_add c.keys _
    rw [assign_fst_append] at hinv2
    rw [assign_eq_distinctBefore] at h2
    rw [runProbes_cons_done w hash t t2 c cs _ h2]
    have hfit2 : 2 ^ cs.length * max t2.cap (t2.len + (keysOf cs).length) ≤ 2 ^ 61 := by
      have hle : max t2.cap (t2.len + (keysOf cs).length) ≤
          2 * max t.cap (t.len + (c.keys.length + (keysOf cs).length)) := by omega
      calc 2 ^ cs.length * max t2.cap (t2.len + (keysOf cs).length)
          ≤ 2 ^ cs.length * (2 * max t.cap (t.len + (c.keys.length + (keysOf cs).length))) :=
            Nat.mul_le_mul_left _ hle
        _ = 2 ^ (cs.length + 1) * max t.cap (t.len + (c.keys.length + (keysOf cs).length)) := by
            rw [pow_succ]; ring
        _ ≤ 2 ^ 61 := hfit
    obtain ⟨t3, h3, hinv3⟩ := ih t2 (pre ++ c.keys) hinv2
      (fun c2 hc2 => hcs c2 (List.mem_cons_of_mem _ hc2)) hfit2
    rw [h3]
    refine ⟨t3, ?_, ?_⟩
    · simp [expected]
    · simpa [keysOf, List.append_assoc] using hinv3

end

section

variable {w : Width} {hash : Nat → Nat → Nat}

theorem fresh_inv (ht : Reachable w hash t) (hfresh : t.len = 0) : TableInv w hash t [] := by
  obtain ⟨ks, hinv, _, _⟩ := reachable_inv ht
  have : ks = [] := by
    have := hinv.lenEq
    rw [hfresh] at this
    exact List.length_eq_zero.1 this.symm
  rw [this] at hinv
  exact hinv

theorem distinctBefore_append (p r : List Nat) (k : Nat) (hk : k ∈ p) :
    distinctBefore (p ++ r) k = distinctBefore p k := by
  unfold distinctBefore
  rw [List.indexOf_append_of_mem hk]
  have hlt : p.indexOf k < p.length := List.indexOf_lt_length.2 hk
  rw [List.take_append_of_le_length (le_of_lt hlt)]

theorem expected_eq_map (calls : List Call) : ∀ pre,
    expected pre calls = calls.map (fun c =>
      c.keys.map (fun key => (distinctBefore (pre ++ keysOf calls) key : Int)) ++
        c.values.drop c.keys.length) := by
  induction calls with
  | nil => intro pre; simp [expected]
  | cons c cs ih =>
    intro pre
    simp only [expected, List.map_cons, keysOf]
    congr 1
    · congr 1
      apply List.map_congr_left
      intro k hk
      rw [← List.append_assoc, distinctBefore_append (pre ++ c.keys) (keysOf cs) k (by simp [hk])]
    · rw [ih (pre ++ c.keys)]
      simp only [List.append_assoc]

theorem expected_congr (calls1 : List Call) : ∀ (calls2 : List Call) (pre : List Nat),
    calls1.map (fun c => (c.keys, c.values)) = calls2.map (fun c => (c.keys, c.values)) →
    expected pre calls1 = expected pre calls2 := by
  induction calls1 with
  | nil =>
    intro calls2 pre h
    cases calls2 with
    | nil => rfl
    | cons c cs => simp at h
  | cons c1 cs1 ih =>
    intro calls2 pre h
    cases calls2 with
    | nil => simp at h
    | cons c2 cs2 =>
      simp only [List.map_cons, List.cons.injEq, Prod.mk.injEq] at h
      obtain ⟨⟨hk, hv⟩, hrest⟩ := h
      simp only [expected, hk, hv]
      rw [ih cs2 (pre ++ c2.keys) hrest]

theorem keysOf_congr (calls1 : List Call) : ∀ (calls2 : List Call),
    calls1.map (fun c => (c.keys, c.values)) = calls2.map (fun c => (c.keys, c.values)) →
    keysOf calls1 = keysOf calls2 := by
  induction calls1 with
  | nil =>
    intro calls2 h
    cases calls2 with
    | nil => rfl
    | cons c cs => simp at h
  | cons c1 cs1 ih =>
    intro calls2 h
    cases calls2 with
    | nil => simp at h
    | cons c2 cs2 =>
      simp only [List.map_cons, List.cons.injEq, Prod.mk.injEq] at h
      obtain ⟨⟨hk, _⟩, hrest⟩ := h
      simp only [keysOf, hk]
      rw [ih cs2 hrest]

theorem assign_of_subset (keys : List Nat) : ∀ seen, (∀ k, k ∈ keys → k ∈ seen) →
    (assign seen keys).1 = seen := by
  induction keys with
  | nil => intro seen _; simp [assign]
  | cons key keys ih =>
    intro seen h
    rw [assign, if_pos (h key (List.mem_cons_self _ _))]
    exact ih seen (fun k hk => h k (List.mem_cons_of_mem _ hk))

theorem assign_length_eq_dedup (all : List Nat) : (assign [] all).1.length = all.dedup.length :=
  length_eq_dedup_length all _ (assign_nodup all [] List.nodup_nil)
    (fun x => by rw [mem_assign]; simp)

/-- Probing the keys twice in a row gives the identifiers twice. -/
theorem assign_twice (keys : List Nat) :
    (assign [] (keys ++ keys)).2 = (assign [] keys).2 ++ (assign [] keys).2 ∧
      (assign [] (keys ++ keys)).1 = (assign [] keys).1 := by
  rw [assign_append]
  have hsub : ∀ k, k ∈ keys → k ∈ (assign [] keys).1 := by
    intro k hk; rw [mem_assign]; exact Or.inr hk
  have h1 := assign_of_subset keys (assign [] keys).1 hsub
  refine ⟨?_, h1⟩
  simp only []
  congr 1
  rw [assign_ids keys (assign [] keys).1, h1, assign_ids keys []]

theorem onesCount_eq_filter (fuel : Nat) : ∀ x : Nat,
    onesCount fuel x = ((List.range fuel).filter (fun b => x.testBit b)).length := by
  induction fuel with
  | zero => intro x; simp [onesCount]
  | succ n ih =>
    intro x
    rw [onesCount, List.range_succ_eq_map, List.filter_cons, List.filter_map]
    have hfun : ((fun b => x.testBit b) ∘ Nat.succ) = fun b => (x / 2).testBit b := by
      funext b; simp [Nat.testBit_succ]
    rw [hfun, ih (x / 2), Nat.testBit_zero]
    rcases Nat.mod_two_eq_zero_or_one x with h | h
    · simp [h]
    · simp [h]; omega

theorem length_wordsSlots (w : Width) : ∀ (flags : List Nat) (i : Nat),
    (wordsSlots w i flags).length = (flags.map (onesCount w.bits)).sum := by
  intro flags
  induction flags with
  | nil => intro i; simp [wordsSlots]
  | cons f flags ih =>
    intro i
    simp only [wordsSlots, List.length_append, List.map_cons, List.sum_cons, ih (i + 1)]
    congr 1
    rw [onesCount_eq_filter]
    simp [wordSlots]

/-- The set bits of the bitmap words are as many as the occupied slots. -/
theorem bitmapOnes_eq_len (hinv : TableInv w hash t ks) : bitmapOnes w t = t.len := by
  have hl := hinv.sound.layout
  unfold bitmapOnes
  rw [← length_wordsSlots w _ 0, wordsSlots_eq_occupiedSlots w t.cap _ hl.flagsLen hl.dvd,
    length_occupiedSlots, hinv.holds.count, hinv.lenEq]

end

section

set_option maxRecDepth 100000

variable {w : Width} {hash : Nat → Nat → Nat}

theorem demoTable_make : NewUint32Table 32 (3 / 4) 7 = some demoTable := by decide!

theorem demoLarge_make : NewUint32Table 128 (3 / 4) 9 = some demoLarge := by decide!

theorem demoTable_reachable : Reachable .w32 demoHash demoTable :=
  Reachable.make 32 (3 / 4) 7 demoTable (by norm_num) (by norm_num) (by norm_num) (by norm_num)
    demoTable_make

theorem demoLarge_reachable : Reachable .w32 demoHash demoLarge :=
  Reachable.make 128 (3 / 4) 9 demoLarge (by norm_num) (by norm_num) (by norm_num) (by norm_num)
    demoLarge_make

theorem demoProbed_eq :
    Uint32Table.Probe demoHash demoTable [10, 20] [0, 0] 1 = .done (demoProbed, [0, 1]) := by
  decide!

theorem demoProbed_reachable : Reachable .w32 demoHash demoProbed :=
  Reachable.probe demoTable demoProbed [10, 20] [0, 0] [0, 1] 1 demoTable_reachable
    (by norm_num) demoProbed_eq

theorem demoCalls_ok :
    ∀ c, c ∈ demoCalls → c.keys.length ≤ c.values.length ∧ c.keys.length ≤ 2 ^ 61 := by
  intro c hc
  simp only [demoCalls, List.mem_cons, List.mem_singleton, List.not_mem_nil, or_false] at hc
  rcases hc with rfl | rfl <;> simp

theorem demoThirty_ok (seed : Nat) :
    ∀ c, c ∈ demoThirty seed → c.keys.length ≤ c.values.length ∧ c.keys.length ≤ 2 ^ 61 := by
  intro c hc
  simp only [demoThirty, List.mem_singleton] at hc
  subst hc; simp

theorem demoRun_eq :
    runProbes .w32 demoHash demoTable demoCalls =
      .done (runTable demoTable (runProbes .w32 demoHash demoTable demoCalls),
        [[0, 1, 2], [2, 1, 0, 3]]) := by
  decide!

theorem mem_of_map_eq (calls1 calls2 : List Call)
    (h : calls1.map (fun c => (c.keys, c.values)) = calls2.map (fun c => (c.keys, c.values)))
    (c2 : Call) (hc : c2 ∈ calls2) :
    ∃ c1, c1 ∈ calls1 ∧ c1.keys = c2.keys ∧ c1.values = c2.values := by
  have hm : (c2.keys, c2.values) ∈ calls2.map (fun c => (c.keys, c.values)) :=
    List.mem_map_of_mem _ hc
  rw [← h, List.mem_map] at hm
  obtain ⟨c1, hc1, heq⟩ := hm
  simp only [Prod.mk.injEq] at heq
  exact ⟨c1, hc1, heq.1, heq.2⟩

/-- A run on a fresh or just reset table: the facts the claims about runs share. -/
theorem fresh_run (ht : Reachable w hash t) (hfresh : t.len = 0) (calls : List Call)
    (hcalls : ∀ c, c ∈ calls → c.keys.length ≤ c.values.length ∧ c.keys.length ≤ 2 ^ 61) :
    runProbes w hash t calls ≠ .hang ∧
      (∀ t2 outs, runProbes w hash t calls = .done (t2, outs) →
        outs = expected [] calls ∧ TableInv w hash t2 (assign [] (keysOf calls)).1) := by
  have hinv := fresh_inv ht hfresh
  rcases runProbes_spec w hash calls t [] (by simpa [assign] using hinv) hcalls with
    ⟨s, hs⟩ | ⟨t3, h3, hinv3, _⟩
  · rw [hs]
    exact ⟨fun h => Outcome.noConfusion h, fun t2 outs h => Outcome.noConfusion h⟩
  · rw [h3]
    refine ⟨fun h => Outcome.noConfusion h, fun t2 outs h => ?_⟩
    injection h with h
    injection h with h1 h2
    subst h1 h2
    exact ⟨rfl, by simpa using hinv3⟩

/-- The identifier of a probed key is below the number of distinct keys. -/
theorem distinctBefore_lt (all : List Nat) (k : Nat) (hk : k ∈ all) :
    distinctBefore all k < all.dedup.length := by
  have hmem : k ∈ (assign [] all).1 := by rw [mem_assign]; exact Or.inr hk
  rw [← indexOf_assign all k hk, ← assign_length_eq_dedup]
  exact List.indexOf_lt_length.2 hmem

/-- C1: on a fresh or just reset table (reachable, `len = 0`) of either width,
for every hash function, every seed and every sequence of `probe` calls whose
values slices have room for the keys and that probe at most `2 ^ 31` distinct
keys, the run never hangs, and when it returns each call has written, for each
key, the number of distinct keys that occur strictly before the first
occurrence of that key in the concatenation of all keys probed so far
(`expected`), leaving the rest of the values slice as it was.  Each of these
identifiers is at least 0 and below `2 ^ 31`, so it is the number that the
program holds in its `int32` value.  The run does return when the sizes stay
below the limit of `make`.  The theorem holds for every prefix of the calls,
hence after each call. -/
theorem probe_identifiers_by_first_occurrence (w : Width) (hash : Nat → Nat → Nat)
    (t : tableBits) (ht : Reachable w hash t) (hfresh : t.len = 0) (calls : List Call)
    (hcalls : ∀ c, c ∈ calls → c.keys.length ≤ c.values.length ∧ c.keys.length ≤ 2 ^ 61)
    (hids : (keysOf calls).dedup.length ≤ 2 ^ 31) :
    runProbes w hash t calls ≠ .hang ∧
      (∀ t2 outs, runProbes w hash t calls = .done (t2, outs) → outs = expected [] calls) ∧
      expected [] calls = calls.map (fun c =>
        c.keys.map (fun key => (distinctBefore (keysOf calls) key : Int)) ++
          c.values.drop c.keys.length) ∧
      (∀ key, key ∈ keysOf calls →
        (0 : Int) ≤ (distinctBefore (keysOf calls) key : Int) ∧
          (distinctBefore (keysOf calls) key : Int) < 2 ^ 31) ∧
      (2 ^ calls.length * max t.cap (keysOf calls).length ≤ 2 ^ 61 →
        ∃ t2, runProbes w hash t calls = .done (t2, expected [] calls)) := by
  obtain ⟨h1, h2⟩ := fresh_run ht hfresh calls hcalls
  refine ⟨h1, fun t2 outs h => (h2 t2 outs h).1, ?_, ?_, fun hfit => ?_⟩
  · rw [expected_eq_map]; simp
  · intro key hkey
    have hlt := distinctBefore_lt (keysOf calls) key hkey
    refine ⟨Int.natCast_nonneg _, ?_⟩
    have : distinctBefore (keysOf calls) key < 2 ^ 31 := by omega
    exact_mod_cast this
  · have hinv := fresh_inv ht hfresh
    obtain ⟨t2, h3, _⟩ := runProbes_done w hash calls t [] (by simpa [assign] using hinv)
      (fun c hc => (hcalls c hc).1) (by rw [hfresh, Nat.zero_add]; exact hfit)
    exact ⟨t2, h3⟩

theorem probe_identifiers_by_first_occurrence_witness :
    Reachable .w32 demoHash demoTable ∧ demoTable.len = 0 ∧
      (∀ c, c ∈ demoCalls → c.keys.length ≤ c.values.length ∧ c.keys.length ≤ 2 ^ 61) ∧
      (keysOf demoCalls).dedup.length ≤ 2 ^ 31 ∧
      expected [] demoCalls = [[0, 1, 2], [2, 1, 0, 3]] ∧
      (runProbes .w32 demoHash demoTable demoCalls ≠ .hang ∧
        (∀ t2 outs, runProbes .w32 demoHash demoTable demoCalls = .done (t2, outs) →
          outs = expected [] demoCalls) ∧
        expected [] demoCalls = demoCalls.map (fun c =>
          c.keys.map (fun key => (distinctBefore (keysOf demoCalls) key : Int)) ++
            c.values.drop c.keys.length) ∧
        (∀ key, key ∈ keysOf demoCalls →
          (0 : Int) ≤ (distinctBefore (keysOf demoCalls) key : Int) ∧
            (distinctBefore (keysOf demoCalls) key : Int) < 2 ^ 31) ∧
        (2 ^ demoCalls.length * max demoTable.cap (keysOf demoCalls).length ≤ 2 ^ 61 →
          ∃ t2, runProbes .w32 demoHash demoTable demoCalls = .done (t2, expected [] demoCalls))) :=
  ⟨demoTable_reachable, rfl, demoCalls_ok, by decide!, by decide!,
    probe_identifiers_by_first_occurrence .w32 demoHash demoTable demoTable_reachable rfl
      demoCalls demoCalls_ok (by decide!)⟩

/-- C2: a run of `probe` calls on a fresh table that probes at most `2 ^ 31`
distinct keys never hangs and returns when the sizes stay below the limit of
`make`; when it has returned, `len` is the number of distinct keys probed, every
call has written the same identifier for the same key (`distinctBefore` in all
keys probed), every identifier is below `len`, which is at most `2 ^ 31`, two
probed keys have the same identifier if and only if they are equal, and every
number below `len` is the identifier of a probed key. -/
theorem identifiers_bijective (w : Width) (hash : Nat → Nat → Nat) (t : tableBits)
    (ht : Reachable w hash t) (hfresh : t.len = 0) (calls : List Call)
    (hcalls : ∀ c, c ∈ calls → c.keys.length ≤ c.values.length ∧ c.keys.length ≤ 2 ^ 61)
    (hids : (keysOf calls).dedup.length ≤ 2 ^ 31) :
    runProbes w hash t calls ≠ .hang ∧
      (2 ^ calls.length * max t.cap (keysOf calls).length ≤ 2 ^ 61 →
        ∃ t2 outs, runProbes w hash t calls = .done (t2, outs)) ∧
      (∀ t2 outs, runProbes w hash t calls = .done (t2, outs) →
        t2.len = (keysOf calls).dedup.length ∧ t2.len ≤ 2 ^ 31 ∧
        outs = calls.map (fun c =>
          c.keys.map (fun key => (distinctBefore (keysOf calls) key : Int)) ++
            c.values.drop c.keys.length) ∧
        (∀ k, k ∈ keysOf calls → distinctBefore (keysOf calls) k < t2.len) ∧
        (∀ k1 k2, k1 ∈ keysOf calls → k2 ∈ keysOf calls →
          (distinctBefore (keysOf calls) k1 = distinctBefore (keysOf calls) k2 ↔ k1 = k2)) ∧
        (∀ i, i < t2.len → ∃ k, k ∈ keysOf calls ∧ distinctBefore (keysOf calls) k = i)) := by
  obtain ⟨h1, h2⟩ := fresh_run ht hfresh calls hcalls
  refine ⟨h1, fun hfit => ?_, ?_⟩
  · have hinv := fresh_inv ht hfresh
    obtain ⟨t2, h3, _⟩ := runProbes_done w hash calls t [] (by simpa [assign] using hinv)
      (fun c hc => (hcalls c hc).1) (by rw [hfresh, Nat.zero_add]; exact hfit)
    exact ⟨t2, _, h3⟩
  · intro t2 outs hrun
    obtain ⟨houts, hinv⟩ := h2 t2 outs hrun
    have hlen : t2.len = (keysOf calls).dedup.length := by
      rw [hinv.lenEq, assign_length_eq_dedup]
    have hmem : ∀ k, k ∈ (assign [] (keysOf calls)).1 ↔ k ∈ keysOf calls := by
      intro k; rw [mem_assign]; simp
    refine ⟨hlen, by omega, ?_, ?_, ?_, ?_⟩
    · rw [houts, expected_eq_map]; simp
    · intro k hk
      rw [hlen]; exact distinctBefore_lt _ k hk
    · intro k1 k2 hk1 hk2
      rw [← indexOf_assign _ k1 hk1, ← indexOf_assign _ k2 hk2]
      exact List.indexOf_inj ((hmem k1).2 hk1) ((hmem k2).2 hk2)
    · intro i hi
      rw [hinv.lenEq] at hi
      refine ⟨(assign [] (keysOf calls)).1[i], (hmem _).1 (List.getElem_mem _), ?_⟩
      rw [← indexOf_assign _ _ ((hmem _).1 (List.getElem_mem _))]
      exact List.indexOf_getElem hinv.holds.nodup i hi

theorem identifiers_bijective_witness :
    Reachable .w32 demoHash demoTable ∧ demoTable.len = 0 ∧ demoTable.cap = 32 ∧
      (∀ c, c ∈ demoThirty 5 → c.keys.length ≤ c.values.length ∧ c.keys.length ≤ 2 ^ 61) ∧
      (keysOf (demoThirty 5)).dedup.length ≤ 2 ^ 31 ∧
      runProbes .w32 demoHash demoTable (demoThirty 5) =
        .done (runTable demoTable (runProbes .w32 demoHash demoTable (demoThirty 5)),
          [(List.range 30).map (fun n => (n : Int))]) ∧
      (runTable demoTable (runProbes .w32 demoHash demoTable (demoThirty 5))).cap = 64 ∧
      (runTable demoTable (runProbes .w32 demoHash demoTable (demoThirty 5))).len = 30 ∧
      (runProbes .w32 demoHash demoTable (demoThirty 5) ≠ .hang ∧
        (2 ^ (demoThirty 5).length * max demoTable.cap (keysOf (demoThirty 5)).length ≤ 2 ^ 61 →
          ∃ t2 outs, runProbes .w32 demoHash demoTable (demoThirty 5) = .done (t2, outs)) ∧
        (∀ t2 outs, runProbes .w32 demoHash demoTable (demoThirty 5) = .done (t2, outs) →
          t2.len = (keysOf (demoThirty 5)).dedup.length ∧ t2.len ≤ 2 ^ 31 ∧
          outs = (demoThirty 5).map (fun c =>
            c.keys.map (fun key => (distinctBefore (keysOf (demoThirty 5)) key : Int)) ++
              c.values.drop c.keys.length) ∧
          (∀ k, k ∈ keysOf (demoThirty 5) →
            distinctBefore (keysOf (demoThirty 5)) k < t2.len) ∧
          (∀ k1 k2, k1 ∈ keysOf (demoThirty 5) → k2 ∈ keysOf (demoThirty 5) →
            (distinctBefore (keysOf (demoThirty 5)) k1 =
              distinctBefore (keysOf (demoThirty 5)) k2 ↔ k1 = k2)) ∧
          (∀ i, i < t2.len →
            ∃ k, k ∈ keysOf (demoThirty 5) ∧ distinctBefore (keysOf (demoThirty 5)) k = i))) :=
  ⟨demoTable_reachable, rfl, rfl, demoThirty_ok 5, by decide!, by decide!, by decide!,
    by decide!,
    identifiers_bijective .w32 demoHash demoTable demoTable_reachable rfl (demoThirty 5)
      (demoThirty_ok 5) (by decide!)⟩

end

section

set_option maxRecDepth 100000

variable {w : Width} {hash : Nat → Nat → Nat}

theorem newUint32Table_32 (seed : Nat) :
    NewUint32Table 32 (3 / 4) seed =
      some { len := 0, cap := 32, maxLen := 24, maxLoad := 3 / 4, seed := seed,
             table := List.replicate 65 0 } := by
  obtain ⟨e, he, hW, hc, hleast, heq⟩ := makeTableBits_eq .w32 32 (3 / 4) seed (by norm_num)
  have h5 : e ≤ 5 := hleast 5 (by simp [Width.bits]) (by norm_num)
  have h5b : 5 ≤ e := by
    have : (2 : Nat) ^ 5 ≤ 2 ^ e := by
      have : ((32 : Nat) : Int) ≤ ((2 ^ e : Nat) : Int) := by exact_mod_cast hc
      exact_mod_cast this
    exact (Nat.pow_le_pow_iff_right (by norm_num)).1 this
  have he5 : e = 5 := by omega
  subst he5
  unfold NewUint32Table makeTable32bits
  rw [heq]
  have hceil : ⌈(3 / 4 : ℚ) * ((2 ^ 5 : Nat) : ℚ)⌉ = 24 := by
    rw [Int.ceil_eq_iff]; norm_num
  rw [hceil]
  rfl

/-- C3 (the code breaks the load bound): for every hash function and all
seeds, probing the hundred distinct keys `0 .. 99` into a fresh
`Uint32Table(cap=32, max_load=0.75)` returns with `len = 100`, `cap = 128` and
`maxLen = 96`, so that `len ≤ maxLen` fails after a call that grew the table:
`grow` sizes the new table for `totalValues` slots, not for a load of
`maxLoad`. -/
theorem load_bound_exceeded_after_growth (hash : Nat → Nat → Nat) (seed growSeed : Nat) :
    ∃ t t2 vs, NewUint32Table 32 (3 / 4) seed = some t ∧
      Uint32Table.Probe hash t (List.range 100) (List.replicate 100 0) growSeed =
        .done (t2, vs) ∧
      t2.len = 100 ∧ t2.cap = 128 ∧ t2.maxLen = 96 ∧ ¬ ((t2.len : Int) ≤ t2.maxLen) := by
  have hmake := newUint32Table_32 seed
  obtain ⟨hinv, _, _, _⟩ := makeTableBits_inv .w32 hash 32 (3 / 4) seed _ (by norm_num)
    (by norm_num) hmake
  obtain ⟨e, hce, _, _, _, _, hdone⟩ := probe_grow hinv (List.range 100) (List.replicate 100 0)
    growSeed (by simp) (by simp) (by simp)
  have hcap : growCap 32 ((0 + (List.range 100).length : Nat) : Int) = ((2 ^ 7 : Nat) : Int) := by
    decide
  have he7 : e = 7 := by
    simp only [] at hce
    rw [hcap] at hce
    have : (2 : Nat) ^ 7 = 2 ^ e := by exact_mod_cast hce
    exact (Nat.pow_right_injective (le_refl 2) this).symm
  subst he7
  obtain ⟨t2, h2, hinv2, hc2, _, hl2⟩ := hdone (by norm_num)
  have hlen : t2.len = 100 := by
    rw [hinv2.lenEq, assign_length_eq_dedup, List.Nodup.dedup (List.nodup_range 100)]
    simp
  have hml : t2.maxLen = 96 := by
    rw [hinv2.maxLenEq, hl2, hc2]
    simp only []
    rw [Int.ceil_eq_iff]; norm_num
  refine ⟨_, t2, _, hmake, h2, hlen, by rw [hc2]; norm_num, hml, ?_⟩
  rw [hlen, hml]; norm_num

/-- C4: two fresh tables of the same width, whatever their capacities, load
factors, seeds and hash functions, probed with the same keys in the same
batches give the same output values and the same final `len`, neither run
hangs, and both return when the sizes stay below the limit of `make`; so a
table that starts small and grows, each time with a fresh seed, agrees with a
table created so large that `grow` is never called. -/
theorem growth_keeps_identifiers (w : Width) (hash1 hash2 : Nat → Nat → Nat)
    (t1 t2 : tableBits) (h1 : Reachable w hash1 t1) (hf1 : t1.len = 0)
    (h2 : Reachable w hash2 t2) (hf2 : t2.len = 0) (calls1 calls2 : List Call)
    (hsame : calls1.map (fun c => (c.keys, c.values)) = calls2.map (fun c => (c.keys, c.values)))
    (hcalls : ∀ c, c ∈ calls1 → c.keys.length ≤ c.values.length ∧ c.keys.length ≤ 2 ^ 61) :
    runProbes w hash1 t1 calls1 ≠ .hang ∧ runProbes w hash2 t2 calls2 ≠ .hang ∧
      (∀ r1 r2 outs1 outs2, runProbes w hash1 t1 calls1 = .done (r1, outs1) →
        runProbes w hash2 t2 calls2 = .done (r2, outs2) → outs1 = outs2 ∧ r1.len = r2.len) ∧
      (2 ^ calls1.length * max (max t1.cap t2.cap) (keysOf calls1).length ≤ 2 ^ 61 →
        ∃ r1 r2 outs, runProbes w hash1 t1 calls1 = .done (r1, outs) ∧
          runProbes w hash2 t2 calls2 = .done (r2, outs) ∧ r1.len = r2.len) := by
  have hcalls2 : ∀ c, c ∈ calls2 → c.keys.length ≤ c.values.length ∧ c.keys.length ≤ 2 ^ 61 := by
    intro c hc
    obtain ⟨c1, hc1, hk, hv⟩ := mem_of_map_eq calls1 calls2 hsame c hc
    rw [← hk, ← hv]; exact hcalls c1 hc1
  obtain ⟨ha, hb⟩ := fresh_run h1 hf1 calls1 hcalls
  obtain ⟨hc, hd⟩ := fresh_run h2 hf2 calls2 hcalls2
  have hall : ∀ r1 r2 outs1 outs2, runProbes w hash1 t1 calls1 = .done (r1, outs1) →
      runProbes w hash2 t2 calls2 = .done (r2, outs2) → outs1 = outs2 ∧ r1.len = r2.len := by
    intro r1 r2 outs1 outs2 hr1 hr2
    obtain ⟨ho1, hi1⟩ := hb r1 outs1 hr1
    obtain ⟨ho2, hi2⟩ := hd r2 outs2 hr2
    refine ⟨?_, ?_⟩
    · rw [ho1, ho2]; exact expected_congr calls1 calls2 [] hsame
    · rw [hi1.lenEq, hi2.lenEq, keysOf_congr calls1 calls2 hsame]
  refine ⟨ha, hc, hall, ?_⟩
  intro hfit
  have hlen : calls2.length = calls1.length := by
    have := congrArg List.length hsame
    simpa using this.symm
  have hkeys := keysOf_congr calls1 calls2 hsame
  have hm1 : max t1.cap (t1.len + (keysOf calls1).length) ≤
      max (max t1.cap t2.cap) (keysOf calls1).length := by
    rw [hf1, Nat.zero_add]; omega
  have hm2 : max t2.cap (t2.len + (keysOf calls2).length) ≤
      max (max t1.cap t2.cap) (keysOf calls1).length := by
    rw [hf2, Nat.zero_add, ← hkeys]; omega
  obtain ⟨r1, hr1, _⟩ := runProbes_done w hash1 calls1 t1 []
    (by simpa [assign] using fresh_inv h1 hf1) (fun c hc => (hcalls c hc).1)
    (le_trans (Nat.mul_le_mul_left _ hm1) hfit)
  obtain ⟨r2, hr2, _⟩ := runProbes_done w hash2 calls2 t2 []
    (by simpa [assign] using fresh_inv h2 hf2) (fun c hc => (hcalls2 c hc).1)
    (by rw [hlen]; exact le_trans (Nat.mul_le_mul_left _ hm2) hfit)
  obtain ⟨ho, hl⟩ := hall r1 r2 _ _ hr1 hr2
  rw [← ho] at hr2
  exact ⟨r1, r2, _, hr1, hr2, hl⟩

theorem demoThirty_small_eq :
    runProbes .w32 demoHash demoTable (demoThirty 5) =
      .done (runTable demoTable (runProbes .w32 demoHash demoTable (demoThirty 5)),
        [(List.range 30).map (fun n => (n : Int))]) := by
  decide!

theorem demoThirty_large_eq :
    runProbes .w32 demoHash demoLarge (demoThirty 6) =
      .done (runTable demoLarge (runProbes .w32 demoHash demoLarge (demoThirty 6)),
        [(List.range 30).map (fun n => (n : Int))]) := by
  decide!

theorem growth_keeps_identifiers_witness :
    Reachable .w32 demoHash demoTable ∧ demoTable.len = 0 ∧
      Reachable .w32 demoHash demoLarge ∧ demoLarge.len = 0 ∧
      (demoThirty 5).map (fun c => (c.keys, c.values)) =
        (demoThirty 6).map (fun c => (c.keys, c.values)) ∧
      (∀ c, c ∈ demoThirty 5 → c.keys.length ≤ c.values.length ∧ c.keys.length ≤ 2 ^ 61) ∧
      (runTable demoTable (runProbes .w32 demoHash demoTable (demoThirty 5))).cap = 64 ∧
      (runTable demoLarge (runProbes .w32 demoHash demoLarge (demoThirty 6))).cap = 128 ∧
      (runProbes .w32 demoHash demoTable (demoThirty 5) ≠ .hang ∧
        runProbes .w32 demoHash demoLarge (demoThirty 6) ≠ .hang ∧
        (∀ r1 r2 outs1 outs2,
          runProbes .w32 demoHash demoTable (demoThirty 5) = .done (r1, outs1) →
          runProbes .w32 demoHash demoLarge (demoThirty 6) = .done (r2, outs2) →
          outs1 = outs2 ∧ r1.len = r2.len) ∧
        (2 ^ (demoThirty 5).length *
            max (max demoTable.cap demoLarge.cap) (keysOf (demoThirty 5)).length ≤ 2 ^ 61 →
          ∃ r1 r2 outs, runProbes .w32 demoHash demoTable (demoThirty 5) = .done (r1, outs) ∧
            runProbes .w32 demoHash demoLarge (demoThirty 6) = .done (r2, outs) ∧
            r1.len = r2.len)) :=
  ⟨demoTable_reachable, rfl, demoLarge_reachable, rfl, rfl, demoThirty_ok 5, by decide!,
    by decide!,
    growth_keeps_identifiers .w32 demoHash demoHash demoTable demoLarge demoTable_reachable rfl
      demoLarge_reachable rfl (demoThirty 5) (demoThirty 6) rfl (demoThirty_ok 5)⟩

end

section

set_option maxRecDepth 100000

variable {w : Width} {hash : Nat → Nat → Nat}

theorem Holds.mem_iff_has (hh : Holds w cap flags slots ks) (key : Nat) :
    key ∈ ks ↔ ∃ value, Has w cap flags slots key value := by
  constructor
  · exact hh.present key
  · rintro ⟨v, hv⟩
    exact List.getElem?_mem (hh.stored key v hv)

theorem grow_done_inv (hinv : TableInv w hash t ks) (total : Int) (seed : Nat) (t2 : tableBits)
    (h : t.grow w hash total seed = .done t2) : TableInv w hash t2 ks ∧ t2.len = t.len := by
  obtain ⟨e, _, _, he62, hpanic, hdone⟩ := grow_spec w hash t ks hinv total seed
  by_cases h62 : e = 62
  · rw [hpanic h62] at h; cases h
  · obtain ⟨t3, h3, hinv3, _, _, _, hlen3⟩ := hdone (by omega)
    rw [h3] at h
    injection h with h
    subst h
    exact ⟨hinv3, hlen3⟩

/-- C5: in every reachable state the number of set bits in the occupancy
bitmap equals `len`.  It is 0 after construction and after `reset`, `grow`
carries it over unchanged together with `len`, and a `probe` of one key raises
both by one when no occupied slot holds the key and leaves both as they were
when one does. -/
theorem bitmap_popcount_eq_len (w : Width) (hash : Nat → Nat → Nat) (t : tableBits)
    (ht : Reachable w hash t) :
    bitmapOnes w t = t.len ∧
      (∀ (c : Int) (maxLoad : ℚ) (seed : Nat) (t0 : tableBits), c < 2 ^ 63 → maxLoad ≤ 1 →
        makeTableBits w c maxLoad seed = some t0 → bitmapOnes w t0 = 0 ∧ t0.len = 0) ∧
      (bitmapOnes w t.reset = 0 ∧ t.reset.len = 0) ∧
      (∀ (total : Int) (seed : Nat) (t2 : tableBits), t.grow w hash total seed = .done t2 →
        bitmapOnes w t2 = bitmapOnes w t ∧ t2.len = t.len) ∧
      (∀ (key : Nat) (values vs : List Int) (seed : Nat) (t2 : tableBits),
        t.probe w hash [key] values seed = .done (t2, vs) →
        ((∃ value, Has w t.cap (t.content w).1 (t.content w).2 key value) →
          bitmapOnes w t2 = bitmapOnes w t ∧ t2.len = t.len) ∧
        ((¬ ∃ value, Has w t.cap (t.content w).1 (t.content w).2 key value) →
          bitmapOnes w t2 = bitmapOnes w t + 1 ∧ t2.len = t.len + 1)) := by
  obtain ⟨ks, hinv, _, _⟩ := reachable_inv ht
  have hones := bitmapOnes_eq_len hinv
  refine ⟨hones, ?_, ?_, ?_, ?_⟩
  · intro c maxLoad seed t0 hc hload hmake
    obtain ⟨hinv0, _, hlen0, _⟩ := makeTableBits_inv w hash c maxLoad seed t0 hc hload hmake
    exact ⟨by rw [bitmapOnes_eq_len hinv0, hlen0], hlen0⟩
  · exact ⟨by rw [bitmapOnes_eq_len (reset_inv hinv)]; rfl, rfl⟩
  · intro total seed t2 h
    obtain ⟨hinv2, hlen2⟩ := grow_done_inv hinv total seed t2 h
    exact ⟨by rw [bitmapOnes_eq_len hinv2, hones, hlen2], hlen2⟩
  · intro key values vs seed t2 h
    obtain ⟨hinv2, _, _, _, _⟩ := probe_done_inv hinv [key] values vs seed t2 (by simp) h
    have hones2 := bitmapOnes_eq_len hinv2
    have hmem := hinv.holds.mem_iff_has key
    have hlen := hinv.lenEq
    have hlen2 := hinv2.lenEq
    constructor
    · intro hex
      have hk : key ∈ ks := hmem.2 hex
      have : (assign ks [key]).1 = ks := by simp [assign, hk]
      rw [this] at hlen2
      exact ⟨by rw [hones2, hones, hlen2, hlen], by rw [hlen2, hlen]⟩
    · intro hnex
      have hk : key ∉ ks := fun hk => hnex (hmem.1 hk)
      have : (assign ks [key]).1 = ks ++ [key] := by simp [assign, hk]
      rw [this, List.length_append, List.length_singleton] at hlen2
      exact ⟨by rw [hones2, hones, hlen2, hlen], by rw [hlen2, hlen]⟩

theorem bitmap_popcount_eq_len_witness :
    Reachable .w32 demoHash demoProbed ∧ demoProbed.len = 2 ∧
      (bitmapOnes .w32 demoProbed = demoProbed.len ∧
      (∀ (c : Int) (maxLoad : ℚ) (seed : Nat) (t0 : tableBits), c < 2 ^ 63 → maxLoad ≤ 1 →
        makeTableBits .w32 c maxLoad seed = some t0 → bitmapOnes .w32 t0 = 0 ∧ t0.len = 0) ∧
      (bitmapOnes .w32 demoProbed.reset = 0 ∧ demoProbed.reset.len = 0) ∧
      (∀ (total : Int) (seed : Nat) (t2 : tableBits),
        demoProbed.grow .w32 demoHash total seed = .done t2 →
        bitmapOnes .w32 t2 = bitmapOnes .w32 demoProbed ∧ t2.len = demoProbed.len) ∧
      (∀ (key : Nat) (values vs : List Int) (seed : Nat) (t2 : tableBits),
        demoProbed.probe .w32 demoHash [key] values seed = .done (t2, vs) →
        ((∃ value, Has .w32 demoProbed.cap (demoProbed.content .w32).1
            (demoProbed.content .w32).2 key value) →
          bitmapOnes .w32 t2 = bitmapOnes .w32 demoProbed ∧ t2.len = demoProbed.len) ∧
        ((¬ ∃ value, Has .w32 demoProbed.cap (demoProbed.content .w32).1
            (demoProbed.content .w32).2 key value) →
          bitmapOnes .w32 t2 = bitmapOnes .w32 demoProbed + 1 ∧
            t2.len = demoProbed.len + 1))) :=
  ⟨demoProbed_reachable, by decide!,
    bitmap_popcount_eq_len .w32 demoHash demoProbed demoProbed_reachable⟩

/-- C6: for every key sequence `K`, probing `K ++ K` in one call on a fresh
table gives `V ++ V`, where `V` is what one call with `K` gives on another
fresh table, whatever the seeds, hash functions and capacities of the two
tables; both tables end with the same `len`, neither call hangs, and both
return when the capacities are at most `2 ^ 60`. -/
theorem probe_twice_in_one_call (w : Width) (hash1 hash2 : Nat → Nat → Nat) (t1 t2 : tableBits)
    (h1 : Reachable w hash1 t1) (hf1 : t1.len = 0) (h2 : Reachable w hash2 t2)
    (hf2 : t2.len = 0) (keys : List Nat) (hk : 2 * keys.length ≤ 2 ^ 61)
    (values1 values2 : List Int) (hv1 : values1.length = 2 * keys.length)
    (hv2 : values2.length = keys.length) (seed1 seed2 : Nat) :
    t1.probe w hash1 (keys ++ keys) values1 seed1 ≠ .hang ∧
      t2.probe w hash2 keys values2 seed2 ≠ .hang ∧
      (∀ r1 r2 out1 out2, t1.probe w hash1 (keys ++ keys) values1 seed1 = .done (r1, out1) →
        t2.probe w hash2 keys values2 seed2 = .done (r2, out2) →
        out1 = out2 ++ out2 ∧ r1.len = r2.len) ∧
      (t1.cap ≤ 2 ^ 60 → t2.cap ≤ 2 ^ 60 →
        ∃ r1 r2 out, t1.probe w hash1 (keys ++ keys) values1 seed1 = .done (r1, out ++ out) ∧
          t2.probe w hash2 keys values2 seed2 = .done (r2, out) ∧ r1.len = r2.len) := by
  have hi1 := fresh_inv h1 hf1
  have hi2 := fresh_inv h2 hf2
  have hkk : (keys ++ keys).length ≤ 2 ^ 61 := by rw [List.length_append]; omega
  have hall : ∀ r1 r2 out1 out2,
      t1.probe w hash1 (keys ++ keys) values1 seed1 = .done (r1, out1) →
      t2.probe w hash2 keys values2 seed2 = .done (r2, out2) →
      out1 = out2 ++ out2 ∧ r1.len = r2.len := by
    intro r1 r2 out1 out2 hr1 hr2
    obtain ⟨hinv1, ho1, _, _, _⟩ := probe_done_inv hi1 _ _ _ _ _ hkk hr1
    obtain ⟨hinv2, ho2, _, _, _⟩ := probe_done_inv hi2 _ _ _ _ _ (by omega) hr2
    obtain ⟨htw1, htw2⟩ := assign_twice keys
    have hd1 : values1.drop (keys ++ keys).length = [] := by
      apply List.drop_eq_nil_of_le; rw [List.length_append]; omega
    have hd2 : values2.drop keys.length = [] := by
      apply List.drop_eq_nil_of_le; omega
    refine ⟨?_, ?_⟩
    · rw [ho1, ho2, hd1, hd2, htw1]; simp
    · rw [hinv1.lenEq, hinv2.lenEq, htw2]
  refine ⟨probe_no_hang hi1 _ _ _ hkk, probe_no_hang hi2 _ _ _ (by omega), hall, ?_⟩
  intro hc1 hc2
  obtain ⟨r1, hr1, _⟩ := probe_done hi1 (keys ++ keys) values1 seed1
    (by rw [List.length_append]; omega) hc1 (by rw [hf1, List.length_append]; omega)
  obtain ⟨r2, hr2, _⟩ := probe_done hi2 keys values2 seed2 (by omega) hc2
    (by rw [hf2]; omega)
  obtain ⟨ho, hl⟩ := hall r1 r2 _ _ hr1 hr2
  rw [ho] at hr1
  exact ⟨r1, r2, _, hr1, hr2, hl⟩

theorem probe_twice_in_one_call_witness :
    Reachable .w32 demoHash demoTable ∧ demoTable.len = 0 ∧
      Reachable .w32 demoHash demoLarge ∧ demoLarge.len = 0 ∧
      2 * [5, 9, 5, 3].length ≤ 2 ^ 61 ∧
      (List.replicate 8 (0 : Int)).length = 2 * [5, 9, 5, 3].length ∧
      (List.replicate 4 (0 : Int)).length = [5, 9, 5, 3].length ∧
      valuesAfter (demoTable.probe .w32 demoHash ([5, 9, 5, 3] ++ [5, 9, 5, 3])
        (List.replicate 8 0) 1) = [0, 1, 0, 2, 0, 1, 0, 2] ∧
      valuesAfter (demoLarge.probe .w32 demoHash [5, 9, 5, 3] (List.replicate 4 0) 2) =
        [0, 1, 0, 2] ∧
      (demoTable.probe .w32 demoHash ([5, 9, 5, 3] ++ [5, 9, 5, 3]) (List.replicate 8 0) 1 ≠
          .hang ∧
        demoLarge.probe .w32 demoHash [5, 9, 5, 3] (List.replicate 4 0) 2 ≠ .hang ∧
        (∀ r1 r2 out1 out2,
          demoTable.probe .w32 demoHash ([5, 9, 5, 3] ++ [5, 9, 5, 3]) (List.replicate 8 0) 1 =
            .done (r1, out1) →
          demoLarge.probe .w32 demoHash [5, 9, 5, 3] (List.replicate 4 0) 2 = .done (r2, out2) →
          out1 = out2 ++ out2 ∧ r1.len = r2.len) ∧
        (demoTable.cap ≤ 2 ^ 60 → demoLarge.cap ≤ 2 ^ 60 →
          ∃ r1 r2 out,
            demoTable.probe .w32 demoHash ([5, 9, 5, 3] ++ [5, 9, 5, 3]) (List.replicate 8 0) 1 =
              .done (r1, out ++ out) ∧
            demoLarge.probe .w32 demoHash [5, 9, 5, 3] (List.replicate 4 0) 2 = .done (r2, out) ∧
            r1.len = r2.len)) :=
  ⟨demoTable_reachable, rfl, demoLarge_reachable, rfl, by norm_num, by simp, by simp,
    by decide!, by decide!,
    probe_twice_in_one_call .w32 demoHash demoHash demoTable demoLarge demoTable_reachable rfl
      demoLarge_reachable rfl [5, 9, 5, 3] (by norm_num) (List.replicate 8 0)
      (List.replicate 4 0) (by simp) (by simp) 1 2⟩

end

section

set_option maxRecDepth 100000

variable {w : Width} {hash : Nat → Nat → Nat}

/-- After `reset` the bitmap words and the slot words are all zero. -/
theorem reset_content (w : Width) (t : tableBits) :
    (t.reset.content w).1 = List.replicate (t.content w).1.length 0 ∧
      (t.reset.content w).2 = List.replicate (t.content w).2.length 0 := by
  have htab : t.reset.table = List.replicate t.table.length 0 := by
    unfold tableBits.reset
    simp only [List.map_const']
  have hcap : t.reset.cap = t.cap := rfl
  unfold tableBits.content
  simp only [htab, hcap, List.take_replicate, List.drop_replicate, List.length_take,
    List.length_drop]
  exact ⟨trivial, trivial⟩

/-- A `probe` that need not grow and whose values slice is shorter than the
first window of keys panics before anything is changed. -/
theorem probe_short_first (w : Width) (hash : Nat → Nat → Nat) (t : tableBits) (keys : List Nat)
    (values : List Int) (seed : Nat) (hsize : t.len + keys.length < 2 ^ 63)
    (hfit : ((t.len + keys.length : Nat) : Int) ≤ t.maxLen)
    (hv : values.length < min 128 keys.length) :
    t.probe w hash keys values seed = .panic (t, values) := by
  rw [probe_unfold w hash t keys values seed hsize, if_neg (by omega)]
  have hpos : 0 < keys.length := by omega
  have hloop : ∀ fuel, 0 < fuel → probeLoop w hash keys fuel 0 t values = .panic (t, values) := by
    intro fuel hf
    obtain ⟨f, rfl⟩ : ∃ f, fuel = f + 1 := ⟨fuel - 1, by omega⟩
    rw [probeLoop_step w hash keys f 0 t values hpos, if_pos (by omega)]
  exact hloop keys.length hpos

/-- C7: for every reachable table state `reset` sets `len` to 0 and every
bitmap word to zero and leaves `cap`, `maxLen`, `maxLoad` and `seed` as they
were; the next `probe` never hangs and, when it returns, has written for each
key the number of distinct keys before its first occurrence in this call alone,
so identifiers start again at 0, and `len` is the number of distinct keys of the
call; it does return when `cap` is at most `2 ^ 60`. -/
theorem reset_restarts_identifiers (w : Width) (hash : Nat → Nat → Nat) (t : tableBits)
    (ht : Reachable w hash t) :
    (t.reset.len = 0 ∧ (t.reset.content w).1 = List.replicate (t.cap / w.bits) 0 ∧
      t.reset.cap = t.cap ∧ t.reset.maxLen = t.maxLen ∧ t.reset.maxLoad = t.maxLoad ∧
      t.reset.seed = t.seed) ∧
    ∀ (keys : List Nat) (values : List Int) (seed : Nat), keys.length ≤ values.length →
      keys.length ≤ 2 ^ 61 →
      t.reset.probe w hash keys values seed ≠ .hang ∧
      (∀ t2 vs, t.reset.probe w hash keys values seed = .done (t2, vs) →
        vs = keys.map (fun key => (distinctBefore keys key : Int)) ++ values.drop keys.length ∧
          t2.len = keys.dedup.length) ∧
      (t.cap ≤ 2 ^ 60 → ∃ t2, t.reset.probe w hash keys values seed =
        .done (t2, keys.map (fun key => (distinctBefore keys key : Int)) ++
          values.drop keys.length)) := by
  obtain ⟨ks, hinv, _, _⟩ := reachable_inv ht
  have hr := reset_inv hinv
  refine ⟨⟨rfl, ?_, rfl, rfl, rfl, rfl⟩, ?_⟩
  · rw [(reset_content w t).1]
    congr 1
    have h1 := hinv.sound.layout.flagsLen
    exact h1
  · intro keys values seed hv hk
    have hids := assign_eq_distinctBefore [] keys
    simp only [assign, List.nil_append] at hids
    refine ⟨probe_no_hang hr keys values seed hk, ?_, ?_⟩
    · intro t2 vs h
      obtain ⟨hinv2, ho, _, _, _⟩ := probe_done_inv hr keys values vs seed t2 hk h
      exact ⟨by rw [ho, hids], by rw [hinv2.lenEq, assign_length_eq_dedup]⟩
    · intro hcap
      obtain ⟨t2, h2, _⟩ := probe_done hr keys values seed hv hcap
        (by show 0 + keys.length ≤ 2 ^ 61; omega)
      rw [hids] at h2
      exact ⟨t2, h2⟩

theorem reset_restarts_identifiers_witness :
    Reachable .w32 demoHash demoProbed ∧
      Uint32Table.Probe demoHash demoTable [10, 20] [0, 0] 1 = .done (demoProbed, [0, 1]) ∧
      valuesAfter (Uint32Table.Probe demoHash demoProbed.reset [20, 10] [0, 0] 5) = [0, 1] ∧
      (stateAfter demoProbed.reset
        (Uint32Table.Probe demoHash demoProbed.reset [20, 10] [0, 0] 5)).len = 2 ∧
      ((demoProbed.reset.len = 0 ∧
        (demoProbed.reset.content .w32).1 = List.replicate (demoProbed.cap / Width.w32.bits) 0 ∧
        demoProbed.reset.cap = demoProbed.cap ∧ demoProbed.reset.maxLen = demoProbed.maxLen ∧
        demoProbed.reset.maxLoad = demoProbed.maxLoad ∧
        demoProbed.reset.seed = demoProbed.seed) ∧
      ∀ (keys : List Nat) (values : List Int) (seed : Nat), keys.length ≤ values.length →
        keys.length ≤ 2 ^ 61 →
        demoProbed.reset.probe .w32 demoHash keys values seed ≠ .hang ∧
        (∀ t2 vs, demoProbed.reset.probe .w32 demoHash keys values seed = .done (t2, vs) →
          vs = keys.map (fun key => (distinctBefore keys key : Int)) ++
            values.drop keys.length ∧ t2.len = keys.dedup.length) ∧
        (demoProbed.cap ≤ 2 ^ 60 → ∃ t2, demoProbed.reset.probe .w32 demoHash keys values seed =
          .done (t2, keys.map (fun key => (distinctBefore keys key : Int)) ++
            values.drop keys.length))) :=
  ⟨demoProbed_reachable, by decide!, by decide!, by decide!,
    reset_restarts_identifiers .w32 demoHash demoProbed demoProbed_reachable⟩

/-- C8, counterexample: in the reachable table that holds the keys 10 and 20,
slot 13 holds the key 10 before `reset` and 0 after it, so the slot words are
not left as they were. -/
theorem reset_clears_slot_words :
    Reachable .w32 demoHash demoProbed ∧
      keyAt (demoProbed.content .w32).2 13 = 10 ∧
      keyAt (demoProbed.reset.content .w32).2 13 = 0 ∧
      (demoProbed.reset.content .w32).2 ≠ (demoProbed.content .w32).2 :=
  ⟨demoProbed_reachable, by decide!, by decide!, by decide!⟩

/-- C8, amended: for every table state `reset` sets every word of the buffer to
zero, the slot words as well as the bitmap words; the buffer keeps its length,
`len` becomes 0, and `cap`, `maxLen`, `maxLoad` and `seed` stay as they were. -/
theorem reset_zeroes_buffer (w : Width) (t : tableBits) :
    t.reset.table = List.replicate t.table.length 0 ∧
      (t.reset.content w).1 = List.replicate (t.content w).1.length 0 ∧
      (t.reset.content w).2 = List.replicate (t.content w).2.length 0 ∧
      t.reset.len = 0 ∧ t.reset.cap = t.cap ∧ t.reset.maxLen = t.maxLen ∧
      t.reset.maxLoad = t.maxLoad ∧ t.reset.seed = t.seed := by
  refine ⟨?_, (reset_content w t).1, (reset_content w t).2, rfl, rfl, rfl, rfl, rfl⟩
  unfold tableBits.reset
  simp only [List.map_const']

/-- C10, counterexample: on a fresh table of capacity 32, a call with one key
and two values returns, writes the identifier and stores the key, and a call
with 25 keys and no room for values panics after the table has grown to
capacity 64. -/
theorem probe_has_no_length_check :
    Reachable .w32 demoHash demoTable ∧ [7].length ≠ [(5 : Int), 5].length ∧
      (∃ t2, Uint32Table.Probe demoHash demoTable [7] [5, 5] 1 = .done (t2, [0, 5]) ∧
        t2.len = 1 ∧ demoTable.len = 0) ∧
      (List.range 25).length ≠ ([] : List Int).length ∧
      (∃ t2, Uint32Table.Probe demoHash demoTable (List.range 25) [] 1 = .panic (t2, []) ∧
        t2.cap = 64 ∧ demoTable.cap = 32) :=
  ⟨demoTable_reachable, by decide,
    ⟨stateAfter demoTable (Uint32Table.Probe demoHash demoTable [7] [5, 5] 1),
      by decide!, by decide!, rfl⟩,
    by decide,
    ⟨stateAfter demoTable (Uint32Table.Probe demoHash demoTable (List.range 25) [] 1),
      by decide!, by decide!, rfl⟩⟩

/-- C10, amended: `probe` does not compare the lengths.  On a reachable table,
when the values slice has fewer entries than there are keys the call panics on
a slice bound, with the table and the values untouched if no growth was needed
and the values are shorter than the first window of 128 keys; when the values
slice has room for the keys the call never hangs, writes the identifiers to the
first entries and leaves the others, changes the table exactly as the call with
the values cut to the length of the keys does, and returns when `cap` is at
most `2 ^ 60` and `len` plus the number of keys at most `2 ^ 61`. -/
theorem probe_unequal_lengths (w : Width) (hash : Nat → Nat → Nat) (t : tableBits)
    (ht : Reachable w hash t) (keys : List Nat) (hk : keys.length ≤ 2 ^ 61)
    (values : List Int) (seed : Nat) :
    (values.length < keys.length → ∃ s, t.probe w hash keys values seed = .panic s) ∧
      (values.length < min 128 keys.length → ((t.len + keys.length : Nat) : Int) ≤ t.maxLen →
        t.probe w hash keys values seed = .panic (t, values)) ∧
      (keys.length ≤ values.length →
        t.probe w hash keys values seed ≠ .hang ∧
        (∀ t2 vs, t.probe w hash keys values seed = .done (t2, vs) →
          vs = vs.take keys.length ++ values.drop keys.length ∧
          t.probe w hash keys (values.take keys.length) seed =
            .done (t2, vs.take keys.length)) ∧
        (t.cap ≤ 2 ^ 60 → t.len + keys.length ≤ 2 ^ 61 →
          ∃ t2 vs, t.probe w hash keys values seed = .done (t2, vs))) := by
  obtain ⟨ks, hinv, _, _⟩ := reachable_inv ht
  have hlen := hinv.len_le_cap
  have hcap61 := hinv.cap_le
  refine ⟨fun hv => probe_short hinv keys values seed hv (by omega),
    fun hv hfit => probe_short_first w hash t keys values seed (by omega) hfit hv, ?_⟩
  intro hv
  refine ⟨probe_no_hang hinv keys values seed hk, ?_, ?_⟩
  · intro t2 vs h
    obtain ⟨_, ho, _, _, _⟩ := probe_done_inv hinv keys values vs seed t2 hk h
    have hl : (assign ks keys).2.length = keys.length := assign_ids_length keys ks
    have htake : vs.take keys.length = (assign ks keys).2 := by
      rw [ho, ← hl, List.take_left]
    have h2 := probe_values_irrelevant hinv keys values (values.take keys.length) vs seed t2 hv
      (by rw [List.length_take]; omega) (by omega) h
    have hd : (values.take keys.length).drop keys.length = [] := by
      apply List.drop_eq_nil_of_le
      rw [List.length_take]; omega
    rw [hd, List.append_nil] at h2
    rw [htake]
    exact ⟨ho, h2⟩
  · intro hcap hsum
    obtain ⟨t2, h2, _⟩ := probe_done hinv keys values seed hv hcap hsum
    exact ⟨t2, _, h2⟩

theorem probe_unequal_lengths_witness :
    Reachable .w32 demoHash demoTable ∧ [7, 8].length ≤ 2 ^ 61 ∧
      ((([5] : List Int).length < [7, 8].length →
          ∃ s, demoTable.probe .w32 demoHash [7, 8] [5] 1 = .panic s) ∧
        (([5] : List Int).length < min 128 [7, 8].length →
          ((demoTable.len + [7, 8].length : Nat) : Int) ≤ demoTable.maxLen →
          demoTable.probe .w32 demoHash [7, 8] [5] 1 = .panic (demoTable, [5])) ∧
        ([7, 8].length ≤ ([5] : List Int).length →
          demoTable.probe .w32 demoHash [7, 8] [5] 1 ≠ .hang ∧
          (∀ t2 vs, demoTable.probe .w32 demoHash [7, 8] [5] 1 = .done (t2, vs) →
            vs = vs.take [7, 8].length ++ ([5] : List Int).drop [7, 8].length ∧
            demoTable.probe .w32 demoHash [7, 8] (([5] : List Int).take [7, 8].length) 1 =
              .done (t2, vs.take [7, 8].length)) ∧
          (demoTable.cap ≤ 2 ^ 60 → demoTable.len + [7, 8].length ≤ 2 ^ 61 →
            ∃ t2 vs, demoTable.probe .w32 demoHash [7, 8] [5] 1 = .done (t2, vs)))) :=
  ⟨demoTable_reachable, by norm_num,
    probe_unequal_lengths .w32 demoHash demoTable demoTable_reachable [7, 8] (by norm_num)
      [5] 1⟩

end

section

set_option maxRecDepth 100000

variable {w : Width} {hash : Nat → Nat → Nat}

/-- The capacity `grow` computes, without overflow: the larger of twice the old
capacity and the least power of two that holds `n`. -/
theorem growCap_eq_max (e0 n : Nat) (he0 : e0 ≤ 61) (h1 : 1 ≤ n) (hn : n ≤ 2 ^ 62) :
    growCap (2 ^ e0) (n : Int) = ((max (2 * 2 ^ e0) (2 ^ bitLen 64 (n - 1)) : Nat) : Int) := by
  have hpow : (2 : Nat) ^ (e0 + 1) ≤ 2 ^ 62 := Nat.pow_le_pow_right (by norm_num) (by omega)
  have h2 : int64wrap (2 * ((2 ^ e0 : Nat) : Int)) = ((2 * 2 ^ e0 : Nat) : Int) := by
    have : 2 * ((2 ^ e0 : Nat) : Int) = ((2 * 2 ^ e0 : Nat) : Int) := by
      push_cast; ring
    rw [this]; exact int64wrap_natCast _ (by rw [pow_succ] at hpow; omega)
  unfold growCap
  rw [h2, nextPowerOf2_eq n h1 hn]
  split
  · rename_i hgt
    have hlt : 2 * 2 ^ e0 < 2 ^ bitLen 64 (n - 1) := by exact_mod_cast hgt
    rw [max_eq_right (le_of_lt hlt)]
  · rename_i hle
    have hge : 2 ^ bitLen 64 (n - 1) ≤ 2 * 2 ^ e0 := by
      have : ¬ (2 * 2 ^ e0 < 2 ^ bitLen 64 (n - 1)) := fun h => hle (by exact_mod_cast h)
      omega
    rw [max_eq_left hge]

/-- A table that is not full has a slot whose bit is unset, and the walks of
the probe kernel and of `insert` end within `cap` steps. -/
theorem walks_end (hinv : TableInv w hash t ks) (hroom : t.len < t.cap) :
    (∃ p, p < t.cap ∧ occupied w (t.content w).1 p = false) ∧
      (∀ key, ∃ r, probeWalk w t.cap key t.len (t.content w).1 (t.content w).2 t.cap
        (home hash t.seed t.cap key) = some r) ∧
      (∀ key value, ∃ r, insertWalk w (t.cap - 1) key value (t.content w).1 (t.content w).2 t.cap
        (hash key t.seed % 18446744073709551616) = some r) := by
  have hlen := hinv.lenEq
  have hcount : occupiedCount w t.cap (t.content w).1 < t.cap := by
    rw [hinv.holds.count, ← hlen]; exact hroom
  refine ⟨?_, ?_, ?_⟩
  · obtain ⟨d, _, hfree, _⟩ := exists_first_free w t.cap (t.content w).1 0 hcount
    exact ⟨(0 + d) % t.cap, Nat.mod_lt _ (by omega), hfree⟩
  · intro key
    by_cases hk : key ∈ ks
    · exact ⟨_, probeWalk_of_mem hinv.sound hinv.holds key t.len hk⟩
    · obtain ⟨f2, s2, h, _⟩ := probeWalk_of_not_mem hinv.sound hinv.holds key hk (by omega)
      rw [← hlen] at h
      exact ⟨_, h⟩
  · intro key value
    obtain ⟨d, hd, hfree, hocc⟩ := exists_first_free w t.cap (t.content w).1
      (hash key t.seed % 18446744073709551616) hcount
    have h := insertWalk_eq hinv.sound.layout key value d (t.cap - d - 1)
      (hash key t.seed % 18446744073709551616) hocc hfree
    rw [show t.cap - d - 1 + d + 1 = t.cap by omega] at h
    exact ⟨_, h⟩

/-- C11: on every table reachable from a constructor call with a load factor in
`(0, 1)`, a `probe` call with as many values as keys does not run forever (a
walk that made more than `cap` steps would show as `hang`), it returns when the
sizes stay below the limit of `make`, and neither does `grow` run forever; while
the table is not full a slot with an unset bit exists, and every walk of the
probe kernel and of `insert` ends within `cap` steps. -/
theorem probe_terminates (w : Width) (hash : Nat → Nat → Nat) (t : tableBits)
    (ht : Reachable w hash t) (keys : List Nat) (values : List Int) (seed : Nat)
    (hv : keys.length = values.length) (hk : keys.length ≤ 2 ^ 61) :
    t.probe w hash keys values seed ≠ .hang ∧
      (t.cap ≤ 2 ^ 60 → t.len + keys.length ≤ 2 ^ 61 →
        ∃ t2 vs, t.probe w hash keys values seed = .done (t2, vs)) ∧
      (∀ total : Int, t.grow w hash total seed ≠ .hang) ∧
      (t.len < t.cap →
        (∃ p, p < t.cap ∧ occupied w (t.content w).1 p = false) ∧
        (∀ key, ∃ r, probeWalk w t.cap key t.len (t.content w).1 (t.content w).2 t.cap
          (home hash t.seed t.cap key) = some r) ∧
        (∀ key value, ∃ r, insertWalk w (t.cap - 1) key value (t.content w).1 (t.content w).2
          t.cap (hash key t.seed % 18446744073709551616) = some r)) := by
  obtain ⟨ks, hinv, _, _⟩ := reachable_inv ht
  refine ⟨probe_no_hang hinv keys values seed hk, ?_, ?_, walks_end hinv⟩
  · intro hcap hsum
    obtain ⟨t2, h2, _⟩ := probe_done hinv keys values seed (by omega) hcap hsum
    exact ⟨t2, _, h2⟩
  · intro total
    obtain ⟨e, _, _, he62, hpanic, hdone⟩ := grow_spec w hash t ks hinv total seed
    by_cases h62 : e = 62
    · rw [hpanic h62]; exact fun h => Outcome.noConfusion h
    · obtain ⟨t2, h2, _⟩ := hdone (by omega)
      rw [h2]; exact fun h => Outcome.noConfusion h

theorem probe_terminates_witness :
    Reachable .w32 demoHash demoProbed ∧ [20, 30, 10].length = [(0 : Int), 0, 0].length ∧
      [20, 30, 10].length ≤ 2 ^ 61 ∧
      valuesAfter (demoProbed.probe .w32 demoHash [20, 30, 10] [0, 0, 0] 3) = [1, 2, 0] ∧
      (demoProbed.probe .w32 demoHash [20, 30, 10] [0, 0, 0] 3 ≠ .hang ∧
        (demoProbed.cap ≤ 2 ^ 60 → demoProbed.len + [20, 30, 10].length ≤ 2 ^ 61 →
          ∃ t2 vs, demoProbed.probe .w32 demoHash [20, 30, 10] [0, 0, 0] 3 = .done (t2, vs)) ∧
        (∀ total : Int, demoProbed.grow .w32 demoHash total 3 ≠ .hang) ∧
        (demoProbed.len < demoProbed.cap →
          (∃ p, p < demoProbed.cap ∧ occupied .w32 (demoProbed.content .w32).1 p = false) ∧
          (∀ key, ∃ r, probeWalk .w32 demoProbed.cap key demoProbed.len
            (demoProbed.content .w32).1 (demoProbed.content .w32).2 demoProbed.cap
            (home demoHash demoProbed.seed demoProbed.cap key) = some r) ∧
          (∀ key value, ∃ r, insertWalk .w32 (demoProbed.cap - 1) key value
            (demoProbed.content .w32).1 (demoProbed.content .w32).2
            demoProbed.cap (demoHash key demoProbed.seed % 18446744073709551616) = some r))) :=
  ⟨demoProbed_reachable, rfl, by norm_num, by decide!,
    probe_terminates .w32 demoHash demoProbed demoProbed_reachable [20, 30, 10] [0, 0, 0] 3 rfl
      (by norm_num)⟩

end

section

set_option maxRecDepth 100000

variable {w : Width} {hash : Nat → Nat → Nat}

/-- The capacity of a table that satisfies the invariant is a power of two
that is at least the word width. -/
theorem TableInv.cap_pow (hinv : TableInv w hash t ks) :
    ∃ e, t.cap = 2 ^ e ∧ e ≤ 61 ∧ w.bits ≤ t.cap := by
  obtain ⟨e, he, hele⟩ := hinv.sound.layout.pow
  exact ⟨e, he, hele, Nat.le_of_dvd hinv.sound.layout.cap_pos hinv.sound.layout.dvd⟩

/-- The capacity after a `grow` that returned. -/
theorem grow_cap (hinv : TableInv w hash t ks) (needed : Nat) (seed : Nat) (t2 : tableBits)
    (h1 : 1 ≤ needed) (hn : needed ≤ 2 ^ 62)
    (h : t.grow w hash (needed : Int) seed = .done t2) :
    t2.cap = max (2 * t.cap) (2 ^ bitLen 64 (needed - 1)) := by
  obtain ⟨e0, he0, hele0, _⟩ := hinv.cap_pow
  obtain ⟨e, hce, _, he62, hpanic, hdone⟩ := grow_spec w hash t ks hinv (needed : Int) seed
  by_cases h62 : e = 62
  · rw [hpanic h62] at h; cases h
  · obtain ⟨t3, h3, _, hc3, _⟩ := hdone (by omega)
    rw [h3] at h
    injection h with h
    subst h
    rw [he0, growCap_eq_max e0 needed hele0 h1 hn] at hce
    rw [hc3, he0]
    exact_mod_cast hce.symm

/-- C12: in every reachable state `cap` is a power of two that is at least the
word width, and `reset` keeps it.  A `grow(needed)` that returns leaves
`cap = max (2 * cap) p`, with `p` the least power of two that is at least
`needed`.  When `len + len(keys)` exceeds `maxLen`, `probe` runs its loop over
the keys on the table that `grow` has returned; after a `probe` that returns,
`cap` is again such a power of two, is not smaller than before, is at least the
old `len` plus the number of keys, is `max (2 * cap) p` if the table had to grow
and is unchanged otherwise. -/
theorem grow_capacity_rule (w : Width) (hash : Nat → Nat → Nat) (t : tableBits)
    (ht : Reachable w hash t) (keys : List Nat) (values : List Int) (seed : Nat)
    (hk : keys.length ≤ 2 ^ 61) :
    (∃ e, t.cap = 2 ^ e ∧ w.bits ≤ t.cap) ∧ t.reset.cap = t.cap ∧
      (∀ (needed : Nat) (t2 : tableBits), 1 ≤ needed → needed ≤ 2 ^ 62 →
        t.grow w hash (needed : Int) seed = .done t2 →
        ∃ e, needed ≤ 2 ^ e ∧ (∀ e2, needed ≤ 2 ^ e2 → e ≤ e2) ∧
          t2.cap = max (2 * t.cap) (2 ^ e)) ∧
      (t.maxLen < ((t.len + keys.length : Nat) : Int) →
        ∀ t1, t.grow w hash ((t.len + keys.length : Nat) : Int) seed = .done t1 →
          t.probe w hash keys values seed = probeLoop w hash keys keys.length 0 t1 values) ∧
      (∀ t2 vs, t.probe w hash keys values seed = .done (t2, vs) →
        (∃ e, t2.cap = 2 ^ e ∧ w.bits ≤ t2.cap) ∧ t.cap ≤ t2.cap ∧
        t.len + keys.length ≤ t2.cap ∧
        (t.maxLen < ((t.len + keys.length : Nat) : Int) →
          ∃ e, t.len + keys.length ≤ 2 ^ e ∧ (∀ e2, t.len + keys.length ≤ 2 ^ e2 → e ≤ e2) ∧
            t2.cap = max (2 * t.cap) (2 ^ e)) ∧
        (((t.len + keys.length : Nat) : Int) ≤ t.maxLen → t2.cap = t.cap)) := by
  obtain ⟨ks, hinv, hpos, _⟩ := reachable_inv ht
  obtain ⟨e0, he0, hele0, hW⟩ := hinv.cap_pow
  have hlen := hinv.len_le_cap
  have hcap61 := hinv.cap_le
  have hsize : t.len + keys.length ≤ 2 ^ 62 := by omega
  refine ⟨⟨e0, he0, hW⟩, rfl, ?_, ?_, ?_⟩
  · intro needed t2 h1 hn h
    exact ⟨bitLen 64 (needed - 1), le_two_pow_bitLen_pred needed hn,
      fun e2 he2 => bitLen_pred_least needed e2 hn he2, grow_cap hinv needed seed t2 h1 hn h⟩
  · intro hbig t1 h1
    rw [probe_unfold w hash t keys values seed (by omega), if_pos hbig, h1]
    rfl
  · intro t2 vs h
    obtain ⟨hinv2, _, hv, _, hmono⟩ := probe_done_inv hinv keys values vs seed t2 hk h
    obtain ⟨e2, he2, _, hW2⟩ := hinv2.cap_pow
    have hgrow : t.maxLen < ((t.len + keys.length : Nat) : Int) →
        t.len + keys.length ≤ t2.cap ∧
          t2.cap = max (2 * t.cap) (2 ^ bitLen 64 (t.len + keys.length - 1)) := by
      intro hbig
      obtain ⟨e, hce, _, hge, he62, hpanic, hdone⟩ :=
        probe_grow hinv keys values seed hv hsize hbig
      by_cases h62 : e = 62
      · rw [hpanic h62] at h; cases h
      · obtain ⟨t3, h3, _, hc3, _⟩ := hdone (by omega)
        rw [h3] at h
        injection h with h
        injection h with h _
        subst h
        have hml : (0 : Int) ≤ t.maxLen := by
          rw [hinv.maxLenEq]
          exact Int.ceil_nonneg (mul_nonneg (le_of_lt hpos) (Nat.cast_nonneg _))
        have h1 : 1 ≤ t.len + keys.length := by omega
        rw [he0, growCap_eq_max e0 _ hele0 h1 hsize] at hce
        refine ⟨by rw [hc3]; exact hge, ?_⟩
        rw [hc3, he0]
        exact_mod_cast hce.symm
    refine ⟨⟨e2, he2, hW2⟩, hmono, ?_, ?_, ?_⟩
    · by_cases hbig : t.maxLen < ((t.len + keys.length : Nat) : Int)
      · exact (hgrow hbig).1
      · have := hinv.maxLen_le
        omega
    · intro hbig
      exact ⟨bitLen 64 (t.len + keys.length - 1), le_two_pow_bitLen_pred _ hsize,
        fun e2 he2 => bitLen_pred_least _ e2 hsize he2, (hgrow hbig).2⟩
    · intro hfit
      obtain ⟨t3, h3, _, hc3, _⟩ := probe_nogrow hinv keys values seed hv hfit
      rw [h3] at h
      injection h with h
      injection h with h _
      subst h
      exact hc3

theorem grow_capacity_rule_witness :
    Reachable .w32 demoHash demoTable ∧ (List.range 100).length ≤ 2 ^ 61 ∧
      demoTable.cap = 32 ∧
      (Uint32Table.Probe demoHash demoTable (List.range 100) (List.replicate 100 0) 3).isDone =
        true ∧
      (stateAfter demoTable
        (Uint32Table.Probe demoHash demoTable (List.range 100) (List.replicate 100 0) 3)).cap =
        128 ∧
      ((∃ e, demoTable.cap = 2 ^ e ∧ Width.w32.bits ≤ demoTable.cap) ∧
        demoTable.reset.cap = demoTable.cap ∧
        (∀ (needed : Nat) (t2 : tableBits), 1 ≤ needed → needed ≤ 2 ^ 62 →
          demoTable.grow .w32 demoHash (needed : Int) 3 = .done t2 →
          ∃ e, needed ≤ 2 ^ e ∧ (∀ e2, needed ≤ 2 ^ e2 → e ≤ e2) ∧
            t2.cap = max (2 * demoTable.cap) (2 ^ e)) ∧
        (demoTable.maxLen < ((demoTable.len + (List.range 100).length : Nat) : Int) →
          ∀ t1, demoTable.grow .w32 demoHash
              ((demoTable.len + (List.range 100).length : Nat) : Int) 3 = .done t1 →
            demoTable.probe .w32 demoHash (List.range 100) (List.replicate 100 0) 3 =
              probeLoop .w32 demoHash (List.range 100) (List.range 100).length 0 t1
                (List.replicate 100 0)) ∧
        (∀ t2 vs,
          demoTable.probe .w32 demoHash (List.range 100) (List.replicate 100 0) 3 =
            .done (t2, vs) →
          (∃ e, t2.cap = 2 ^ e ∧ Width.w32.bits ≤ t2.cap) ∧ demoTable.cap ≤ t2.cap ∧
          demoTable.len + (List.range 100).length ≤ t2.cap ∧
          (demoTable.maxLen < ((demoTable.len + (List.range 100).length : Nat) : Int) →
            ∃ e, demoTable.len + (List.range 100).length ≤ 2 ^ e ∧
              (∀ e2, demoTable.len + (List.range 100).length ≤ 2 ^ e2 → e ≤ e2) ∧
              t2.cap = max (2 * demoTable.cap) (2 ^ e)) ∧
          (((demoTable.len + (List.range 100).length : Nat) : Int) ≤ demoTable.maxLen →
            t2.cap = demoTable.cap))) :=
  ⟨demoTable_reachable, by simp, rfl, by decide!, by decide!,
    grow_capacity_rule .w32 demoHash demoTable demoTable_reachable (List.range 100)
      (List.replicate 100 0) 3 (by simp)⟩

end

section

set_option maxRecDepth 100000

variable {w : Width} {hash : Nat → Nat → Nat}

/-- Two keys of a sequence have the same number of distinct keys before their
first occurrence only if they are equal. -/
theorem distinctBefore_inj (all : List Nat) (k1 k2 : Nat) (h1 : k1 ∈ all) (h2 : k2 ∈ all) :
    distinctBefore all k1 = distinctBefore all k2 ↔ k1 = k2 := by
  have hmem : ∀ k, k ∈ (assign [] all).1 ↔ k ∈ all := by
    intro k; rw [mem_assign]; simp
  rw [← indexOf_assign _ k1 h1, ← indexOf_assign _ k2 h2]
  exact List.indexOf_inj ((hmem k1).2 h1) ((hmem k2).2 h2)

/-- The identifiers of one call on an empty table, as a function of the keys. -/
theorem assign_nil_ids (keys : List Nat) :
    (assign [] keys).2 = keys.map (fun key => (distinctBefore keys key : Int)) := by
  have h := assign_eq_distinctBefore [] keys
  simpa [assign] using h

/-- C14: `Float32Table.Probe` hands the bit patterns of the keys to the 32-bit
table.  On a fresh table, for every hash function and seed, the call never
hangs, returns when `cap` is at most `2 ^ 60`, and when it has returned two keys
of the call have the same identifier if and only if their bit patterns are
equal; so `[+0.0, -0.0, +0.0]` yields `[0, 1, 0]`, and so do two NaNs with
different payloads in the place of the zeros. -/
theorem float_keys_by_bit_pattern (hash : Nat → Nat → Nat) (t : tableBits)
    (ht : Reachable .w32 hash t) (hfresh : t.len = 0) (keys : List float32)
    (values : List Int) (seed : Nat) (hv : values.length = keys.length)
    (hk : keys.length ≤ 2 ^ 61) :
    Float32Table.Probe hash t keys values seed ≠ .hang ∧
      (t.cap ≤ 2 ^ 60 → ∃ t2 vs, Float32Table.Probe hash t keys values seed = .done (t2, vs)) ∧
      (∀ t2 vs, Float32Table.Probe hash t keys values seed = .done (t2, vs) →
        vs.length = keys.length ∧
        ∀ (i j : Nat) (ki kj : float32), keys[i]? = some ki → keys[j]? = some kj →
          (vs[i]? = vs[j]? ↔ ki.bits = kj.bits)) ∧
      (t.cap ≤ 2 ^ 60 →
        (∃ t2, Float32Table.Probe hash t [posZero, negZero, posZero] [0, 0, 0] seed =
          .done (t2, [0, 1, 0])) ∧
        (∃ t2, Float32Table.Probe hash t [nanA, nanB, nanA] [0, 0, 0] seed =
          .done (t2, [0, 1, 0]))) := by
  have hinv := fresh_inv ht hfresh
  have hlen : (Float32ToUint32 keys).length = keys.length := by simp [Float32ToUint32]
  refine ⟨probe_no_hang hinv _ values seed (by rw [hlen]; exact hk), ?_, ?_, ?_⟩
  · intro hcap
    obtain ⟨t2, h2, _⟩ := probe_done hinv (Float32ToUint32 keys) values seed (by omega) hcap
      (by rw [hfresh, hlen]; omega)
    exact ⟨t2, _, h2⟩
  · intro t2 vs h
    obtain ⟨_, ho, _, _, _⟩ := probe_done_inv hinv (Float32ToUint32 keys) values vs seed t2
      (by rw [hlen]; exact hk) h
    have hdrop : values.drop (Float32ToUint32 keys).length = [] := by
      apply List.drop_eq_nil_of_le; omega
    rw [hdrop, List.append_nil, assign_nil_ids] at ho
    subst ho
    refine ⟨by simp [Float32ToUint32], ?_⟩
    intro i j ki kj hi hj
    have hbi : (Float32ToUint32 keys)[i]? = some ki.bits := by
      simp [Float32ToUint32, hi]
    have hbj : (Float32ToUint32 keys)[j]? = some kj.bits := by
      simp [Float32ToUint32, hj]
    rw [List.getElem?_map, List.getElem?_map, hbi, hbj]
    simp only [Option.map_some', Option.some.injEq, Nat.cast_inj]
    exact distinctBefore_inj _ _ _ (List.getElem?_mem hbi) (List.getElem?_mem hbj)
  · intro hcap
    constructor
    · obtain ⟨t2, h2, _⟩ := probe_done hinv (Float32ToUint32 [posZero, negZero, posZero])
        [0, 0, 0] seed (by simp [Float32ToUint32]) hcap (by rw [hfresh]; simp [Float32ToUint32])
      exact ⟨t2, h2⟩
    · obtain ⟨t2, h2, _⟩ := probe_done hinv (Float32ToUint32 [nanA, nanB, nanA])
        [0, 0, 0] seed (by simp [Float32ToUint32]) hcap (by rw [hfresh]; simp [Float32ToUint32])
      exact ⟨t2, h2⟩

theorem float_keys_by_bit_pattern_witness :
    Reachable .w32 demoHash demoTable ∧ demoTable.len = 0 ∧
      [(0 : Int), 0, 0].length = [posZero, negZero, posZero].length ∧
      [posZero, negZero, posZero].length ≤ 2 ^ 61 ∧
      NewFloat32Table 32 (3 / 4) 7 = some demoTable ∧
      valuesAfter (Float32Table.Probe demoHash demoTable [posZero, negZero, posZero] [0, 0, 0] 1) =
        [0, 1, 0] ∧
      (Float32Table.Probe demoHash demoTable [posZero, negZero, posZero] [0, 0, 0] 1 ≠ .hang ∧
        (demoTable.cap ≤ 2 ^ 60 → ∃ t2 vs,
          Float32Table.Probe demoHash demoTable [posZero, negZero, posZero] [0, 0, 0] 1 =
            .done (t2, vs)) ∧
        (∀ t2 vs,
          Float32Table.Probe demoHash demoTable [posZero, negZero, posZero] [0, 0, 0] 1 =
            .done (t2, vs) →
          vs.length = [posZero, negZero, posZero].length ∧
          ∀ (i j : Nat) (ki kj : float32), [posZero, negZero, posZero][i]? = some ki →
            [posZero, negZero, posZero][j]? = some kj →
            (vs[i]? = vs[j]? ↔ ki.bits = kj.bits)) ∧
        (demoTable.cap ≤ 2 ^ 60 →
          (∃ t2, Float32Table.Probe demoHash demoTable [posZero, negZero, posZero] [0, 0, 0] 1 =
            .done (t2, [0, 1, 0])) ∧
          (∃ t2, Float32Table.Probe demoHash demoTable [nanA, nanB, nanA] [0, 0, 0] 1 =
            .done (t2, [0, 1, 0])))) :=
  ⟨demoTable_reachable, rfl, rfl, by norm_num, by decide!, by decide!,
    float_keys_by_bit_pattern demoHash demoTable demoTable_reachable rfl
      [posZero, negZero, posZero] [0, 0, 0] 1 rfl (by norm_num)⟩

end

section

set_option maxRecDepth 100000

variable {w : Width} {hash : Nat → Nat → Nat}

/-- The walk for the key of an occupied slot returns the identifier stored in
that slot and changes nothing. -/
theorem probeWalk_of_occupied (hinv : TableInv w hash t ks) (p : Nat) (hp : p < t.cap)
    (hocc : occupied w (t.content w).1 p = true) :
    probeWalk w t.cap (keyAt (t.content w).2 p) t.len (t.content w).1 (t.content w).2 t.cap
        (home hash t.seed t.cap (keyAt (t.content w).2 p)) =
      some ((t.content w).1, (t.content w).2, t.len, valAt (t.content w).2 p) := by
  have hhas : Has w t.cap (t.content w).1 (t.content w).2 (keyAt (t.content w).2 p)
      (valAt (t.content w).2 p) := ⟨p, hp, hocc, rfl, rfl⟩
  have hmem : keyAt (t.content w).2 p ∈ ks := List.getElem?_mem (hinv.holds.stored _ _ hhas)
  rw [probeWalk_of_mem hinv.sound hinv.holds _ t.len hmem, hinv.holds.index hhas]

/-- C15: in every reachable state, for every occupied slot `p` holding the key
`k`, all slots from the home slot `hash(k, seed) & (cap-1)` of `k` up to `p`,
stepping by one modulo `cap`, have their occupancy bit set, and the walk for `k`
ends at `p`: it returns the identifier stored there and changes nothing.  A
`grow` that returns leaves a table with the same property. -/
theorem chain_invariant (w : Width) (hash : Nat → Nat → Nat) (t : tableBits)
    (ht : Reachable w hash t) :
    (∀ p, p < t.cap → occupied w (t.content w).1 p = true →
      (∀ j, j ≤ (p + t.cap - home hash t.seed t.cap (keyAt (t.content w).2 p)) % t.cap →
        occupied w (t.content w).1
          ((home hash t.seed t.cap (keyAt (t.content w).2 p) + j) % t.cap) = true) ∧
      (home hash t.seed t.cap (keyAt (t.content w).2 p) +
          (p + t.cap - home hash t.seed t.cap (keyAt (t.content w).2 p)) % t.cap) % t.cap = p ∧
      home hash t.seed t.cap (keyAt (t.content w).2 p) =
        (hash (keyAt (t.content w).2 p) t.seed % 18446744073709551616) &&& (t.cap - 1) ∧
      probeWalk w t.cap (keyAt (t.content w).2 p) t.len (t.content w).1 (t.content w).2 t.cap
          (home hash t.seed t.cap (keyAt (t.content w).2 p)) =
        some ((t.content w).1, (t.content w).2, t.len, valAt (t.content w).2 p)) ∧
      (∀ (total : Int) (seed : Nat) (t2 : tableBits), t.grow w hash total seed = .done t2 →
        Chained w hash t2.seed t2.cap (t2.content w).1 (t2.content w).2) := by
  obtain ⟨ks, hinv, _, _⟩ := reachable_inv ht
  refine ⟨?_, ?_⟩
  · intro p hp hocc
    have hc := hinv.sound.layout.cap_pos
    have hh := home_lt hash t.seed t.cap (keyAt (t.content w).2 p) hc
    refine ⟨hinv.sound.chained p hp hocc, ?_, ?_, probeWalk_of_occupied hinv p hp hocc⟩
    · exact add_sub_mod_self _ _ _ hh hp
    · rw [hinv.sound.layout.mask_mod]; rfl
  · intro total seed t2 h
    exact (grow_done_inv hinv total seed t2 h).1.sound.chained

theorem chain_invariant_witness :
    Reachable .w32 demoHash demoProbed ∧
      occupied .w32 (demoProbed.content .w32).1 13 = true ∧
      keyAt (demoProbed.content .w32).2 13 = 10 ∧
      ((∀ p, p < demoProbed.cap → occupied .w32 (demoProbed.content .w32).1 p = true →
        (∀ j, j ≤ (p + demoProbed.cap -
              home demoHash demoProbed.seed demoProbed.cap
                (keyAt (demoProbed.content .w32).2 p)) % demoProbed.cap →
          occupied .w32 (demoProbed.content .w32).1
            ((home demoHash demoProbed.seed demoProbed.cap
              (keyAt (demoProbed.content .w32).2 p) + j) % demoProbed.cap) = true) ∧
        (home demoHash demoProbed.seed demoProbed.cap (keyAt (demoProbed.content .w32).2 p) +
            (p + demoProbed.cap - home demoHash demoProbed.seed demoProbed.cap
              (keyAt (demoProbed.content .w32).2 p)) % demoProbed.cap) % demoProbed.cap = p ∧
        home demoHash demoProbed.seed demoProbed.cap (keyAt (demoProbed.content .w32).2 p) =
          (demoHash (keyAt (demoProbed.content .w32).2 p) demoProbed.seed %
            18446744073709551616) &&& (demoProbed.cap - 1) ∧
        probeWalk .w32 demoProbed.cap (keyAt (demoProbed.content .w32).2 p) demoProbed.len
            (demoProbed.content .w32).1 (demoProbed.content .w32).2 demoProbed.cap
            (home demoHash demoProbed.seed demoProbed.cap
              (keyAt (demoProbed.content .w32).2 p)) =
          some ((demoProbed.content .w32).1, (demoProbed.content .w32).2, demoProbed.len,
            valAt (demoProbed.content .w32).2 p)) ∧
        (∀ (total : Int) (seed : Nat) (t2 : tableBits),
          demoProbed.grow .w32 demoHash total seed = .done t2 →
          Chained .w32 demoHash t2.seed t2.cap (t2.content .w32).1 (t2.content .w32).2)) :=
  ⟨demoProbed_reachable, by decide!, by decide!,
    chain_invariant .w32 demoHash demoProbed demoProbed_reachable⟩

/-- C16: in every reachable state no two distinct occupied slots hold the same
key, and a `grow` that returns leaves a table with the same property: the pairs
it hands to `insert` are the pairs of the occupied slots, whose keys are
pairwise distinct. -/
theorem occupied_keys_unique (w : Width) (hash : Nat → Nat → Nat) (t : tableBits)
    (ht : Reachable w hash t) :
    (∀ p q, p < t.cap → q < t.cap → occupied w (t.content w).1 p = true →
      occupied w (t.content w).1 q = true →
      keyAt (t.content w).2 p = keyAt (t.content w).2 q → p = q) ∧
      (((occupiedSlots w t.cap (t.content w).1).map (pairAt (t.content w).2)).map
        Prod.fst).Nodup ∧
      (∀ (total : Int) (seed : Nat) (t2 : tableBits), t.grow w hash total seed = .done t2 →
        ∀ p q, p < t2.cap → q < t2.cap → occupied w (t2.content w).1 p = true →
          occupied w (t2.content w).1 q = true →
          keyAt (t2.content w).2 p = keyAt (t2.content w).2 q → p = q) := by
  obtain ⟨ks, hinv, _, _⟩ := reachable_inv ht
  refine ⟨hinv.sound.unique, nodup_keys_of_unique w _ _ _ hinv.sound.unique, ?_⟩
  intro total seed t2 h
  exact (grow_done_inv hinv total seed t2 h).1.sound.unique

theorem occupied_keys_unique_witness :
    Reachable .w32 demoHash demoProbed ∧
      (demoTable.insert .w32 demoHash [10, 0, 10, 1]).map
          (fun t2 => (occupied .w32 (t2.content .w32).1 13, keyAt (t2.content .w32).2 13,
            occupied .w32 (t2.content .w32).1 14, keyAt (t2.content .w32).2 14)) =
        some (true, 10, true, 10) ∧
      ((∀ p q, p < demoProbed.cap → q < demoProbed.cap →
        occupied .w32 (demoProbed.content .w32).1 p = true →
        occupied .w32 (demoProbed.content .w32).1 q = true →
        keyAt (demoProbed.content .w32).2 p = keyAt (demoProbed.content .w32).2 q → p = q) ∧
        (((occupiedSlots .w32 demoProbed.cap (demoProbed.content .w32).1).map
          (pairAt (demoProbed.content .w32).2)).map Prod.fst).Nodup ∧
        (∀ (total : Int) (seed : Nat) (t2 : tableBits),
          demoProbed.grow .w32 demoHash total seed = .done t2 →
          ∀ p q, p < t2.cap → q < t2.cap → occupied .w32 (t2.content .w32).1 p = true →
            occupied .w32 (t2.content .w32).1 q = true →
            keyAt (t2.content .w32).2 p = keyAt (t2.content .w32).2 q → p = q)) :=
  ⟨demoProbed_reachable, by decide!,
    occupied_keys_unique .w32 demoHash demoProbed demoProbed_reachable⟩

end

section

set_option maxRecDepth 100000

variable {w : Width} {hash : Nat → Nat → Nat} {seed cap : Nat} {flags slots : List Nat}

theorem filter_step_perm (occ : Nat → Bool) (pr : Nat → Nat × Nat) (p0 : Nat) (kv : Nat × Nat)
    (hfree : occ p0 = false) :
    ∀ l : List Nat, l.Nodup →
      List.Perm
        ((l.filter (fun p => occ p || decide (p = p0))).map (fun p => if p = p0 then kv else pr p))
        ((if p0 ∈ l then [kv] else []) ++ (l.filter occ).map pr) := by
  intro l
  induction l with
  | nil => intro _; simp
  | cons a l ih =>
    intro hnd
    rw [List.nodup_cons] at hnd
    have ih := ih hnd.2
    by_cases ha : a = p0
    · subst ha
      have hnot : ¬ a ∈ l := hnd.1
      rw [if_neg hnot, List.nil_append] at ih
      simp only [List.filter_cons, hfree, Bool.false_or, decide_True, if_true, List.map_cons,
        List.mem_cons, true_or, List.singleton_append, Bool.false_eq_true, if_false]
      exact List.Perm.cons _ ih
    · have hmem : (p0 ∈ a :: l) ↔ p0 ∈ l := by
        simp only [List.mem_cons]
        constructor
        · rintro (h | h)
          · exact absurd h.symm ha
          · exact h
        · exact Or.inr
      have hdec : decide (a = p0) = false := by simp [ha]
      simp only [hmem, List.filter_cons, hdec, Bool.or_false]
      by_cases hocc : occ a = true
      · simp only [hocc, if_true, List.map_cons, if_neg ha]
        exact (List.Perm.cons _ ih).trans List.perm_middle.symm
      · simp only [hocc, Bool.false_eq_true, if_false]
        exact ih

/-- Storing a pair in a free slot adds this pair to the pairs of the occupied
slots. -/
theorem step_pairs_perm (h : Layout w cap flags slots) {p0 : Nat} (hp : p0 < cap)
    (hfree : occupied w flags p0 = false) (key value : Nat) :
    List.Perm
      ((occupiedSlots w cap (setFlag w flags p0)).map (pairAt (setSlot slots p0 key value)))
      ((key, value) :: (occupiedSlots w cap flags).map (pairAt slots)) := by
  have h1 : occupiedSlots w cap (setFlag w flags p0) =
      (List.range cap).filter (fun p => occupied w flags p || decide (p = p0)) := by
    unfold occupiedSlots
    apply List.filter_congr
    intro p _
    exact occupied_setFlag w flags p0 p (h.flag_index_lt hp)
  have h2 : ∀ p, pairAt (setSlot slots p0 key value) p =
      if p = p0 then (key, value) else pairAt slots p := by
    intro p
    unfold pairAt
    rw [keyAt_setSlot _ _ _ _ _ (h.slot_index_lt hp), valAt_setSlot _ _ _ _ _ (h.slot_index_lt hp)]
    by_cases hpp : p = p0
    · simp [hpp]
    · simp [hpp]
  rw [h1, List.map_congr_left (fun p _ => h2 p)]
  have := filter_step_perm (occupied w flags) (pairAt slots) p0 (key, value) hfree
    (List.range cap) (List.nodup_range cap)
  rw [if_pos (List.mem_range.2 hp)] at this
  exact this

/-- Inserting pairs into a table with enough free slots stores these pairs,
whatever their keys, next to the pairs that were there. -/
theorem insertLoop_pairs (ps : List (Nat × Nat)) :
    ∀ (flags slots : List Nat), Layout w cap flags slots →
      occupiedCount w cap flags + ps.length ≤ cap →
      ∃ f2 s2,
        insertLoop w hash seed (cap - 1) cap flags slots (flat ps) = some (f2, s2) ∧
        Layout w cap f2 s2 ∧
        occupiedCount w cap f2 = occupiedCount w cap flags + ps.length ∧
        List.Perm ((occupiedSlots w cap f2).map (pairAt s2))
          (ps ++ (occupiedSlots w cap flags).map (pairAt slots)) := by
  induction ps with
  | nil =>
    intro flags slots hl _
    exact ⟨flags, slots, by simp [flat, insertLoop], hl, by simp, by simp⟩
  | cons kv ps ih =>
    intro flags slots hl hroom
    obtain ⟨key, value⟩ := kv
    have hc := hl.cap_pos
    simp only [List.length_cons] at hroom
    obtain ⟨d, hd, hfree, hocc⟩ := exists_first_free w cap flags
      (hash key seed % 18446744073709551616) (by omega)
    have hwalk := insertWalk_eq hl key value d (cap - d - 1)
      (hash key seed % 18446744073709551616) hocc hfree
    rw [show cap - d - 1 + d + 1 = cap by omega] at hwalk
    have hp0 : (hash key seed % 18446744073709551616 + d) % cap < cap := Nat.mod_lt _ hc
    have hl1 := hl.step_layout ((hash key seed % 18446744073709551616 + d) % cap) key value
    have hcount := step_count hl hp0 hfree
    have hperm := step_pairs_perm hl hp0 hfree key value
    obtain ⟨f2, s2, e2, hl2, hc2, hp2⟩ := ih _ _ hl1 (by rw [hcount]; omega)
    refine ⟨f2, s2, ?_, hl2, by rw [hc2, hcount, List.length_cons]; omega, ?_⟩
    · simp only [flat, insertLoop]
      rw [hwalk]
      exact e2
    · refine hp2.trans ?_
      refine ((List.perm_append_left_iff ps).2 hperm).trans ?_
      simp only [List.cons_append]
      exact List.perm_middle

end

section

set_option maxRecDepth 100000

variable {w : Width} {hash : Nat → Nat → Nat}

/-- A zeroed bitmap has no occupied slot. -/
theorem occupiedSlots_zero (w : Width) (e : Nat) (he : e ≤ 61) (hdvd : w.bits ∣ 2 ^ e) :
    occupiedSlots w (2 ^ e) (List.replicate (2 ^ e / w.bits) 0) = [] := by
  obtain ⟨_, hh0⟩ := zero_inv w (fun _ _ => 0) 0 e he hdvd
  apply List.length_eq_zero.1
  rw [length_occupiedSlots, hh0.count]
  rfl

/-- Re-inserting the pairs of any well-formed table into a zeroed table that is
not smaller stores the same pairs, each once. -/
theorem rehash_pairs (w : Width) (hash : Nat → Nat → Nat) (t : tableBits)
    (hl : Layout w t.cap (t.content w).1 (t.content w).2) (e : Nat) (he : e ≤ 61)
    (hcap : t.cap ≤ 2 ^ e) (len0 : Nat) (maxLen0 : Int) (maxLoad0 : ℚ) (seed0 : Nat) :
    ∃ t2, growWords w hash (t.content w).2 (t.content w).1 0
        { len := len0, cap := 2 ^ e, maxLen := maxLen0, maxLoad := maxLoad0, seed := seed0,
          table := List.replicate (2 ^ e / w.bits + 2 * 2 ^ e) 0 } = some t2 ∧
      Layout w t2.cap (t2.content w).1 (t2.content w).2 ∧
      List.Perm ((occupiedSlots w t2.cap (t2.content w).1).map (pairAt (t2.content w).2))
        ((occupiedSlots w t.cap (t.content w).1).map (pairAt (t.content w).2)) ∧
      t2.cap = 2 ^ e ∧ t2.len = len0 ∧ t2.seed = seed0 ∧ t2.maxLoad = maxLoad0 ∧
      t2.maxLen = maxLen0 := by
  have hW := w.bits_pos
  have hdvd := hl.cap_dvd_of_le e hcap
  obtain ⟨hs0, _⟩ := zero_inv w hash seed0 e he hdvd
  have hsp : Splits w
      { len := len0, cap := 2 ^ e, maxLen := maxLen0, maxLoad := maxLoad0, seed := seed0,
        table := List.replicate (2 ^ e / w.bits + 2 * 2 ^ e) 0 } := by
    unfold Splits; simp
  have hwords := growWords_eq w hash (t.content w).2 (t.content w).1 0 _ hl.wordsLt (by
    rw [Nat.zero_add, hl.flagsLen, Nat.mul_div_cancel' hl.dvd, hl.slotsLen]) hsp
  rw [hwords, wordsSlots_eq_occupiedSlots w t.cap _ hl.flagsLen hl.dvd, insert_flat]
  rw [content_replicate w _ (2 ^ e) rfl rfl]
  simp only []
  rw [hs0.layout.mask_eq]
  have hzero : occupiedCount w (2 ^ e) (List.replicate (2 ^ e / w.bits) 0) = 0 := by
    rw [← length_occupiedSlots, occupiedSlots_zero w e he hdvd]; rfl
  obtain ⟨f2, s2, e2, hl2, _, hp2⟩ := @insertLoop_pairs w hash seed0 (2 ^ e)
    ((occupiedSlots w t.cap (t.content w).1).map (pairAt (t.content w).2))
    _ _ hs0.layout (by
      rw [hzero, List.length_map, length_occupiedSlots]
      have := countP_range_le t.cap (occupied w (t.content w).1)
      unfold occupiedCount
      omega)
  rw [e2]
  simp only [Option.map_some']
  have hc := content_rebuild w
    { len := len0, cap := 2 ^ e, maxLen := maxLen0, maxLoad := maxLoad0, seed := seed0,
      table := List.replicate (2 ^ e / w.bits + 2 * 2 ^ e) 0 } f2 s2 (by
    rw [hl2.flagsLen])
  simp only [] at hc
  refine ⟨_, rfl, ?_, ?_, rfl, rfl, rfl, rfl, rfl⟩
  · rw [hc]; exact hl2
  · rw [hc]
    rw [occupiedSlots_zero w e he hdvd, List.map_nil, List.append_nil] at hp2
    exact hp2

/-- What `grow` does to any well-formed table: it panics in `make`, or returns
a table of the computed capacity with the same pairs. -/
theorem grow_pairs (w : Width) (hash : Nat → Nat → Nat) (t : tableBits)
    (hl : Layout w t.cap (t.content w).1 (t.content w).2) (total : Int) (seed : Nat) :
    ∃ e, growCap t.cap total = ((2 ^ e : Nat) : Int) ∧ 2 * t.cap ≤ 2 ^ e ∧ e ≤ 62 ∧
      (e = 62 → t.grow w hash total seed = .panic t) ∧
      (e ≤ 61 → ∃ t2, t.grow w hash total seed = .done t2 ∧
        Layout w t2.cap (t2.content w).1 (t2.content w).2 ∧
        List.Perm ((occupiedSlots w t2.cap (t2.content w).1).map (pairAt (t2.content w).2))
          ((occupiedSlots w t.cap (t.content w).1).map (pairAt (t.content w).2)) ∧
        t2.cap = 2 ^ e ∧ t2.len = t.len ∧ t2.seed = seed ∧ t2.maxLoad = t.maxLoad) := by
  obtain ⟨e0, he0, he0le⟩ := hl.pow
  obtain ⟨e, hce, hlo, hhi⟩ := growCap_pow e0 he0le total
  rw [← he0] at hce
  have hle : 2 * t.cap ≤ 2 ^ e := by
    rw [he0, ← pow_succ']
    exact Nat.pow_le_pow_right (by norm_num) hlo
  refine ⟨e, hce, hle, hhi, ?_, ?_⟩
  · intro h62
    rw [grow_unfold, hce, h62]
    have : (((2 : Nat) ^ 62 : Nat) : Int) = 4611686018427387904 := by norm_num
    rw [this, init_overflow]
    rfl
  · intro h61
    rw [grow_unfold, hce, init_eq w (2 ^ e) (Nat.pow_le_pow_right (by norm_num) h61)]
    rw [tableBits.rehash]
    obtain ⟨t2, hg, hl2, hp2, h1, h2, h3, h4, _⟩ := rehash_pairs w hash t hl e h61 (by omega)
      t.len ⌈t.maxLoad * ((2 ^ e : Nat) : ℚ)⌉ t.maxLoad seed
    rw [hg]
    exact ⟨t2, rfl, hl2, hp2, h1, h2, h3, h4⟩

end

section

set_option maxRecDepth 100000

variable {w : Width} {hash : Nat → Nat → Nat}

theorem occupiedSlots_sorted (w : Width) (cap : Nat) (flags : List Nat) :
    List.Pairwise (fun a b => a < b) (occupiedSlots w cap flags) := by
  unfold occupiedSlots
  exact List.Pairwise.filter _ (List.pairwise_lt_range cap)

theorem demoBits_layout :
    Layout .w32 demoBits.cap (demoBits.content .w32).1 (demoBits.content .w32).2 where
  pow := ⟨7, rfl, by norm_num⟩
  dvd := by decide
  flagsLen := by decide!
  slotsLen := by decide!
  wordsLt := by decide!

/-- C17: for every well-formed table state, whatever its bitmap, the slots that
`grow` hands to `insert` are the slots whose occupancy bit is set, each once and
in ascending order: the bit walk over the bitmap words does to every table what
one `insert` of the pairs of these slots does.  Hence a `grow` that returns
leaves a table whose occupied slots hold the same pairs, each as often as
before, and the same `len`; `grow` never hangs, and it returns when the new
capacity is at most `2 ^ 61`. -/
theorem grow_reinserts_occupied (w : Width) (hash : Nat → Nat → Nat) (t : tableBits)
    (hl : Layout w t.cap (t.content w).1 (t.content w).2) :
    List.Pairwise (fun a b => a < b) (occupiedSlots w t.cap (t.content w).1) ∧
      (∀ p, p ∈ occupiedSlots w t.cap (t.content w).1 ↔
        p < t.cap ∧ occupied w (t.content w).1 p = true) ∧
      (∀ tmp : tableBits, Splits w tmp →
        growWords w hash (t.content w).2 (t.content w).1 0 tmp =
          tmp.insert w hash
            (flat ((occupiedSlots w t.cap (t.content w).1).map (pairAt (t.content w).2)))) ∧
      (∀ (total : Int) (seed : Nat), t.grow w hash total seed ≠ .hang) ∧
      (∀ (total : Int) (seed : Nat) (t2 : tableBits), t.grow w hash total seed = .done t2 →
        List.Perm ((occupiedSlots w t2.cap (t2.content w).1).map (pairAt (t2.content w).2))
          ((occupiedSlots w t.cap (t.content w).1).map (pairAt (t.content w).2)) ∧
        t2.len = t.len) ∧
      (∀ (needed : Nat) (seed : Nat), t.cap ≤ 2 ^ 60 → needed ≤ 2 ^ 61 →
        ∃ t2, t.grow w hash (needed : Int) seed = .done t2) := by
  refine ⟨occupiedSlots_sorted w _ _, mem_occupiedSlots w _ _, ?_, ?_, ?_, ?_⟩
  · intro tmp hsp
    rw [growWords_eq w hash (t.content w).2 (t.content w).1 0 tmp hl.wordsLt (by
      rw [Nat.zero_add, hl.flagsLen, Nat.mul_div_cancel' hl.dvd, hl.slotsLen]) hsp,
      wordsSlots_eq_occupiedSlots w t.cap _ hl.flagsLen hl.dvd]
  · intro total seed
    obtain ⟨e, _, _, he62, hpanic, hdone⟩ := grow_pairs w hash t hl total seed
    by_cases h62 : e = 62
    · rw [hpanic h62]; exact fun h => Outcome.noConfusion h
    · obtain ⟨t2, h2, _⟩ := hdone (by omega)
      rw [h2]; exact fun h => Outcome.noConfusion h
  · intro total seed t2 h
    obtain ⟨e, _, _, he62, hpanic, hdone⟩ := grow_pairs w hash t hl total seed
    by_cases h62 : e = 62
    · rw [hpanic h62] at h; cases h
    · obtain ⟨t3, h3, _, hp3, _, hl3, _⟩ := hdone (by omega)
      rw [h3] at h
      injection h with h
      subst h
      exact ⟨hp3, hl3⟩
  · intro needed seed hcap hn
    obtain ⟨e0, he0, _⟩ := hl.pow
    have he60 : e0 ≤ 60 := by
      rw [he0] at hcap
      exact (Nat.pow_le_pow_iff_right (by norm_num)).1 hcap
    obtain ⟨e, hce, _, _, _, hdone⟩ := grow_pairs w hash t hl (needed : Int) seed
    have hle := growCap_le e0 needed he60 hn
    rw [← he0, hce] at hle
    have hle2 : 2 ^ e ≤ 2 ^ 61 := by exact_mod_cast hle
    have he61 : e ≤ 61 := (Nat.pow_le_pow_iff_right (by norm_num)).1 hle2
    obtain ⟨t2, h2, _⟩ := hdone he61
    exact ⟨t2, h2⟩

theorem grow_reinserts_occupied_witness :
    occupiedSlots .w32 demoBits.cap (demoBits.content .w32).1 =
        List.range 32 ++ 63 :: (List.range' 80 16 ++ [96, 98]) ∧
      (demoBits.grow .w32 demoHash 52 9).isDone = true ∧
      (grownTable demoBits (demoBits.grow .w32 demoHash 52 9)).cap = 256 ∧
      bitmapOnes .w32 (grownTable demoBits (demoBits.grow .w32 demoHash 52 9)) = 51 ∧
      (List.Pairwise (fun a b => a < b)
          (occupiedSlots .w32 demoBits.cap (demoBits.content .w32).1) ∧
        (∀ p, p ∈ occupiedSlots .w32 demoBits.cap (demoBits.content .w32).1 ↔
          p < demoBits.cap ∧ occupied .w32 (demoBits.content .w32).1 p = true) ∧
        (∀ tmp : tableBits, Splits .w32 tmp →
          growWords .w32 demoHash (demoBits.content .w32).2 (demoBits.content .w32).1 0 tmp =
            tmp.insert .w32 demoHash
              (flat ((occupiedSlots .w32 demoBits.cap (demoBits.content .w32).1).map
                (pairAt (demoBits.content .w32).2)))) ∧
        (∀ (total : Int) (seed : Nat), demoBits.grow .w32 demoHash total seed ≠ .hang) ∧
        (∀ (total : Int) (seed : Nat) (t2 : tableBits),
          demoBits.grow .w32 demoHash total seed = .done t2 →
          List.Perm
            ((occupiedSlots .w32 t2.cap (t2.content .w32).1).map (pairAt (t2.content .w32).2))
            ((occupiedSlots .w32 demoBits.cap (demoBits.content .w32).1).map
              (pairAt (demoBits.content .w32).2)) ∧
          t2.len = demoBits.len) ∧
        (∀ (needed : Nat) (seed : Nat), demoBits.cap ≤ 2 ^ 60 → needed ≤ 2 ^ 61 →
          ∃ t2, demoBits.grow .w32 demoHash (needed : Int) seed = .done t2)) :=
  ⟨by decide!, by decide!, by decide!, by decide!,
    grow_reinserts_occupied .w32 demoHash demoBits demoBits_layout⟩

end

section

set_option maxRecDepth 100000

variable {w : Width} {hash : Nat → Nat → Nat}

/-- In a table that holds as many keys as it has slots every occupancy bit is
set. -/
theorem TableInv.all_occupied (hinv : TableInv w hash t ks) (hfull : t.len = t.cap) :
    ∀ p, p < t.cap → occupied w (t.content w).1 p = true := by
  have hcount : occupiedCount w t.cap (t.content w).1 = (List.range t.cap).length := by
    rw [hinv.holds.count, ← hinv.lenEq, hfull, List.length_range]
  unfold occupiedCount at hcount
  intro p hp
  exact (List.countP_eq_length.1 hcount) p (List.mem_range.2 hp)

/-- C18, counterexample: a table made with load factor 1 is saturated by the 32
keys `0 .. 31` (`len = cap = 32`, every occupancy bit set), and the following
probe of the key 100, which is not in the table, returns: it grows the table to
capacity 64 and gives the key the identifier 32. -/
theorem saturated_probe_returns :
    NewUint32Table 32 1 7 = some demoUnit ∧
      Uint32Table.Probe demoHash demoUnit (List.range 32) (List.replicate 32 0) 1 =
        .done (demoSaturated, (List.range 32).map (fun n => (n : Int))) ∧
      demoSaturated.len = 32 ∧ demoSaturated.cap = 32 ∧
      (demoSaturated.content .w32).1 = [4294967295] ∧
      (∀ p, p < 32 → keyAt (demoSaturated.content .w32).2 p ≠ 100) ∧
      valuesAfter (Uint32Table.Probe demoHash demoSaturated [100] [0] 2) = [32] ∧
      (Uint32Table.Probe demoHash demoSaturated [100] [0] 2).isDone = true ∧
      (stateAfter demoSaturated (Uint32Table.Probe demoHash demoSaturated [100] [0] 2)).cap =
        64 := by
  refine ⟨by decide!, by decide!, by decide!, by decide!, by decide!, by decide!, by decide!,
    by decide!, by decide!⟩

/-- C18, amended: a table made with load factor 1 has `maxLen = cap`, and
probing `cap` distinct keys into it saturates it: no growth, `len = cap`, every
occupancy bit set.  But no sequence of `probe` calls on it runs forever, and
every further `probe` with at least one key on a saturated table finds
`len + len(keys) > maxLen` and grows the table to at least twice its capacity
before it walks the slots. -/
theorem unit_load_saturates_and_grows (w : Width) (hash : Nat → Nat → Nat) (c : Int)
    (seed : Nat) (t : tableBits) (hc : c < 2 ^ 63) (hmake : makeTableBits w c 1 seed = some t)
    (calls : List Call)
    (hcalls : ∀ c, c ∈ calls → c.keys.length ≤ c.values.length ∧ c.keys.length ≤ 2 ^ 61) :
    t.maxLen = (t.cap : Int) ∧
      (∀ (keys : List Nat) (values : List Int) (seed2 : Nat), keys.Nodup →
        keys.length = t.cap → values.length = t.cap →
        ∃ t2 vs, t.probe w hash keys values seed2 = .done (t2, vs) ∧ t2.cap = t.cap ∧
          t2.len = t2.cap ∧ bitmapOnes w t2 = t2.cap ∧
          ∀ p, p < t2.cap → occupied w (t2.content w).1 p = true) ∧
      runProbes w hash t calls ≠ .hang ∧
      (∀ t2 outs, runProbes w hash t calls = .done (t2, outs) →
        ∀ (keys : List Nat) (values : List Int) (seed2 : Nat), keys ≠ [] →
          keys.length ≤ 2 ^ 61 → t2.len = t2.cap →
          t2.probe w hash keys values seed2 ≠ .hang ∧
          ∀ t3 vs, t2.probe w hash keys values seed2 = .done (t3, vs) →
            2 * t2.cap ≤ t3.cap) := by
  obtain ⟨hinv, hload, hlen0, _⟩ := makeTableBits_inv w hash c 1 seed t hc (le_refl _) hmake
  have hml : t.maxLen = (t.cap : Int) := by
    rw [hinv.maxLenEq, hload, one_mul]
    exact Int.ceil_natCast _
  refine ⟨hml, ?_, ?_, ?_⟩
  · intro keys values seed2 hnd hkl hvl
    obtain ⟨t2, h2, hinv2, hc2, _⟩ := probe_nogrow hinv keys values seed2 (by omega)
      (by rw [hml, hlen0, hkl, Nat.zero_add])
    have hl2 : t2.len = t2.cap := by
      rw [hinv2.lenEq, assign_length_eq_dedup, List.Nodup.dedup hnd, hkl, hc2]
    exact ⟨t2, _, h2, hc2, hl2, by rw [bitmapOnes_eq_len hinv2, hl2],
      hinv2.all_occupied hl2⟩
  · rcases runProbes_spec w hash calls t [] (by simpa [assign] using hinv) hcalls with
      ⟨s, hs⟩ | ⟨t3, h3, _⟩
    · rw [hs]; exact fun h => Outcome.noConfusion h
    · rw [h3]; exact fun h => Outcome.noConfusion h
  · intro t2 outs hrun keys values seed2 hne hk hfull
    rcases runProbes_spec w hash calls t [] (by simpa [assign] using hinv) hcalls with
      ⟨s, hs⟩ | ⟨t3, h3, hinv3, hload3⟩
    · rw [hs] at hrun; cases hrun
    · rw [h3] at hrun
      injection hrun with hrun
      injection hrun with hrun _
      subst hrun
      refine ⟨probe_no_hang hinv3 keys values seed2 hk, ?_⟩
      intro t4 vs h4
      obtain ⟨_, _, hv, _, _⟩ := probe_done_inv hinv3 keys values vs seed2 t4 hk h4
      have hcap := hinv3.cap_le
      have hpos : 0 < keys.length := List.length_pos.2 hne
      have hml3 : t3.maxLen = (t3.cap : Int) := by
        rw [hinv3.maxLenEq, hload3, hload, one_mul]
        exact Int.ceil_natCast _
      obtain ⟨e, _, h2cap, _, he62, hpanic, hdone⟩ := probe_grow hinv3 keys values seed2 hv
        (by omega) (by rw [hml3, hfull]; exact_mod_cast (by omega : t3.cap < t3.cap + keys.length))
      by_cases h62 : e = 62
      · rw [hpanic h62] at h4; cases h4
      · obtain ⟨t5, h5, _, hc5, _⟩ := hdone (by omega)
        rw [h5] at h4
        injection h4 with h4
        injection h4 with h4 _
        subst h4
        rw [hc5]; exact h2cap

theorem unit_load_saturates_and_grows_witness :
    (32 : Int) < 2 ^ 63 ∧ makeTableBits .w32 32 1 7 = some demoUnit ∧
      (∀ c, c ∈ demoCalls → c.keys.length ≤ c.values.length ∧ c.keys.length ≤ 2 ^ 61) ∧
      (demoUnit.maxLen = (demoUnit.cap : Int) ∧
        (∀ (keys : List Nat) (values : List Int) (seed2 : Nat), keys.Nodup →
          keys.length = demoUnit.cap → values.length = demoUnit.cap →
          ∃ t2 vs, demoUnit.probe .w32 demoHash keys values seed2 = .done (t2, vs) ∧
            t2.cap = demoUnit.cap ∧ t2.len = t2.cap ∧ bitmapOnes .w32 t2 = t2.cap ∧
            ∀ p, p < t2.cap → occupied .w32 (t2.content .w32).1 p = true) ∧
        runProbes .w32 demoHash demoUnit demoCalls ≠ .hang ∧
        (∀ t2 outs, runProbes .w32 demoHash demoUnit demoCalls = .done (t2, outs) →
          ∀ (keys : List Nat) (values : List Int) (seed2 : Nat), keys ≠ [] →
            keys.length ≤ 2 ^ 61 → t2.len = t2.cap →
            t2.probe .w32 demoHash keys values seed2 ≠ .hang ∧
            ∀ t3 vs, t2.probe .w32 demoHash keys values seed2 = .done (t3, vs) →
              2 * t2.cap ≤ t3.cap)) :=
  ⟨by norm_num, by decide!, demoCalls_ok,
    unit_load_saturates_and_grows .w32 demoHash 32 7 demoUnit (by norm_num) (by decide!)
      demoCalls demoCalls_ok⟩

end

section

set_option maxRecDepth 100000

variable {w : Width} {hash : Nat → Nat → Nat}

theorem probeWindows_step (n fuel i : Nat) (hi : i < n) :
    probeWindows n (fuel + 1) i = (i, min (128 + i) n) :: probeWindows n fuel (min (128 + i) n) := by
  rw [probeWindows, if_pos hi]
  by_cases hgt : 128 + i > n
  · have hmin : min (128 + i) n = n := by omega
    simp only [hgt, if_true, hmin]
  · have hmin : min (128 + i) n = 128 + i := by omega
    simp only [hgt, if_false, hmin]

theorem probeWindows_done (n fuel i : Nat) (hi : n ≤ i) : probeWindows n fuel i = [] := by
  cases fuel with
  | zero => rfl
  | succ fuel => rw [probeWindows, if_neg (by omega)]

theorem probeWindows_length (n : Nat) : ∀ (fuel i : Nat), n - i ≤ fuel →
    (probeWindows n fuel i).length = (n - i + 127) / 128 := by
  intro fuel
  induction fuel with
  | zero =>
    intro i h
    rw [probeWindows_done n 0 i (by omega)]
    simp only [List.length_nil]; omega
  | succ fuel ih =>
    intro i h
    by_cases hi : i < n
    · rw [probeWindows_step n fuel i hi, List.length_cons, ih _ (by omega)]
      omega
    · rw [probeWindows_done n _ i (by omega)]
      simp only [List.length_nil]; omega

theorem probeWindows_get (n : Nat) : ∀ (fuel i q : Nat), n - i ≤ fuel → i + 128 * q < n →
    (probeWindows n fuel i)[q]? = some (i + 128 * q, min (i + 128 * q + 128) n) := by
  intro fuel
  induction fuel with
  | zero => intro i q h hq; omega
  | succ fuel ih =>
    intro i q h hq
    rw [probeWindows_step n fuel i (by omega)]
    cases q with
    | zero =>
      simp only [Nat.mul_zero, Nat.add_zero, List.getElem?_cons_zero, Option.some.injEq,
        Prod.mk.injEq, true_and]
      omega
    | succ q =>
      rw [List.getElem?_cons_succ]
      have hmin : min (128 + i) n = 128 + i := by omega
      rw [hmin, ih (128 + i) q (by omega) (by omega)]
      simp only [Option.some.injEq, Prod.mk.injEq]
      constructor
      · omega
      · congr 1; omega

/-- The windows of the loop over `n` keys: window number `q` runs from `128 q`
to `min (128 q + 128) n`, and there are `⌈n / 128⌉` of them. -/
theorem probeWindows_eq (n : Nat) :
    probeWindows n n 0 =
      (List.range ((n + 127) / 128)).map (fun q => (128 * q, min (128 * q + 128) n)) := by
  apply List.ext_getElem?
  intro q
  by_cases hq : q < (n + 127) / 128
  · have h := probeWindows_get n n 0 q (by omega) (by omega)
    simp only [Nat.zero_add] at h
    rw [h, List.getElem?_map, List.getElem?_range hq]
    rfl
  · have h1 : (probeWindows n n 0)[q]? = none := by
      apply List.getElem?_eq_none
      rw [probeWindows_length n n 0 (by omega)]
      omega
    have h2 : ((List.range ((n + 127) / 128)).map
        (fun q => (128 * q, min (128 * q + 128) n)))[q]? = none := by
      apply List.getElem?_eq_none
      rw [List.length_map, List.length_range]
      omega
    rw [h1, h2]

theorem probeWindows_join (keys : List Nat) : ∀ (fuel i : Nat), keys.length - i ≤ fuel →
    ((probeWindows keys.length fuel i).map (fun ij => (keys.take ij.2).drop ij.1)).flatten =
      keys.drop i := by
  intro fuel
  induction fuel with
  | zero =>
    intro i h
    rw [probeWindows_done _ 0 i (by omega)]
    simp only [List.map_nil, List.flatten_nil]
    exact (List.drop_eq_nil_of_le (by omega)).symm
  | succ fuel ih =>
    intro i h
    by_cases hi : i < keys.length
    · rw [probeWindows_step _ fuel i hi, List.map_cons, List.flatten_cons, ih _ (by omega)]
      exact (drop_eq_window_append keys i _ (by omega) (Nat.min_le_right _ _)).symm
    · rw [probeWindows_done _ _ i (by omega)]
      simp only [List.map_nil, List.flatten_nil]
      exact (List.drop_eq_nil_of_le (by omega)).symm

/-- The loop of `probe` hands the kernel the windows of `probeWindows`. -/
theorem probeLoop_eq_probeOver (w : Width) (hash : Nat → Nat → Nat) (keys : List Nat) :
    ∀ (fuel i : Nat) (t : tableBits) (values : List Int), keys.length - i ≤ fuel →
      probeLoop w hash keys fuel i t values =
        probeOver w hash keys (probeWindows keys.length fuel i) t values := by
  intro fuel
  induction fuel with
  | zero =>
    intro i t values h
    rw [probeLoop, if_neg (by omega), probeWindows_done _ 0 i (by omega)]
    rfl
  | succ fuel ih =>
    intro i t values h
    by_cases hi : i < keys.length
    · rw [probeLoop_step w hash keys fuel i t values hi, probeWindows_step _ fuel i hi, probeOver]
      by_cases hp : min (128 + i) keys.length > values.length
      · rw [if_pos hp, if_pos hp]
      · rw [if_neg hp, if_neg hp]
        cases hmp : multiProbe w t.table t.len t.cap
            (multiHash hash ((keys.take (min (128 + i) keys.length)).drop i) t.seed)
            ((keys.take (min (128 + i) keys.length)).drop i) with
        | none => rfl
        | some r =>
          obtain ⟨table, len, ids⟩ := r
          exact ih _ _ _ (by omega)
    · rw [probeLoop, if_neg hi, probeWindows_done _ _ i (by omega)]
      rfl

end

section

set_option maxRecDepth 100000

variable {w : Width} {hash : Nat → Nat → Nat}

theorem probeWalk_lengths (w : Width) (cap key len : Nat) (flags slots : List Nat) :
    ∀ (fuel pos : Nat) (r : List Nat × List Nat × Nat × Nat),
      probeWalk w cap key len flags slots fuel pos = some r →
      r.1.length = flags.length ∧ r.2.1.length = slots.length := by
  intro fuel
  induction fuel with
  | zero => intro pos r h; simp [probeWalk] at h
  | succ fuel ih =>
    intro pos r h
    rw [probeWalk] at h
    split at h
    · injection h with h
      subst h
      simp
    · split at h
      · injection h with h
        subst h
        simp
      · exact ih _ _ h

theorem probeKeys_lengths (w : Width) (cap : Nat) (hk : List (Nat × Nat)) :
    ∀ (flags slots : List Nat) (len : Nat) (r : List Nat × List Nat × Nat × List Int),
      probeKeys w cap flags slots len hk = some r →
      r.1.length = flags.length ∧ r.2.1.length = slots.length ∧ r.2.2.2.length = hk.length := by
  induction hk with
  | nil =>
    intro flags slots len r h
    simp only [probeKeys, Option.some.injEq] at h
    subst h
    simp
  | cons a hk ih =>
    intro flags slots len r h
    obtain ⟨h0, key⟩ := a
    rw [probeKeys] at h
    cases hw : probeWalk w cap key len flags slots cap (h0 &&& (cap - 1)) with
    | none => rw [hw] at h; simp at h
    | some r1 =>
      obtain ⟨f1, s1, l1, id1⟩ := r1
      rw [hw] at h
      simp only [] at h
      have hl1 := probeWalk_lengths w cap key len flags slots _ _ _ hw
      cases hr : probeKeys w cap f1 s1 l1 hk with
      | none => rw [hr] at h; simp at h
      | some r2 =>
        obtain ⟨f2, s2, l2, ids2⟩ := r2
        rw [hr] at h
        simp only [Option.some.injEq] at h
        subst h
        have hl2 := ih _ _ _ _ hr
        simp only [] at hl1 hl2 ⊢
        simp only [List.length_cons]
        omega

theorem probeKeys_append (w : Width) (cap : Nat) (a b : List (Nat × Nat)) :
    ∀ (flags slots : List Nat) (len : Nat),
      probeKeys w cap flags slots len (a ++ b) =
        match probeKeys w cap flags slots len a with
        | none => none
        | some (f1, s1, l1, ids1) =>
          match probeKeys w cap f1 s1 l1 b with
          | none => none
          | some (f2, s2, l2, ids2) => some (f2, s2, l2, ids1 ++ ids2) := by
  induction a with
  | nil =>
    intro flags slots len
    simp only [List.nil_append, probeKeys]
    cases probeKeys w cap flags slots len b with
    | none => rfl
    | some r => obtain ⟨f2, s2, l2, ids2⟩ := r; rfl
  | cons x a ih =>
    intro flags slots len
    obtain ⟨h0, key⟩ := x
    simp only [List.cons_append, probeKeys]
    cases hw : probeWalk w cap key len flags slots cap (h0 &&& (cap - 1)) with
    | none => rfl
    | some r1 =>
      obtain ⟨f1, s1, l1, id1⟩ := r1
      simp only [List.append_eq]
      rw [ih f1 s1 l1]
      cases probeKeys w cap f1 s1 l1 a with
      | none => rfl
      | some r2 =>
        obtain ⟨f2, s2, l2, ids2⟩ := r2
        simp only []
        cases probeKeys w cap f2 s2 l2 b with
        | none => rfl
        | some r3 => obtain ⟨f3, s3, l3, ids3⟩ := r3; rfl

theorem multiHash_zip (hash : Nat → Nat → Nat) (seed : Nat) (l : List Nat) :
    (multiHash hash l seed).zip l =
      l.map (fun key => (hash key seed % 18446744073709551616, key)) := by
  unfold multiHash
  induction l with
  | nil => rfl
  | cons a l ih => simp only [List.map_cons, List.zip_cons_cons, ih]

theorem resplit (table f s : List Nat) (n : Nat) (hf : f.length = (table.take n).length)
    (hs : s.length = (table.drop n).length) :
    (f ++ s).take n = f ∧ (f ++ s).drop n = s := by
  rw [List.length_take] at hf
  rw [List.length_drop] at hs
  by_cases hn : n ≤ table.length
  · have hfn : f.length = n := by omega
    exact ⟨List.take_left' hfn, List.drop_left' hfn⟩
  · have hs0 : s = [] := List.length_eq_zero.1 (by omega)
    subst hs0
    rw [List.append_nil]
    exact ⟨List.take_of_length_le (by omega), List.drop_eq_nil_of_le (by omega)⟩

end

section

set_option maxRecDepth 100000

variable {w : Width} {hash : Nat → Nat → Nat}

theorem multiProbe_eq (w : Width) (hash : Nat → Nat → Nat) (t : tableBits) (kw : List Nat) :
    multiProbe w t.table t.len t.cap (multiHash hash kw t.seed) kw =
      match probeKeys w t.cap (t.content w).1 (t.content w).2 t.len
          (kw.map (fun key => (hash key t.seed % 18446744073709551616, key))) with
      | none => none
      | some (flags, slots, len, ids) => some (flags ++ slots, len, ids) := by
  rw [multiProbe, multiHash_zip]
  rfl

/-- The loop of `probe` from index `i` on is one pass of the slot walk over the
keys from `i` on. -/
theorem probeLoop_eq_walk (w : Width) (hash : Nat → Nat → Nat) (keys : List Nat) :
    ∀ (fuel i : Nat) (t : tableBits) (values : List Int), i ≤ keys.length →
      keys.length - i ≤ fuel → keys.length ≤ values.length →
      probeLoop w hash keys fuel i t values =
        match probeKeys w t.cap (t.content w).1 (t.content w).2 t.len
            ((keys.drop i).map (fun key => (hash key t.seed % 18446744073709551616, key))) with
        | none => .hang
        | some (flags, slots, len, ids) =>
          .done ({ t with table := flags ++ slots, len := len },
            values.take i ++ ids ++ values.drop keys.length) := by
  intro fuel
  induction fuel with
  | zero =>
    intro i t values hi hfuel hv
    have hik : i = keys.length := by omega
    subst hik
    rw [probeLoop, if_neg (by omega), List.drop_length]
    simp only [List.map_nil, probeKeys, List.append_nil]
    have htab : (t.content w).1 ++ (t.content w).2 = t.table := List.take_append_drop _ _
    rw [htab, List.take_append_drop]
  | succ fuel ih =>
    intro i t values hi hfuel hv
    by_cases hlt : i < keys.length
    · have hjle : min (128 + i) keys.length ≤ keys.length := Nat.min_le_right _ _
      have hij : i < min (128 + i) keys.length := by omega
      rw [probeLoop_step w hash keys fuel i t values hlt]
      generalize hj : min (128 + i) keys.length = j at hjle hij
      rw [if_neg (by omega), multiProbe_eq]
      have hsplit := drop_eq_window_append keys i j (le_of_lt hij) hjle
      rw [hsplit, List.map_append, probeKeys_append]
      cases h1 : probeKeys w t.cap (t.content w).1 (t.content w).2 t.len
          (((keys.take j).drop i).map
            (fun key => (hash key t.seed % 18446744073709551616, key))) with
      | none => rfl
      | some r1 =>
        obtain ⟨f1, s1, l1, ids1⟩ := r1
        simp only []
        obtain ⟨hf1, hs1, hids1⟩ := probeKeys_lengths w t.cap _ _ _ _ _ h1
        simp only [List.length_map] at hids1
        rw [window_length keys i j hjle] at hids1
        obtain ⟨hc1, hc2⟩ := resplit t.table f1 s1 (t.cap / w.bits) hf1 hs1
        have hcontent : tableBits.content w { t with table := f1 ++ s1, len := l1 } = (f1, s1) := by
          unfold tableBits.content
          simp only []
          rw [hc1, hc2]
        rw [ih j { t with table := f1 ++ s1, len := l1 } _ hjle (by omega)
          (by rw [length_splice values ids1 i j (le_of_lt hij) (by omega) hids1]; exact hv)]
        rw [hcontent]
        simp only []
        cases h2 : probeKeys w t.cap f1 s1 l1
            ((keys.drop j).map (fun key => (hash key t.seed % 18446744073709551616, key))) with
        | none => rfl
        | some r2 =>
          obtain ⟨f2, s2, l2, ids2⟩ := r2
          simp only []
          rw [take_splice values ids1 i j (le_of_lt hij) (by omega) hids1,
            drop_splice values ids1 i j keys.length (le_of_lt hij) (by omega) hjle hids1,
            List.append_assoc (values.take i) ids1 ids2]
    · have hik : i = keys.length := by omega
      subst hik
      rw [probeLoop, if_neg (by omega), List.drop_length]
      simp only [List.map_nil, probeKeys, List.append_nil]
      have htab : (t.content w).1 ++ (t.content w).2 = t.table := List.take_append_drop _ _
      rw [htab, List.take_append_drop]

/-- The loop of `probe` over all keys is the sequential probe. -/
theorem probeLoop_eq_sequential (w : Width) (hash : Nat → Nat → Nat) (keys : List Nat)
    (t : tableBits) (values : List Int) (hv : keys.length ≤ values.length) :
    probeLoop w hash keys keys.length 0 t values = probeSequential w hash t keys values := by
  rw [probeLoop_eq_walk w hash keys keys.length 0 t values (by omega) (by omega) hv,
    probeSequential]
  simp only [List.drop_zero, List.take_zero, List.nil_append]

end

section

set_option maxRecDepth 100000

variable {w : Width} {hash : Nat → Nat → Nat}

/-- C19: for `n` keys the loop of `probe` takes the windows `(i, j)` with
`i = 0, 128, 256, ...` and `j = min (i + 128) n`: there are `⌈n / 128⌉` of them
(none for `n = 0`), each is non-empty and has length `min 128 (n - i)`, and the
windows of the keys, in this order, concatenate to the keys.  The loop hands
exactly these windows of the keys and of the values to the kernel.  With the
multi-hash being the scalar hash of each key, the loop, and hence `probe` after
its growth check, is one sequential pass of the slot walk over all keys in index
order. -/
theorem probe_windows_sequential (w : Width) (hash : Nat → Nat → Nat) (t : tableBits)
    (keys : List Nat) (values : List Int) (seed : Nat) (hv : keys.length ≤ values.length) :
    probeWindows keys.length keys.length 0 =
        (List.range ((keys.length + 127) / 128)).map
          (fun q => (128 * q, min (128 * q + 128) keys.length)) ∧
      (probeWindows keys.length keys.length 0).length = (keys.length + 127) / 128 ∧
      (∀ ij, ij ∈ probeWindows keys.length keys.length 0 →
        ij.1 < ij.2 ∧ ij.2 ≤ keys.length ∧ ij.2 - ij.1 = min 128 (keys.length - ij.1)) ∧
      ((probeWindows keys.length keys.length 0).map
        (fun ij => (keys.take ij.2).drop ij.1)).flatten = keys ∧
      probeLoop w hash keys keys.length 0 t values =
        probeOver w hash keys (probeWindows keys.length keys.length 0) t values ∧
      probeLoop w hash keys keys.length 0 t values = probeSequential w hash t keys values ∧
      (t.len + keys.length < 2 ^ 63 → ((t.len + keys.length : Nat) : Int) ≤ t.maxLen →
        t.probe w hash keys values seed = probeSequential w hash t keys values) ∧
      (t.len + keys.length < 2 ^ 63 → t.maxLen < ((t.len + keys.length : Nat) : Int) →
        ∀ t1, t.grow w hash ((t.len + keys.length : Nat) : Int) seed = .done t1 →
          t.probe w hash keys values seed = probeSequential w hash t1 keys values) := by
  have hseq := probeLoop_eq_sequential w hash keys
  refine ⟨probeWindows_eq _, ?_, ?_, ?_, ?_, hseq t values hv, ?_, ?_⟩
  · rw [probeWindows_length _ _ 0 (by omega)]; rfl
  · intro ij hij
    rw [probeWindows_eq, List.mem_map] at hij
    obtain ⟨q, hq, rfl⟩ := hij
    rw [List.mem_range] at hq
    simp only []
    omega
  · have := probeWindows_join keys keys.length 0 (by omega)
    rw [List.drop_zero] at this
    exact this
  · exact probeLoop_eq_probeOver w hash keys keys.length 0 t values (by omega)
  · intro hsize hfit
    rw [probe_unfold w hash t keys values seed hsize, if_neg (by omega)]
    exact hseq t values hv
  · intro hsize hbig t1 h1
    rw [probe_unfold w hash t keys values seed hsize, if_pos hbig, h1]
    exact hseq t1 values hv

theorem probe_windows_sequential_witness :
    (List.range 300).length ≤ (List.replicate 300 (0 : Int)).length ∧
      probeWindows 300 300 0 = [(0, 128), (128, 256), (256, 300)] ∧
      (probeWindows (List.range 300).length (List.range 300).length 0 =
          (List.range (((List.range 300).length + 127) / 128)).map
            (fun q => (128 * q, min (128 * q + 128) (List.range 300).length)) ∧
        (probeWindows (List.range 300).length (List.range 300).length 0).length =
          ((List.range 300).length + 127) / 128 ∧
        (∀ ij, ij ∈ probeWindows (List.range 300).length (List.range 300).length 0 →
          ij.1 < ij.2 ∧ ij.2 ≤ (List.range 300).length ∧
            ij.2 - ij.1 = min 128 ((List.range 300).length - ij.1)) ∧
        ((probeWindows (List.range 300).length (List.range 300).length 0).map
          (fun ij => ((List.range 300).take ij.2).drop ij.1)).flatten = List.range 300 ∧
        probeLoop .w32 demoHash (List.range 300) (List.range 300).length 0 demoTable
            (List.replicate 300 0) =
          probeOver .w32 demoHash (List.range 300)
            (probeWindows (List.range 300).length (List.range 300).length 0) demoTable
            (List.replicate 300 0) ∧
        probeLoop .w32 demoHash (List.range 300) (List.range 300).length 0 demoTable
            (List.replicate 300 0) =
          probeSequential .w32 demoHash demoTable (List.range 300) (List.replicate 300 0) ∧
        (demoTable.len + (List.range 300).length < 2 ^ 63 →
          ((demoTable.len + (List.range 300).length : Nat) : Int) ≤ demoTable.maxLen →
          demoTable.probe .w32 demoHash (List.range 300) (List.replicate 300 0) 5 =
            probeSequential .w32 demoHash demoTable (List.range 300) (List.replicate 300 0)) ∧
        (demoTable.len + (List.range 300).length < 2 ^ 63 →
          demoTable.maxLen < ((demoTable.len + (List.range 300).length : Nat) : Int) →
          ∀ t1, demoTable.grow .w32 demoHash
              ((demoTable.len + (List.range 300).length : Nat) : Int) 5 = .done t1 →
            demoTable.probe .w32 demoHash (List.range 300) (List.replicate 300 0) 5 =
              probeSequential .w32 demoHash t1 (List.range 300) (List.replicate 300 0))) :=
  ⟨by simp, by decide!,
    probe_windows_sequential .w32 demoHash demoTable (List.range 300) (List.replicate 300 0) 5
      (by simp)⟩

end

section

set_option maxRecDepth 100000

variable {w : Width} {hash : Nat → Nat → Nat}

/-- One turn of the inner loop of `grow`: the run of ones at the low end of `f`
has `n ≥ 1` bits, and if bits remain above it, they start after `z ≥ 1` zeros. -/
theorem run_step (w : Width) (m f : Nat) (hmw : m ≤ w.bits) (hf : f < 2 ^ m)
    (hodd : f.testBit 0 = true) :
    1 ≤ TrailingZeros w (complement w f) ∧ TrailingZeros w (complement w f) ≤ m ∧
      (f >>> TrailingZeros w (complement w f) ≠ 0 →
        1 ≤ TrailingZeros w (f >>> TrailingZeros w (complement w f)) ∧
        TrailingZeros w (f >>> TrailingZeros w (complement w f)) <
          m - TrailingZeros w (complement w f) ∧
        f >>> TrailingZeros w (complement w f) >>>
            TrailingZeros w (f >>> TrailingZeros w (complement w f)) <
          2 ^ (m - TrailingZeros w (complement w f) -
            TrailingZeros w (f >>> TrailingZeros w (complement w f))) ∧
        (f >>> TrailingZeros w (complement w f) >>>
          TrailingZeros w (f >>> TrailingZeros w (complement w f))).testBit 0 = true) := by
  have hfW : f < 2 ^ w.bits := lt_of_lt_of_le hf (Nat.pow_le_pow_right (by norm_num) hmw)
  obtain ⟨hones, hstop⟩ := lowOnes_spec w f hfW
  generalize TrailingZeros w (complement w f) = n at hones hstop
  have hn1 : 1 ≤ n := by
    by_contra hc
    have : n = 0 := by omega
    subst this
    rw [hodd] at hstop; exact Bool.false_ne_true hstop.symm
  have hnm : n ≤ m := by
    by_contra hc
    have := hones m (by omega)
    rw [testBit_false_of_lt hf (le_refl m)] at this
    exact Bool.false_ne_true this
  refine ⟨hn1, hnm, ?_⟩
  intro h0
  have hf1 : f >>> n < 2 ^ (m - n) := shiftRight_lt hf hnm
  obtain ⟨hz1, hz2, hz3⟩ := lowZeros_spec w.bits (f >>> n)
  have hzdef : TrailingZeros w (f >>> n) = lowZeros w.bits (f >>> n) := rfl
  rw [hzdef]
  generalize lowZeros w.bits (f >>> n) = z at hz1 hz2 hz3
  have hzm : z < m - n := by
    by_contra hc
    obtain ⟨b, hb, hbt⟩ := exists_testBit_lt hf1 h0
    rw [hz1 b (by omega)] at hbt
    exact Bool.false_ne_true hbt
  have hz0 : 1 ≤ z := by
    by_contra hc
    have : z = 0 := by omega
    subst this
    have := hz3 (by omega)
    rw [Nat.testBit_shiftRight] at this
    simp only [Nat.add_zero] at this
    rw [hstop] at this
    exact Bool.false_ne_true this
  refine ⟨hz0, hzm, shiftRight_lt hf1 (le_of_lt hzm), ?_⟩
  rw [Nat.testBit_shiftRight]
  simp only [Nat.add_zero]
  exact hz3 (by omega)

/-- The inner loop of `grow` calls `insert` on the slices of `runSlices`. -/
theorem growRuns_eq_slices (w : Width) (hash : Nat → Nat → Nat) (pairs : List Nat) :
    ∀ (m fuel : Nat) (tmp : tableBits) (j f : Nat), m ≤ fuel → m ≤ w.bits → f < 2 ^ m →
      f.testBit 0 = true →
      growRuns w hash pairs fuel tmp j f =
        insertSlices w hash pairs (runSlices w fuel j f) tmp := by
  intro m
  induction m using Nat.strong_induction_on with
  | _ m ih =>
    intro fuel tmp j f hfuel hmw hf hodd
    obtain ⟨hn1, hnm, hrest⟩ := run_step w m f hmw hf hodd
    obtain ⟨fuel, rfl⟩ : ∃ k, fuel = k + 1 := ⟨fuel - 1, by omega⟩
    rw [growRuns, runSlices]
    simp only []
    by_cases h0 : f >>> TrailingZeros w (complement w f) = 0
    · simp only [h0, if_true, insertSlices]
    · obtain ⟨hz0, hzm, hf2, hodd2⟩ := hrest h0
      simp only [h0, if_false, insertSlices]
      cases tmp.insert w hash ((pairs.take (2 * (j + TrailingZeros w (complement w f)))).drop
          (2 * j)) with
      | none => rfl
      | some tmp1 =>
        simp only []
        exact ih _ (by omega) fuel tmp1 _ _ (by omega) (by omega) hf2 hodd2

/-- Every slice of the inner loop of `grow` is non-empty and lies inside the
`m` slots that the rest of the bitmap word stands for. -/
theorem runSlices_bounds (w : Width) :
    ∀ (m fuel j f : Nat), m ≤ w.bits → f < 2 ^ m → f.testBit 0 = true →
      ∀ jk, jk ∈ runSlices w fuel j f → j ≤ jk.1 ∧ jk.1 < jk.2 ∧ jk.2 ≤ j + m := by
  intro m
  induction m using Nat.strong_induction_on with
  | _ m ih =>
    intro fuel j f hmw hf hodd jk hjk
    obtain ⟨hn1, hnm, hrest⟩ := run_step w m f hmw hf hodd
    cases fuel with
    | zero => simp [runSlices] at hjk
    | succ fuel =>
      rw [runSlices] at hjk
      simp only [] at hjk
      by_cases h0 : f >>> TrailingZeros w (complement w f) = 0
      · simp only [h0, if_true, List.mem_singleton] at hjk
        subst hjk
        simp only []
        omega
      · obtain ⟨hz0, hzm, hf2, hodd2⟩ := hrest h0
        simp only [h0, if_false, List.mem_cons] at hjk
        rcases hjk with hjk | hjk
        · subst hjk
          simp only []
          omega
        · have := ih _ (by omega) fuel _ _ (by omega) hf2 hodd2 jk hjk
          omega

theorem insertSlices_append (w : Width) (hash : Nat → Nat → Nat) (pairs : List Nat)
    (a b : List (Nat × Nat)) : ∀ tmp : tableBits,
    insertSlices w hash pairs (a ++ b) tmp =
      (insertSlices w hash pairs a tmp).bind (insertSlices w hash pairs b) := by
  induction a with
  | nil => intro tmp; simp [insertSlices]
  | cons x a ih =>
    intro tmp
    obtain ⟨j, k⟩ := x
    simp only [List.cons_append, insertSlices]
    cases tmp.insert w hash ((pairs.take (2 * k)).drop (2 * j)) with
    | none => rfl
    | some tmp1 => exact ih tmp1

/-- The loop of `grow` over the bitmap words calls `insert` on the slices of
`wordSlices`. -/
theorem growWords_eq_slices (w : Width) (hash : Nat → Nat → Nat) (pairs : List Nat) :
    ∀ (flags : List Nat) (i : Nat) (tmp : tableBits), (∀ f, f ∈ flags → f < 2 ^ w.bits) →
      growWords w hash pairs flags i tmp =
        insertSlices w hash pairs (wordSlices w flags i) tmp := by
  intro flags
  induction flags with
  | nil => intro i tmp _; rfl
  | cons f flags ih =>
    intro i tmp hlt
    have hf := hlt f (List.mem_cons_self _ _)
    have hlt2 : ∀ g, g ∈ flags → g < 2 ^ w.bits := fun g hg => hlt g (List.mem_cons_of_mem _ hg)
    rw [growWords, wordSlices]
    by_cases h0 : f = 0
    · subst h0
      simp only [ne_eq, not_true_eq_false, if_false]
      exact ih (i + 1) tmp hlt2
    · simp only [ne_eq, h0, not_false_eq_true, if_true]
      obtain ⟨hz1, hz2, hz3⟩ := lowZeros_spec w.bits f
      have hzdef : TrailingZeros w f = lowZeros w.bits f := rfl
      rw [hzdef]
      generalize lowZeros w.bits f = z at hz1 hz2 hz3
      have hzm : z < w.bits := by
        by_contra hc
        obtain ⟨b, hb, hbt⟩ := exists_testBit_lt hf h0
        rw [hz1 b (by omega)] at hbt
        exact Bool.false_ne_true hbt
      rw [growRuns_eq_slices w hash pairs (w.bits - z) w.bits tmp (w.bits * i + z) (f >>> z)
        (by omega) (by omega) (shiftRight_lt hf hz2) (by
          rw [Nat.testBit_shiftRight]
          simp only [Nat.add_zero]
          exact hz3 hzm), insertSlices_append]
      cases insertSlices w hash pairs (runSlices w w.bits (w.bits * i + z) (f >>> z)) tmp with
      | none => rfl
      | some tmp1 =>
        simp only [Option.some_bind]
        exact ih (i + 1) tmp1 hlt2

/-- Every slice that `grow` takes is non-empty and lies inside the slots that
the bitmap words stand for. -/
theorem wordSlices_bounds (w : Width) :
    ∀ (flags : List Nat) (i : Nat), (∀ f, f ∈ flags → f < 2 ^ w.bits) →
      ∀ jk, jk ∈ wordSlices w flags i →
        w.bits * i ≤ jk.1 ∧ jk.1 < jk.2 ∧ jk.2 ≤ w.bits * (i + flags.length) := by
  intro flags
  induction flags with
  | nil => intro i _ jk hjk; simp [wordSlices] at hjk
  | cons f flags ih =>
    intro i hlt jk hjk
    have hf := hlt f (List.mem_cons_self _ _)
    have hlt2 : ∀ g, g ∈ flags → g < 2 ^ w.bits := fun g hg => hlt g (List.mem_cons_of_mem _ hg)
    have hmul : w.bits * (i + (flags.length + 1)) =
        w.bits * i + w.bits + w.bits * flags.length := by ring
    have hmul2 : w.bits * (i + 1 + flags.length) =
        w.bits * i + w.bits + w.bits * flags.length := by ring
    rw [wordSlices] at hjk
    simp only [List.length_cons]
    by_cases h0 : f = 0
    · subst h0
      simp only [ne_eq, not_true_eq_false, if_false] at hjk
      have := ih (i + 1) hlt2 jk hjk
      rw [hmul2] at this
      have h1 : w.bits * (i + 1) = w.bits * i + w.bits := by ring
      rw [h1] at this
      rw [hmul]; omega
    · simp only [ne_eq, h0, not_false_eq_true, if_true, List.mem_append] at hjk
      obtain ⟨hz1, hz2, hz3⟩ := lowZeros_spec w.bits f
      have hzdef : TrailingZeros w f = lowZeros w.bits f := rfl
      rw [hzdef] at hjk
      generalize lowZeros w.bits f = z at hz1 hz2 hz3 hjk
      have hzm : z < w.bits := by
        by_contra hc
        obtain ⟨b, hb, hbt⟩ := exists_testBit_lt hf h0
        rw [hz1 b (by omega)] at hbt
        exact Bool.false_ne_true hbt
      rcases hjk with hjk | hjk
      · have := runSlices_bounds w (w.bits - z) w.bits (w.bits * i + z) (f >>> z) (by omega)
          (shiftRight_lt hf hz2) (by
            rw [Nat.testBit_shiftRight]
            simp only [Nat.add_zero]
            exact hz3 hzm) jk hjk
        rw [hmul]; omega
      · have := ih (i + 1) hlt2 jk hjk
        rw [hmul2] at this
        have h1 : w.bits * (i + 1) = w.bits * i + w.bits := by ring
        rw [h1] at this
        rw [hmul]; omega

end

section

set_option maxRecDepth 100000

variable {w : Width} {hash : Nat → Nat → Nat}

/-- A table whose capacity is a power of two not below the word width and whose
buffer has `cap/W + 2*cap` words has views of the right shape. -/
theorem layout_of_shape (w : Width) (t : tableBits) (e : Nat) (hcap : t.cap = 2 ^ e)
    (he : e ≤ 61) (hW : w.bits ≤ t.cap) (hbuf : t.table.length = t.cap / w.bits + 2 * t.cap)
    (hwords : ∀ x, x ∈ t.table → x < 2 ^ w.bits) :
    Layout w t.cap (t.content w).1 (t.content w).2 where
  pow := ⟨e, hcap, he⟩
  dvd := by
    obtain ⟨k, hk, _, _⟩ := w.bits_pow
    rw [hk, hcap] at hW ⊢
    exact Nat.pow_dvd_pow 2 ((Nat.pow_le_pow_iff_right (by norm_num)).1 hW)
  flagsLen := by
    show (t.table.take (t.cap / w.bits)).length = t.cap / w.bits
    rw [List.length_take]; omega
  slotsLen := by
    show (t.table.drop (t.cap / w.bits)).length = 2 * t.cap
    rw [List.length_drop]; omega
  wordsLt := fun x hx => hwords x (List.mem_of_mem_take hx)

/-- C20: in a table whose `cap` is a power of two that is at least the word
width `W`, with a buffer of `cap/W + 2*cap` words, no index is out of range:
`content` splits the buffer inside its length into `cap/W` bitmap words and
`2*cap` slot words; for every hash value the position `hash & (cap-1)` of
`insert` is below `cap`, its bitmap index `position/W` is below `cap/W` and its
slot indices `2*position` and `2*position+1` are below `2*cap`; and every slice
`pairs[2j : 2k]` that `grow` takes, which are the slices of `wordSlices`, has
`j < k ≤ cap` and an even number `2*(k-j)` of words. -/
theorem indices_in_range (w : Width) (hash : Nat → Nat → Nat) (t : tableBits) (e : Nat)
    (hcap : t.cap = 2 ^ e) (he : e ≤ 61) (hW : w.bits ≤ t.cap)
    (hbuf : t.table.length = t.cap / w.bits + 2 * t.cap)
    (hwords : ∀ x, x ∈ t.table → x < 2 ^ w.bits) :
    (t.cap / w.bits ≤ t.table.length ∧ (t.content w).1.length = t.cap / w.bits ∧
        (t.content w).2.length = 2 * t.cap) ∧
      (∀ h : Nat,
        h &&& ((18446744073709551615 + uintptr t.cap) % 18446744073709551616) < t.cap ∧
        (h &&& ((18446744073709551615 + uintptr t.cap) % 18446744073709551616)) / w.bits <
          (t.content w).1.length ∧
        2 * (h &&& ((18446744073709551615 + uintptr t.cap) % 18446744073709551616)) + 1 <
          (t.content w).2.length) ∧
      (∀ tmp : tableBits,
        growWords w hash (t.content w).2 (t.content w).1 0 tmp =
          insertSlices w hash (t.content w).2 (wordSlices w (t.content w).1 0) tmp) ∧
      (∀ jk, jk ∈ wordSlices w (t.content w).1 0 →
        jk.1 < jk.2 ∧ jk.2 ≤ t.cap ∧ 2 * jk.2 ≤ (t.content w).2.length ∧
        (((t.content w).2.take (2 * jk.2)).drop (2 * jk.1)).length = 2 * (jk.2 - jk.1)) := by
  have hl := layout_of_shape w t e hcap he hW hbuf hwords
  refine ⟨⟨by omega, hl.flagsLen, hl.slotsLen⟩, ?_, ?_, ?_⟩
  · intro h
    rw [hl.mask_eq, hl.mask_mod]
    have hp : h % t.cap < t.cap := Nat.mod_lt _ hl.cap_pos
    exact ⟨hp, hl.flag_index_lt hp, hl.slot_index_lt hp⟩
  · intro tmp
    exact growWords_eq_slices w hash _ _ 0 tmp hl.wordsLt
  · intro jk hjk
    have hb := wordSlices_bounds w (t.content w).1 0 hl.wordsLt jk hjk
    rw [Nat.zero_add, hl.flagsLen, Nat.mul_div_cancel' hl.dvd] at hb
    have hs := hl.slotsLen
    refine ⟨hb.2.1, hb.2.2, by omega, ?_⟩
    rw [List.length_drop, List.length_take]
    omega

theorem indices_in_range_witness :
    demoBits.cap = 2 ^ 7 ∧ 7 ≤ 61 ∧ Width.w32.bits ≤ demoBits.cap ∧
      demoBits.table.length = demoBits.cap / Width.w32.bits + 2 * demoBits.cap ∧
      (∀ x, x ∈ demoBits.table → x < 2 ^ Width.w32.bits) ∧
      wordSlices .w32 (demoBits.content .w32).1 0 =
        [(0, 32), (63, 64), (80, 96), (96, 97), (98, 99)] ∧
      ((demoBits.cap / Width.w32.bits ≤ demoBits.table.length ∧
          (demoBits.content .w32).1.length = demoBits.cap / Width.w32.bits ∧
          (demoBits.content .w32).2.length = 2 * demoBits.cap) ∧
        (∀ h : Nat,
          h &&& ((18446744073709551615 + uintptr demoBits.cap) % 18446744073709551616) <
            demoBits.cap ∧
          (h &&& ((18446744073709551615 + uintptr demoBits.cap) % 18446744073709551616)) /
              Width.w32.bits < (demoBits.content .w32).1.length ∧
          2 * (h &&& ((18446744073709551615 + uintptr demoBits.cap) % 18446744073709551616)) +
              1 < (demoBits.content .w32).2.length) ∧
        (∀ tmp : tableBits,
          growWords .w32 demoHash (demoBits.content .w32).2 (demoBits.content .w32).1 0 tmp =
            insertSlices .w32 demoHash (demoBits.content .w32).2
              (wordSlices .w32 (demoBits.content .w32).1 0) tmp) ∧
        (∀ jk, jk ∈ wordSlices .w32 (demoBits.content .w32).1 0 →
          jk.1 < jk.2 ∧ jk.2 ≤ demoBits.cap ∧ 2 * jk.2 ≤ (demoBits.content .w32).2.length ∧
          (((demoBits.content .w32).2.take (2 * jk.2)).drop (2 * jk.1)).length =
            2 * (jk.2 - jk.1))) :=
  ⟨rfl, by norm_num, by decide, by decide!, by decide!, by decide!,
    indices_in_range .w32 demoHash demoBits 7 rfl (by norm_num) (by decide) (by decide!)
      (by decide!)⟩

end

section

set_option maxRecDepth 100000

variable {w : Width} {hash : Nat → Nat → Nat}

theorem makeTableLimited_unfold (w : Width) (c : Int) (maxLoad : ℚ) (seed : Nat) :
    makeTableLimited w c maxLoad seed =
      if int64wrap (int64wrap (Int.tdiv
            (nextPowerOf2 (if c < (w.bits : Int) then (w.bits : Int) else c)) w.bits) +
          int64wrap (2 * nextPowerOf2 (if c < (w.bits : Int) then (w.bits : Int) else c))) < 0 ∨
        (maxAlloc : Int) < ((w.bits / 8 : Nat) : Int) *
          int64wrap (int64wrap (Int.tdiv
              (nextPowerOf2 (if c < (w.bits : Int) then (w.bits : Int) else c)) w.bits) +
            int64wrap (2 * nextPowerOf2 (if c < (w.bits : Int) then (w.bits : Int) else c)))
      then none else makeTableBits w c maxLoad seed := rfl

theorem ite_none_eq_some {α : Type} {p : Prop} [Decidable p] {x : Option α} {a : α}
    (h : (if p then none else x) = some a) : x = some a := by
  by_cases hp : p
  · rw [if_pos hp] at h; cases h
  · rw [if_neg hp] at h; exact h

theorem ite_none_of_none {α : Type} {p : Prop} [Decidable p] {x : Option α} (h : x = none) :
    (if p then none else x) = none := by
  by_cases hp : p
  · rw [if_pos hp]
  · rw [if_neg hp]; exact h

/-- Every table that the constructor makes under the allocation limit is a
table of `makeTableBits`. -/
theorem makeTableLimited_sub (w : Width) (c : Int) (maxLoad : ℚ) (seed : Nat) (t : tableBits)
    (h : makeTableLimited w c maxLoad seed = some t) : makeTableBits w c maxLoad seed = some t := by
  rw [makeTableLimited_unfold] at h
  exact ite_none_eq_some h

/-- The capacity that the constructor passes to `init`: the least power of two
that is at least the hint and the word width. -/
theorem roundedCap_eq (w : Width) (c : Int) (hc : c ≤ 2 ^ 61) :
    ∃ e, e ≤ 61 ∧ (w.bits : Int) ≤ ((2 ^ e : Nat) : Int) ∧ c ≤ ((2 ^ e : Nat) : Int) ∧
      (∀ e2 : Nat, (w.bits : Int) ≤ ((2 ^ e2 : Nat) : Int) → c ≤ ((2 ^ e2 : Nat) : Int) → e ≤ e2) ∧
      nextPowerOf2 (if c < (w.bits : Int) then (w.bits : Int) else c) = ((2 ^ e : Nat) : Int) := by
  have hW := w.bits_pos
  have hW64 : w.bits ≤ 64 := by cases w <;> simp [Width.bits]
  obtain ⟨m, hm⟩ : ∃ m : Nat, (if c < (w.bits : Int) then (w.bits : Int) else c) = (m : Int) := by
    by_cases h : c < (w.bits : Int)
    · exact ⟨w.bits, by rw [if_pos h]⟩
    · exact ⟨c.toNat, by rw [if_neg h]; omega⟩
  have hmW : w.bits ≤ m := by
    by_cases h : c < (w.bits : Int)
    · rw [if_pos h] at hm; omega
    · rw [if_neg h] at hm; omega
  have hmc : c ≤ (m : Int) := by
    by_cases h : c < (w.bits : Int)
    · rw [if_pos h] at hm; omega
    · rw [if_neg h] at hm; omega
  have hm61 : m ≤ 2 ^ 61 := by
    by_cases h : c < (w.bits : Int)
    · rw [if_pos h] at hm; omega
    · rw [if_neg h] at hm; omega
  have hmle : (m : Int) ≤ c ∨ m = w.bits := by
    by_cases h : c < (w.bits : Int)
    · rw [if_pos h] at hm; right; omega
    · rw [if_neg h] at hm; left; omega
  have hb61 := bitLen_pred_least m 61 (by omega) hm61
  have hge := le_two_pow_bitLen_pred m (by omega)
  refine ⟨bitLen 64 (m - 1), hb61, by omega, by omega, ?_, ?_⟩
  · intro e2 h1 h2
    have hm2 : m ≤ 2 ^ e2 := by
      rcases hmle with h | h
      · have : (m : Int) ≤ ((2 ^ e2 : Nat) : Int) := le_trans h h2
        exact_mod_cast this
      · rw [h]; exact_mod_cast h1
    exact bitLen_pred_least m e2 (by omega) hm2
  · rw [hm, nextPowerOf2_eq m (by omega) (by omega)]

theorem Width.capLimitLog_le (w : Width) : w.capLimitLog ≤ 61 := by
  cases w <;> simp [Width.capLimitLog]

theorem Width.bits_le_capLimit (w : Width) : w.bits ≤ 2 ^ w.capLimitLog := by
  cases w <;> simp [Width.capLimitLog, Width.bits]

/-- The buffer of a capacity up to the limit stays within `maxAlloc`, and the
buffer of a larger capacity does not. -/
theorem buffer_fits_iff (w : Width) (e : Nat) :
    (w.bits / 8) * (2 ^ e / w.bits + 2 * 2 ^ e) ≤ maxAlloc ↔ e ≤ w.capLimitLog := by
  constructor
  · intro h
    by_contra hc
    have hlt : w.capLimitLog + 1 ≤ e := by omega
    have hpow : 2 ^ (w.capLimitLog + 1) ≤ 2 ^ e := Nat.pow_le_pow_right (by norm_num) hlt
    have hdiv : 2 ^ (w.capLimitLog + 1) / w.bits ≤ 2 ^ e / w.bits := Nat.div_le_div_right hpow
    generalize (2 : Nat) ^ e = x at h hpow hdiv
    cases w <;> simp only [Width.bits, Width.capLimitLog, maxAlloc] at h hpow hdiv <;>
      norm_num at h hpow hdiv <;> omega
  · intro h
    have hpow : 2 ^ e ≤ 2 ^ w.capLimitLog := Nat.pow_le_pow_right (by norm_num) h
    have hdiv : 2 ^ e / w.bits ≤ 2 ^ w.capLimitLog / w.bits := Nat.div_le_div_right hpow
    generalize (2 : Nat) ^ e = x at hpow hdiv
    cases w <;> simp only [Width.bits, Width.capLimitLog, maxAlloc] at hpow hdiv ⊢ <;>
      norm_num at hpow hdiv ⊢ <;> omega

/-- Within the limit the constructor returns the table of `makeTableBits`. -/
theorem makeTableLimited_some (w : Width) (c : Int) (maxLoad : ℚ) (seed : Nat)
    (hc : c ≤ 2 ^ w.capLimitLog) :
    ∃ e, e ≤ w.capLimitLog ∧ (w.bits : Int) ≤ ((2 ^ e : Nat) : Int) ∧
      c ≤ ((2 ^ e : Nat) : Int) ∧
      (∀ e2 : Nat, (w.bits : Int) ≤ ((2 ^ e2 : Nat) : Int) → c ≤ ((2 ^ e2 : Nat) : Int) → e ≤ e2) ∧
      makeTableLimited w c maxLoad seed =
        some { len := 0, cap := 2 ^ e, maxLen := ⌈maxLoad * ((2 ^ e : Nat) : ℚ)⌉,
               maxLoad := maxLoad, seed := seed,
               table := List.replicate (2 ^ e / w.bits + 2 * 2 ^ e) 0 } := by
  have hlim := w.capLimitLog_le
  have hc61 : c ≤ 2 ^ 61 := by
    have : (2 : Int) ^ w.capLimitLog ≤ 2 ^ 61 := by
      exact_mod_cast (Nat.pow_le_pow_right (by norm_num) hlim : 2 ^ w.capLimitLog ≤ 2 ^ 61)
    omega
  obtain ⟨e, he, hW, hce, hleast, hnp⟩ := roundedCap_eq w c hc61
  have hele : e ≤ w.capLimitLog := hleast _ (by exact_mod_cast w.bits_le_capLimit)
    (by push_cast; exact hc)
  have hp61 : 2 ^ e ≤ 2 ^ 61 := Nat.pow_le_pow_right (by norm_num) he
  have hfit := (buffer_fits_iff w e).2 hele
  refine ⟨e, hele, hW, hce, hleast, ?_⟩
  rw [makeTableLimited_unfold, hnp, init_len w (2 ^ e) hp61]
  have hcond : ¬ (((2 ^ e / w.bits + 2 * 2 ^ e : Nat) : Int) < 0 ∨
      (maxAlloc : Int) < ((w.bits / 8 : Nat) : Int) * ((2 ^ e / w.bits + 2 * 2 ^ e : Nat) : Int)) := by
    intro h
    rcases h with h | h
    · exact absurd h (not_lt.2 (Int.natCast_nonneg _))
    · have : ((w.bits / 8 : Nat) : Int) * ((2 ^ e / w.bits + 2 * 2 ^ e : Nat) : Int) =
          (((w.bits / 8) * (2 ^ e / w.bits + 2 * 2 ^ e) : Nat) : Int) := by push_cast; ring
      rw [this] at h
      have h2 : maxAlloc < (w.bits / 8) * (2 ^ e / w.bits + 2 * 2 ^ e) := by exact_mod_cast h
      omega
  rw [if_neg hcond]
  obtain ⟨e1, _, _, hce1, hleast1, heq⟩ := makeTableBits_eq w c maxLoad seed hc61
  have h1 : e1 ≤ e := hleast1 e hW hce
  have h2 : e ≤ e1 := hleast e1 (by assumption) hce1
  have : e1 = e := by omega
  subst this
  exact heq

/-- Beyond the limit the constructor panics in `make`. -/
theorem makeTableLimited_none (w : Width) (c : Int) (maxLoad : ℚ) (seed : Nat)
    (hlo : 2 ^ w.capLimitLog < c) (hhi : c < 2 ^ 63) :
    makeTableLimited w c maxLoad seed = none := by
  by_cases hc61 : c ≤ 2 ^ 61
  · obtain ⟨e, he, hW, hce, hleast, hnp⟩ := roundedCap_eq w c hc61
    have hp61 : 2 ^ e ≤ 2 ^ 61 := Nat.pow_le_pow_right (by norm_num) he
    have hlt : ¬ e ≤ w.capLimitLog := by
      intro hle
      have : (2 : Nat) ^ e ≤ 2 ^ w.capLimitLog := Nat.pow_le_pow_right (by norm_num) hle
      have h2 : ((2 ^ e : Nat) : Int) ≤ 2 ^ w.capLimitLog := by exact_mod_cast this
      omega
    have hfit := mt (buffer_fits_iff w e).1 hlt
    rw [makeTableLimited_unfold, hnp, init_len w (2 ^ e) hp61]
    rw [if_pos]
    right
    have : ((w.bits / 8 : Nat) : Int) * ((2 ^ e / w.bits + 2 * 2 ^ e : Nat) : Int) =
        (((w.bits / 8) * (2 ^ e / w.bits + 2 * 2 ^ e) : Nat) : Int) := by push_cast; ring
    rw [this]
    have h2 : maxAlloc < (w.bits / 8) * (2 ^ e / w.bits + 2 * 2 ^ e) := by omega
    exact_mod_cast h2
  · rw [makeTableLimited_unfold]
    exact ite_none_of_none (makeTableBits_none w c maxLoad seed (by omega) hhi)

end

section

set_option maxRecDepth 100000

variable {w : Width} {hash : Nat → Nat → Nat}

/-- C9, counterexample: with the hint `2 ^ 45` the buffer of a 32-bit table,
and with the hint `2 ^ 44` the buffer of a 64-bit table, exceeds the largest
allocation of the runtime, and with the hint `2 ^ 62` the length of the buffer,
`cap/W + 2*cap`, does not even fit an `int`: the constructors panic in `make`. -/
theorem make_panics_above_limit :
    (35184372088832 : Int) ≤ 2 ^ 62 ∧ (17592186044416 : Int) ≤ 2 ^ 62 ∧
      makeTableLimited .w32 35184372088832 (3 / 4) 0 = none ∧
      makeTableLimited .w64 17592186044416 (3 / 4) 0 = none ∧
      makeTableLimited .w32 4611686018427387904 (3 / 4) 0 = none ∧
      makeTableLimited .w64 4611686018427387904 (3 / 4) 0 = none ∧
      makeTable32bits 4611686018427387904 (3 / 4) 0 = none ∧
      makeTable64bits 4611686018427387904 (3 / 4) 0 = none :=
  ⟨by norm_num, by norm_num, by decide!, by decide!, by decide!, by decide!,
    makeTableBits_none .w32 _ _ _ (by norm_num) (by norm_num),
    makeTableBits_none .w64 _ _ _ (by norm_num) (by norm_num)⟩

/-- C9, amended: for every capacity hint `c` (zero and negative included) up to
`2 ^ 44` for the 32-bit tables and `2 ^ 43` for the 64-bit tables and every
`maxLoad`, the constructor returns a table with `len = 0`, an all-zero buffer of
`cap/W + 2*cap` words, which is within the allocation limit of the runtime, and
`cap` the least power of two that is at least `max c W`, where `W` is 32 for the
32-bit tables and 64 for the 64-bit tables; a hint that is a power of two at
least `W` is kept.  For every larger hint `make` panics. -/
theorem make_rounds_capacity (w : Width) (c : Int) (maxLoad : ℚ) (seed : Nat)
    (hc : c < 2 ^ 63) :
    (c ≤ 2 ^ w.capLimitLog →
      ∃ t e, makeTableLimited w c maxLoad seed = some t ∧ t.len = 0 ∧ t.cap = 2 ^ e ∧
        t.table = List.replicate (t.cap / w.bits + 2 * t.cap) 0 ∧
        (w.bits / 8) * t.table.length ≤ maxAlloc ∧
        w.bits ≤ t.cap ∧ c ≤ (t.cap : Int) ∧
        (∀ e2 : Nat, w.bits ≤ 2 ^ e2 → c ≤ ((2 ^ e2 : Nat) : Int) → t.cap ≤ 2 ^ e2) ∧
        (∀ k : Nat, c = ((2 ^ k : Nat) : Int) → w.bits ≤ 2 ^ k → (t.cap : Int) = c) ∧
        t.maxLoad = maxLoad ∧ t.seed = seed) ∧
      (2 ^ w.capLimitLog < c → makeTableLimited w c maxLoad seed = none) := by
  refine ⟨?_, fun hlo => makeTableLimited_none w c maxLoad seed hlo hc⟩
  intro hle
  obtain ⟨e, hele, hW, hce, hleast, heq⟩ := makeTableLimited_some w c maxLoad seed hle
  have hWn : w.bits ≤ 2 ^ e := by exact_mod_cast hW
  have hmin : ∀ e2 : Nat, w.bits ≤ 2 ^ e2 → c ≤ ((2 ^ e2 : Nat) : Int) → 2 ^ e ≤ 2 ^ e2 := by
    intro e2 h1 h2
    exact Nat.pow_le_pow_right (by norm_num) (hleast e2 (by exact_mod_cast h1) h2)
  refine ⟨_, e, heq, rfl, rfl, rfl, ?_, hWn, hce, hmin, ?_, rfl, rfl⟩
  · show (w.bits / 8) * (List.replicate (2 ^ e / w.bits + 2 * 2 ^ e) 0).length ≤ maxAlloc
    rw [List.length_replicate]
    exact (buffer_fits_iff w e).2 hele
  · intro k hk hWk
    have h1 : 2 ^ e ≤ 2 ^ k := hmin k hWk (by rw [hk])
    have h2 : ((2 ^ k : Nat) : Int) ≤ ((2 ^ e : Nat) : Int) := by rw [← hk]; exact hce
    have h3 : 2 ^ k ≤ 2 ^ e := by exact_mod_cast h2
    rw [hk]
    show ((2 ^ e : Nat) : Int) = ((2 ^ k : Nat) : Int)
    exact_mod_cast le_antisymm h1 h3

theorem make_rounds_capacity_witness :
    (100 : Int) < 2 ^ 63 ∧ (100 : Int) ≤ 2 ^ Width.w32.capLimitLog ∧
      makeTableLimited .w32 100 (3 / 4) 9 = some demoLarge ∧
      (((100 : Int) ≤ 2 ^ Width.w32.capLimitLog →
        ∃ t e, makeTableLimited .w32 100 (3 / 4) 9 = some t ∧ t.len = 0 ∧ t.cap = 2 ^ e ∧
          t.table = List.replicate (t.cap / Width.w32.bits + 2 * t.cap) 0 ∧
          (Width.w32.bits / 8) * t.table.length ≤ maxAlloc ∧
          Width.w32.bits ≤ t.cap ∧ (100 : Int) ≤ (t.cap : Int) ∧
          (∀ e2 : Nat, Width.w32.bits ≤ 2 ^ e2 → (100 : Int) ≤ ((2 ^ e2 : Nat) : Int) →
            t.cap ≤ 2 ^ e2) ∧
          (∀ k : Nat, (100 : Int) = ((2 ^ k : Nat) : Int) → Width.w32.bits ≤ 2 ^ k →
            (t.cap : Int) = 100) ∧
          t.maxLoad = 3 / 4 ∧ t.seed = 9) ∧
        ((2 : Int) ^ Width.w32.capLimitLog < 100 → makeTableLimited .w32 100 (3 / 4) 9 = none)) :=
  ⟨by norm_num, by decide, by decide!, make_rounds_capacity .w32 100 (3 / 4) 9 (by norm_num)⟩

/-- C13, counterexample: the constructor returns a table for the load factors
0, 1, 2 and -1/2, with `maxLen` 0, 32, 64 and -16. -/
theorem constructor_accepts_any_load :
    NewUint32Table 32 0 7 = some { len := 0, cap := 32, maxLen := 0, maxLoad := 0, seed := 7,
                                   table := List.replicate 65 0 } ∧
      NewUint32Table 32 1 7 = some { len := 0, cap := 32, maxLen := 32, maxLoad := 1, seed := 7,
                                     table := List.replicate 65 0 } ∧
      NewUint32Table 32 2 7 = some { len := 0, cap := 32, maxLen := 64, maxLoad := 2, seed := 7,
                                     table := List.replicate 65 0 } ∧
      NewUint32Table 32 (-1 / 2) 7 =
        some { len := 0, cap := 32, maxLen := -16, maxLoad := -1 / 2, seed := 7,
               table := List.replicate 65 0 } ∧
      makeTableLimited .w32 32 0 7 = NewUint32Table 32 0 7 ∧
      makeTableLimited .w32 32 1 7 = NewUint32Table 32 1 7 ∧
      makeTableLimited .w32 32 2 7 = NewUint32Table 32 2 7 ∧
      makeTableLimited .w32 32 (-1 / 2) 7 = NewUint32Table 32 (-1 / 2) 7 := by
  refine ⟨by decide!, by decide!, by decide!, by decide!, by decide!, by decide!, by decide!,
    by decide!⟩

/-- C13, amended: the constructors do not check the load factor and have no
error result: for every hint within the allocation limit (`2 ^ 44` for the
32-bit tables, `2 ^ 43` for the 64-bit tables) and every load factor between -2
and 2, whether inside `(0, 1)` or not, they return an empty table that stores
the load factor as given, with `maxLen = ⌈maxLoad * cap⌉`, which fits an `int`.
For a larger hint `make` panics, whatever the load factor. -/
theorem constructor_keeps_load (w : Width) (c : Int) (maxLoad : ℚ) (seed : Nat)
    (hc : c < 2 ^ 63) (hlo : -2 ≤ maxLoad) (hhi : maxLoad ≤ 2) :
    (c ≤ 2 ^ w.capLimitLog →
      ∃ t, makeTableLimited w c maxLoad seed = some t ∧ t.maxLoad = maxLoad ∧ t.len = 0 ∧
        t.maxLen = ⌈maxLoad * (t.cap : ℚ)⌉ ∧ -2 ^ 62 ≤ t.maxLen ∧ t.maxLen ≤ 2 ^ 62) ∧
      (2 ^ w.capLimitLog < c → makeTableLimited w c maxLoad seed = none) := by
  refine ⟨?_, fun h => makeTableLimited_none w c maxLoad seed h hc⟩
  intro hle
  obtain ⟨e, hele, _, _, _, heq⟩ := makeTableLimited_some w c maxLoad seed hle
  have he : e ≤ 61 := le_trans hele w.capLimitLog_le
  have hcap : ((2 ^ e : Nat) : ℚ) ≤ 2 ^ 61 := by
    have : (2 : Nat) ^ e ≤ 2 ^ 61 := Nat.pow_le_pow_right (by norm_num) he
    exact_mod_cast this
  have hcap0 : (0 : ℚ) ≤ ((2 ^ e : Nat) : ℚ) := Nat.cast_nonneg _
  have hup : maxLoad * ((2 ^ e : Nat) : ℚ) ≤ 2 * 2 ^ 61 :=
    mul_le_mul hhi hcap hcap0 (by norm_num)
  have hdown : -maxLoad * ((2 ^ e : Nat) : ℚ) ≤ 2 * 2 ^ 61 :=
    mul_le_mul (by linarith) hcap hcap0 (by norm_num)
  refine ⟨_, heq, rfl, rfl, rfl, ?_, ?_⟩
  · show (-2 ^ 62 : Int) ≤ ⌈maxLoad * ((2 ^ e : Nat) : ℚ)⌉
    have h1 : ((-2 ^ 62 : Int) : ℚ) ≤ maxLoad * ((2 ^ e : Nat) : ℚ) := by
      have : ((-2 ^ 62 : Int) : ℚ) = -(2 * 2 ^ 61) := by norm_num
      rw [this]; linarith
    exact Int.cast_le.1 (le_trans h1 (Int.le_ceil _))
  · show ⌈maxLoad * ((2 ^ e : Nat) : ℚ)⌉ ≤ (2 ^ 62 : Int)
    apply Int.ceil_le.2
    have : ((2 ^ 62 : Int) : ℚ) = 2 * 2 ^ 61 := by norm_num
    rw [this]; exact hup

theorem constructor_keeps_load_witness :
    (32 : Int) < 2 ^ 63 ∧ (-2 : ℚ) ≤ 2 ∧ (2 : ℚ) ≤ 2 ∧ (32 : Int) ≤ 2 ^ Width.w32.capLimitLog ∧
      (((32 : Int) ≤ 2 ^ Width.w32.capLimitLog →
        ∃ t, makeTableLimited .w32 32 2 7 = some t ∧ t.maxLoad = 2 ∧ t.len = 0 ∧
          t.maxLen = ⌈(2 : ℚ) * (t.cap : ℚ)⌉ ∧ -2 ^ 62 ≤ t.maxLen ∧ t.maxLen ≤ 2 ^ 62) ∧
        ((2 : Int) ^ Width.w32.capLimitLog < 32 → makeTableLimited .w32 32 2 7 = none)) :=
  ⟨by norm_num, by norm_num, le_refl _, by decide,
    constructor_keeps_load .w32 32 2 7 (by norm_num) (by norm_num) (le_refl _)⟩

end

end hashprobe
